import Mathlib

/-!
Verification development for the GSEA file-processing utility
(compression engines LZ77 / Huffman / RLE / LZW, stream ciphers
ChaCha20 / Salsa20 / RC4, the compression dispatcher and the
pipeline orchestrator).

Every definition below is a shallow embedding of the corresponding C
function of the repository, translated statement by statement.  Bytes
are natural numbers (with explicit bounds where the C type matters),
byte buffers are lists, machine integers are naturals reduced modulo
the relevant power of two exactly where the C width matters, and
fallible functions return an Except value mirroring the C error codes.
-/

set_option maxRecDepth 10000
set_option linter.unusedVariables false

deriving instance DecidableEq for Except

/-- Error codes of common.h (GSEA_SUCCESS is represented by Except.ok). -/
inductive GseaErr
  | args
  | file
  | memory
  | compression
  | encryption
  | thread
deriving DecidableEq

/-- Error codes of huffman.h. -/
inductive HuffErr
  | memory
  | input
  | corrupt
deriving DecidableEq

/-- Error codes of rle.h. -/
inductive RleErr
  | memory
  | input
  | corrupt
deriving DecidableEq

/-- Error codes of lzw.h, plus a marker for the out-of-bounds reads the C
code can perform (reading the uninitialised CLEAR_CODE slot, or reading
past the end of the input buffer); such an access is undefined behaviour
in the source, not a returned error code. -/
inductive LzwErr
  | input
  | memory
  | corrupt
  | oob
deriving DecidableEq

/-- Little-endian byte reading: the value of a byte list, least
significant byte first (the read loops in the cipher and codec headers). -/
def leVal : List Nat → Nat
  | [] => 0
  | b :: bs => b % 256 + 256 * leVal bs

/-- Write a value as n little-endian bytes, as the serialisation loops and
memcpy of size_t fields do (the value is retained modulo 2^(8 n)). -/
def leBytes : Nat → Nat → List Nat
  | 0, _ => []
  | n + 1, v => (v % 256) :: leBytes n (v / 256)

/-- Big-endian value of a byte list (the LZ77 header read loop,
orig_size = (orig_size << 8) | data[i]). -/
def beVal (l : List Nat) : Nat :=
  l.foldl (fun a b => a * 256 + b % 256) 0

/-- The 8-byte big-endian header written by lz77_compress. -/
def beBytes8 (v : Nat) : List Nat :=
  (leBytes 8 v).reverse

/-- Array indexing, written nth l i for the C expression l[i]; every use
in the development is in bounds, so the default value 0 is never the
observed result on the paths the source can take. -/
def nth (l : List Nat) (i : Nat) : Nat :=
  (l[i]?).getD 0

/-! ## LZ77 engine (lz77.c) -/

/-- WINDOW_SIZE from lz77.c. -/
def WINDOW_SIZE : Nat := 4096

/-- LOOKAHEAD_SIZE from lz77.c. -/
def LOOKAHEAD_SIZE : Nat := 18

/-- MIN_MATCH_LENGTH from lz77.c. -/
def MIN_MATCH_LENGTH : Nat := 3

/-- An LZ77 token (struct lz77_token_t): offset 0 encodes a pure literal. -/
structure Lz77Token where
  offset : Nat
  length : Nat
  next_char : Nat
deriving DecidableEq

/-- Pointwise update of the hash table (hash_table[i] = v). -/
def tblSet (t : Nat → Nat) (i v : Nat) : Nat → Nat :=
  fun j => if j = i then v else t j

/-- compute_hash from lz77.c masked by HASH_MASK, written arithmetically:
the C code computes ((a << 16) | (b << 8) | c) & 0xFFFF, which for bytes
a, b, c equals (a * 65536 + b * 256 + c) mod 65536. -/
def compute_hash (a b c : Nat) : Nat :=
  (a * 65536 + b * 256 + c) % 65536

/-- The match-extension while loop of find_longest_match, with an explicit
fuel bound so the recursion is structural; the fuel is set to the loop
bound lookEnd - (pos + len), after which the loop guard is false anyway. -/
def extendMatchGo (data : List Nat) (cand pos lookEnd : Nat) : Nat → Nat → Nat
  | 0, len => len
  | fuel + 1, len =>
    if pos + len < lookEnd ∧ nth data (cand + len) = nth data (pos + len) then
      extendMatchGo data cand pos lookEnd fuel (len + 1)
    else len

/-- The match-extension while loop of find_longest_match: starting from a
verified 3-byte match, extend while inside the lookahead window and the
bytes keep agreeing. -/
def extendMatch (data : List Nat) (cand pos lookEnd len : Nat) : Nat :=
  extendMatchGo data cand pos lookEnd (lookEnd - (pos + len)) len

/-- find_longest_match from lz77.c: probe the single hash bucket, verify a
3-byte match inside the window, extend it, and overwrite the bucket with
the current position cast to uint16_t.  Returns ((best_offset,
best_length), updated hash table). -/
def find_longest_match (tbl : Nat → Nat) (data : List Nat) (pos : Nat) :
    (Nat × Nat) × (Nat → Nat) :=
  if pos + 2 ≥ data.length then ((0, 0), tbl)
  else
    let window_start := if pos > WINDOW_SIZE then pos - WINDOW_SIZE else 0
    let lookahead_end :=
      if pos + LOOKAHEAD_SIZE < data.length then pos + LOOKAHEAD_SIZE else data.length
    let h := compute_hash (nth data pos) (nth data (pos + 1)) (nth data (pos + 2))
    let candidate := tbl h
    let best :=
      if candidate ≥ window_start ∧ candidate < pos ∧
          nth data candidate = nth data pos ∧
          nth data (candidate + 1) = nth data (pos + 1) ∧
          nth data (candidate + 2) = nth data (pos + 2) then
        (pos - candidate, extendMatch data candidate pos lookahead_end 3)
      else (0, 0)
    (best, tblSet tbl h (pos % 65536))

/-- The token-producing main loop of lz77_compress with an explicit fuel
bound (the loop advances by at least one position per iteration, so
data.length - pos iterations suffice). -/
def lz77TokensGo (data : List Nat) : Nat → (Nat → Nat) → Nat → List Lz77Token
  | 0, _, _ => []
  | fuel + 1, tbl, pos =>
    if pos < data.length then
      let r := find_longest_match tbl data pos
      if r.1.2 ≥ MIN_MATCH_LENGTH then
        let nc := if pos + r.1.2 < data.length then nth data (pos + r.1.2) else 0
        ⟨r.1.1 % 65536, r.1.2 % 256, nc⟩ :: lz77TokensGo data fuel r.2 (pos + r.1.2 + 1)
      else
        ⟨0, 0, nth data pos⟩ :: lz77TokensGo data fuel r.2 (pos + 1)
    else []

/-- The token-producing main loop of lz77_compress: at each position run
find_longest_match, emit either a back-reference token (advancing by
length + 1) or a literal token (advancing by 1). -/
def lz77Tokens (tbl : Nat → Nat) (data : List Nat) (pos : Nat) : List Lz77Token :=
  lz77TokensGo data (data.length - pos) tbl pos

/-- write_token from lz77.c: 4 bytes, offset big-endian first. -/
def tokenBytes (t : Lz77Token) : List Nat :=
  [t.offset / 256 % 256, t.offset % 256, t.length % 256, t.next_char % 256]

/-- lz77_compress: the tbl argument is the process-wide static hash table
as left by earlier calls; the function clears it (memset) before use, then
writes the 8-byte big-endian original-size header followed by the token
stream.  Empty input is rejected with GSEA_ERROR_ARGS. -/
def lz77_compress (tbl : Nat → Nat) (input : List Nat) :
    Except GseaErr (List Nat) :=
  if input.length = 0 then .error .args
  else
    let cleared : Nat → Nat := fun _ => 0
    .ok (beBytes8 input.length ++ (lz77Tokens cleared input 0).flatMap tokenBytes)

/-- The byte-by-byte back-reference copy of lz77_decompress: reads are at
ref_pos + i in the growing output, so overlapping self-referential copies
see the bytes appended by earlier iterations. -/
def refCopy (out : List Nat) (ref : Nat) : Nat → List Nat
  | 0 => out
  | n + 1 => refCopy (out ++ [nth out ref]) (ref + 1) n

/-- The token-reading loop of lz77_decompress, including read_token:
a truncated token yields GSEA_ERROR_COMPRESSION, an offset larger than the
current output yields GSEA_ERROR_COMPRESSION, the literal is appended only
while the output has not reached the declared original size, and a final
size mismatch yields GSEA_ERROR_COMPRESSION. -/
def lz77DecodeGo (input : List Nat) (orig : Nat) :
    Nat → Nat → List Nat → Except GseaErr (List Nat)
  | 0, pos, out =>
    if out.length = orig then .ok out else .error .compression
  | fuel + 1, pos, out =>
    if pos < input.length ∧ out.length < orig then
      if pos + 4 > input.length then .error .compression
      else
        let offset := (nth input pos) % 256 * 256 + (nth input (pos + 1)) % 256
        let len := (nth input (pos + 2)) % 256
        let nc := (nth input (pos + 3)) % 256
        if offset > 0 ∧ len > 0 then
          if offset > out.length then .error .compression
          else
            let out1 := refCopy out (out.length - offset) len
            let out2 := if out1.length < orig then out1 ++ [nc] else out1
            lz77DecodeGo input orig fuel (pos + 4) out2
        else
          let out2 := if out.length < orig then out ++ [nc] else out
          lz77DecodeGo input orig fuel (pos + 4) out2
    else if out.length = orig then .ok out
    else .error .compression

/-- The token-reading loop of lz77_decompress, fuel instantiated to the
remaining input length (each iteration consumes 4 input bytes). -/
def lz77DecodeLoop (input : List Nat) (pos orig : Nat) (out : List Nat) :
    Except GseaErr (List Nat) :=
  lz77DecodeGo input orig (input.length - pos) pos out

/-- lz77_decompress from lz77.c: inputs shorter than 12 bytes are rejected
with GSEA_ERROR_ARGS, a zero declared size returns an empty buffer, and
otherwise the token loop runs from byte 8. -/
def lz77_decompress (input : List Nat) : Except GseaErr (List Nat) :=
  if input.length < 12 then .error .args
  else
    let orig := beVal (input.take 8)
    if orig = 0 then .ok []
    else lz77DecodeLoop input 8 orig []

/-! ## Pipeline orchestrator (process_file_operations, main.c) -/

/-- The requested operation set (the operation_t flags of common.h). -/
structure Ops where
  compress : Bool
  decompress : Bool
  encrypt : Bool
  decrypt : Bool
deriving DecidableEq

/-- One pipeline stage executed by process_file_operations. -/
inductive Stage
  | compress
  | decompress
  | encrypt
  | decrypt
deriving DecidableEq

/-- The stage sequence of process_file_operations (main.c): the first
stage is chosen by the compress_first / decompress_first / encrypt_first /
decrypt_first if-else chain, and a second stage runs only when
(compress_first or decrypt_first) holds and the operation set contains
ENCRYPT or DECOMPRESS, choosing ENCRYPT over DECOMPRESS. -/
def pipelineStages (ops : Ops) : List Stage :=
  let compress_first := ops.compress
  let decrypt_first := ops.decrypt
  let decompress_first := !decrypt_first && ops.decompress
  let encrypt_first := !compress_first && ops.encrypt
  let first : List Stage :=
    if compress_first then [.compress]
    else if decompress_first then [.decompress]
    else if encrypt_first then [.encrypt]
    else if decrypt_first then [.decrypt]
    else []
  let second : List Stage :=
    if (compress_first || decrypt_first) && (ops.encrypt || ops.decompress) then
      if ops.encrypt then [.encrypt] else [.decompress]
    else []
  first ++ second

/-- The operation-set validation of parse_arguments (arg_parser.c): at
least one operation is required, and the two mutually exclusive pairs
COMPRESS+DECOMPRESS and ENCRYPT+DECRYPT are rejected. -/
def configValid (ops : Ops) : Bool :=
  (ops.compress || ops.decompress || ops.encrypt || ops.decrypt) &&
    !(ops.compress && ops.decompress) && !(ops.encrypt && ops.decrypt)

/-- The ordering property exactly as claim C5 states it: COMPRESS, when
requested, runs as stage 1 with ENCRYPT (if also requested) as stage 2,
and DECRYPT, when requested, runs as stage 1 with DECOMPRESS (if also
requested) as stage 2. -/
def c5ClaimedOrder (ops : Ops) : Prop :=
  (ops.compress = true →
    (pipelineStages ops).head? = some .compress ∧
      (ops.encrypt = true → (pipelineStages ops)[1]? = some .encrypt)) ∧
  (ops.decrypt = true →
    (pipelineStages ops).head? = some .decrypt ∧
      (ops.decompress = true → (pipelineStages ops)[1]? = some .decompress))

/-- The amended ordering property: the DECRYPT half only holds when
COMPRESS is not also requested; the operation set containing both
COMPRESS and DECRYPT passes the validator but runs COMPRESS alone. -/
def c5AmendedOrder (ops : Ops) : Prop :=
  (ops.compress = true →
    (pipelineStages ops).head? = some .compress ∧
      (ops.encrypt = true → (pipelineStages ops)[1]? = some .encrypt)) ∧
  (ops.decrypt = true → ops.compress = false →
    (pipelineStages ops).head? = some .decrypt ∧
      (ops.decompress = true → (pipelineStages ops)[1]? = some .decompress))

instance (ops : Ops) : Decidable (c5ClaimedOrder ops) := by
  unfold c5ClaimedOrder; infer_instance

instance (ops : Ops) : Decidable (c5AmendedOrder ops) := by
  unfold c5AmendedOrder; infer_instance

/-! ## Stream ciphers (chacha20.c, salsa20.c, rc4.c) -/

/-- Error codes of the low-level cipher layers (CHACHA20_ERROR_MEMORY and
similar). -/
inductive CipherErr
  | memory
  | input
deriving DecidableEq

/-- The 32-bit modulus. -/
def U32 : Nat := 4294967296

/-- The 64-bit modulus. -/
def U64 : Nat := 18446744073709551616

/-- ROTL32, the circular left rotation on 32-bit words used by all three
cipher files. -/
def rotl32 (x n : Nat) : Nat :=
  ((x <<< n) % U32) + (x % U32) / 2 ^ (32 - n)

/-- load32_le: read a 32-bit little-endian word at an offset. -/
def load32le (l : List Nat) (off : Nat) : Nat :=
  leVal ((l.drop off).take 4)

/-- The shared educational key-derivation hash simple_hash, byte-identical
in chacha20.c, salsa20.c and rc4.c: absorption step for input byte i. -/
def simpleHashAbsorb (st : List Nat) (i b : Nat) : List Nat :=
  let idx := i % 8
  let v := rotl32 ((nth st idx) ^^^ (b % 256)) 7
  let st1 := st.set idx v
  st1.set ((idx + 1) % 8) ((nth st1 ((idx + 1) % 8) + v) % U32)

/-- The absorption loop of simple_hash over the whole input. -/
def simpleHashAbsorbAll (st : List Nat) (i : Nat) : List Nat → List Nat
  | [] => st
  | b :: bs => simpleHashAbsorbAll (simpleHashAbsorb st i b) (i + 1) bs

/-- One of the 1000 extra mixing rounds of simple_hash: the eight updates
are performed in place, so later updates see earlier ones. -/
def simpleHashMixStep (st : List Nat) : List Nat :=
  (List.range 8).foldl
    (fun s i =>
      s.set i (rotl32 ((nth s i + nth s ((i + 1) % 8)) % U32) 11))
    st

/-- simple_hash: derive 32 output bytes from an arbitrary input. -/
def simple_hash (input : List Nat) : List Nat :=
  let st0 : List Nat := [0x6a09e667, 0xbb67ae85, 0x3c6ef372, 0xa54ff53a,
                         0x510e527f, 0x9b05688c, 0x1f83d9ab, 0x5be0cd19]
  let st1 := simpleHashAbsorbAll st0 0 input
  let st2 := (List.range 1000).foldl (fun s _ => simpleHashMixStep s) st1
  (List.range 8).flatMap (fun i => leBytes 4 (nth st2 i))

/-- The ChaCha20 quarter round. -/
def chachaQR (a b c d : Nat) : Nat × Nat × Nat × Nat :=
  let a1 := (a + b) % U32
  let d1 := rotl32 (d ^^^ a1) 16
  let c1 := (c + d1) % U32
  let b1 := rotl32 (b ^^^ c1) 12
  let a2 := (a1 + b1) % U32
  let d2 := rotl32 (d1 ^^^ a2) 8
  let c2 := (c1 + d2) % U32
  let b2 := rotl32 (b1 ^^^ c2) 7
  (a2, b2, c2, d2)

/-- Apply the ChaCha20 quarter round at four state indices. -/
def chachaApplyQR (s : List Nat) (i j k l : Nat) : List Nat :=
  let r := chachaQR (nth s i) (nth s j) (nth s k) (nth s l)
  (((s.set i r.1).set j r.2.1).set k r.2.2.1).set l r.2.2.2

/-- One double round of chacha20_block: four column rounds then four
diagonal rounds. -/
def chachaDoubleRound (s : List Nat) : List Nat :=
  let s := chachaApplyQR s 0 4 8 12
  let s := chachaApplyQR s 1 5 9 13
  let s := chachaApplyQR s 2 6 10 14
  let s := chachaApplyQR s 3 7 11 15
  let s := chachaApplyQR s 0 5 10 15
  let s := chachaApplyQR s 1 6 11 12
  let s := chachaApplyQR s 2 7 8 13
  chachaApplyQR s 3 4 9 14

/-- Iterate a function n times (the for loops of the block functions). -/
def iterateN {α : Type} (f : α → α) : Nat → α → α
  | 0, a => a
  | n + 1, a => iterateN f n (f a)

/-- chacha20_block: 10 double rounds, add the original state, serialise
the 16 words little-endian into 64 keystream bytes. -/
def chacha20_block (input : List Nat) : List Nat :=
  let x := iterateN chachaDoubleRound 10 input
  let y := (List.range 16).map (fun i => (nth x i + nth input i) % U32)
  (List.range 16).flatMap (fun i => leBytes 4 (nth y i))

/-- The ChaCha20 context: 16-word state, one cached keystream block and a
cursor into it (chacha20_ctx_t).  The keystream cache starts out
uninitialised in C and unread here, since the cursor starts at the block
size. -/
structure ChaCtx where
  state : List Nat
  keystream : List Nat
  keystream_pos : Nat
deriving DecidableEq

/-- chacha20_init: the expand-32-byte-k constants at words 0-3, eight key
words at 4-11, the 32-bit counter at word 12, three nonce words at 13-15;
the keystream cursor starts at CHACHA20_BLOCK_SIZE. -/
def chacha20_init (key nonce : List Nat) (counter : Nat) : ChaCtx :=
  { state := [0x61707865, 0x3320646e, 0x79622d32, 0x6b206574,
      load32le key 0, load32le key 4, load32le key 8, load32le key 12,
      load32le key 16, load32le key 20, load32le key 24, load32le key 28,
      counter % U32,
      load32le nonce 0, load32le nonce 4, load32le nonce 8],
    keystream := List.replicate 64 0,
    keystream_pos := 64 }

/-- The keystream-refill step at the top of the chacha20_crypt loop: when
the cursor has reached the block size, generate a block from the current
state, reset the cursor, and increment the 32-bit counter word, failing
with CHACHA20_ERROR_INPUT if the counter wraps to 0. -/
def chachaRefill (ctx : ChaCtx) : Except CipherErr ChaCtx :=
  if ctx.keystream_pos ≥ 64 then
    let ks := chacha20_block ctx.state
    let c1 := (nth ctx.state 12 + 1) % U32
    if c1 = 0 then .error .input
    else .ok { state := ctx.state.set 12 c1, keystream := ks, keystream_pos := 0 }
  else .ok ctx

/-- chacha20_crypt: refill the keystream cache when needed, then XOR the
next input byte with the next keystream byte. -/
def chacha20_crypt (ctx : ChaCtx) : List Nat → Except CipherErr (List Nat × ChaCtx)
  | [] => .ok ([], ctx)
  | x :: rest =>
    match chachaRefill ctx with
    | .error e => .error e
    | .ok ctx1 =>
      let b := (x % 256) ^^^ nth ctx1.keystream ctx1.keystream_pos
      match chacha20_crypt { ctx1 with keystream_pos := ctx1.keystream_pos + 1 } rest with
      | .ok (out, ctx2) => .ok (b :: out, ctx2)
      | .error e => .error e

/-- The sequence of 32-bit counter values whose keystream blocks are
actually consumed by chacha20_crypt (the state word 12 at each refill
that does not abort); mirrors the recursion of chacha20_crypt. -/
def chachaTrace (ctx : ChaCtx) : List Nat → List Nat
  | [] => []
  | _ :: rest =>
    if ctx.keystream_pos ≥ 64 then
      let c0 := nth ctx.state 12
      if (c0 + 1) % U32 = 0 then []
      else
        c0 :: chachaTrace
          { state := ctx.state.set 12 ((c0 + 1) % U32),
            keystream := chacha20_block ctx.state, keystream_pos := 1 } rest
    else chachaTrace { ctx with keystream_pos := ctx.keystream_pos + 1 } rest

/-- The number of further bytes chacha20_crypt can produce from a context
before the 32-bit counter would wrap: the unread remainder of the cached
block plus 64 bytes per remaining counter value. -/
def chachaCap (ctx : ChaCtx) : Nat :=
  (if ctx.keystream_pos < 64 then 64 - ctx.keystream_pos else 0) +
    64 * (U32 - 1 - nth ctx.state 12)

/-- chacha20_encrypt: derive the 32-byte key and the 12-byte nonce from
the passphrase, write nonce, 8-byte little-endian original size and the
ciphertext; a crypt failure (counter wrap) is reported as
GSEA_ERROR_ENCRYPTION. -/
def chacha20_encrypt (input key : List Nat) : Except GseaErr (List Nat) :=
  if key.length = 0 then .error .args
  else
    let dkey := simple_hash key
    let nonce := (simple_hash key).take 12
    let ctx := chacha20_init dkey nonce 1
    match chacha20_crypt ctx input with
    | .error _ => .error .encryption
    | .ok (ct, _) => .ok (nonce ++ leBytes 8 input.length ++ ct)

/-- chacha20_decrypt: re-derive the key, read the embedded nonce and
original size, check the declared size against the remaining length, and
run the same keystream XOR. -/
def chacha20_decrypt (input key : List Nat) : Except GseaErr (List Nat) :=
  if key.length = 0 then .error .args
  else if input.length < 12 + 8 then .error .encryption
  else
    let dkey := simple_hash key
    let nonce := input.take 12
    let orig := leVal ((input.drop 12).take 8)
    if 20 + orig ≠ input.length then .error .encryption
    else
      let ctx := chacha20_init dkey nonce 1
      match chacha20_crypt ctx (input.drop 20) with
      | .error _ => .error .encryption
      | .ok (pt, _) => .ok pt

/-- The Salsa20 quarter round. -/
def salsaQR (y0 y1 y2 y3 : Nat) : Nat × Nat × Nat × Nat :=
  let z1 := y1 ^^^ rotl32 ((y0 + y3) % U32) 7
  let z2 := y2 ^^^ rotl32 ((z1 + y0) % U32) 9
  let z3 := y3 ^^^ rotl32 ((z2 + z1) % U32) 13
  let z0 := y0 ^^^ rotl32 ((z3 + z2) % U32) 18
  (z0, z1, z2, z3)

/-- Apply the Salsa20 quarter round at four state indices. -/
def salsaApplyQR (s : List Nat) (i j k l : Nat) : List Nat :=
  let r := salsaQR (nth s i) (nth s j) (nth s k) (nth s l)
  (((s.set i r.1).set j r.2.1).set k r.2.2.1).set l r.2.2.2

/-- salsa20_row_round. -/
def salsaRowRound (y : List Nat) : List Nat :=
  let y := salsaApplyQR y 0 1 2 3
  let y := salsaApplyQR y 5 6 7 4
  let y := salsaApplyQR y 10 11 8 9
  salsaApplyQR y 15 12 13 14

/-- salsa20_column_round. -/
def salsaColumnRound (x : List Nat) : List Nat :=
  let x := salsaApplyQR x 0 4 8 12
  let x := salsaApplyQR x 5 9 13 1
  let x := salsaApplyQR x 10 14 2 6
  salsaApplyQR x 15 3 7 11

/-- salsa20_double_round: column round then row round. -/
def salsaDoubleRound (x : List Nat) : List Nat :=
  salsaRowRound (salsaColumnRound x)

/-- salsa20_block: 10 double rounds, add the original state, serialise
little-endian. -/
def salsa20_block (input : List Nat) : List Nat :=
  let x := iterateN salsaDoubleRound 10 input
  let y := (List.range 16).map (fun i => (nth x i + nth input i) % U32)
  (List.range 16).flatMap (fun i => leBytes 4 (nth y i))

/-- The Salsa20 context (salsa20_ctx_t): 16-word state, keystream cache,
cursor, and the 64-bit block counter kept alongside the state words. -/
structure SalsaCtx where
  state : List Nat
  keystream : List Nat
  keystream_pos : Nat
  counter : Nat
deriving DecidableEq

/-- salsa20_init with the state layout of salsa20.c: constants at 0, 5,
10, 15, key words at 1-4 and 11-14, nonce words at 6-7, counter words at
8-9. -/
def salsa20_init (key nonce : List Nat) (counter : Nat) : SalsaCtx :=
  { state := [0x61707865,
      load32le key 0, load32le key 4, load32le key 8, load32le key 12,
      0x3320646e,
      load32le nonce 0, load32le nonce 4,
      counter % U32, counter / U32 % U32,
      0x79622d32,
      load32le key 16, load32le key 20, load32le key 24, load32le key 28,
      0x6b206574],
    keystream := List.replicate 64 0,
    keystream_pos := 64,
    counter := counter % U64 }

/-- The keystream-refill step at the top of the salsa20_crypt loop: when
the cursor has reached the block size, generate a block, reset the
cursor, and increment the 64-bit counter, storing its two halves into
state words 8 and 9 (this cannot fail). -/
def salsaRefill (ctx : SalsaCtx) : SalsaCtx :=
  if ctx.keystream_pos ≥ 64 then
    let ks := salsa20_block ctx.state
    let c1 := (ctx.counter + 1) % U64
    { state := (ctx.state.set 8 (c1 % U32)).set 9 (c1 / U32 % U32),
      keystream := ks, keystream_pos := 0, counter := c1 }
  else ctx

/-- salsa20_crypt: refill the keystream cache when needed, then XOR the
next input byte with the next keystream byte. -/
def salsa20_crypt (ctx : SalsaCtx) : List Nat → List Nat × SalsaCtx
  | [] => ([], ctx)
  | x :: rest =>
    let ctx1 := salsaRefill ctx
    let b := (x % 256) ^^^ nth ctx1.keystream ctx1.keystream_pos
    let r := salsa20_crypt ⟨ctx1.state, ctx1.keystream, ctx1.keystream_pos + 1, ctx1.counter⟩ rest
    (b :: r.1, r.2)

/-- salsa20_encrypt: derive key and nonce, reject empty input with
GSEA_ERROR_ARGS, and frame nonce, little-endian size, ciphertext. -/
def salsa20_encrypt (input key : List Nat) : Except GseaErr (List Nat) :=
  if key.length = 0 then .error .args
  else if input.length = 0 then .error .args
  else
    let dkey := simple_hash key
    let nonce := (simple_hash key).take 8
    let ctx := salsa20_init dkey nonce 0
    let ct := (salsa20_crypt ctx input).1
    .ok (nonce ++ leBytes 8 input.length ++ ct)

/-- salsa20_decrypt: inputs below the 16-byte minimum are rejected with
GSEA_ERROR_ARGS; a declared size differing from the remaining length is
rejected with GSEA_ERROR_ENCRYPTION. -/
def salsa20_decrypt (input key : List Nat) : Except GseaErr (List Nat) :=
  if key.length = 0 then .error .args
  else if input.length < 16 then .error .args
  else
    let dkey := simple_hash key
    let nonce := input.take 8
    let orig := leVal ((input.drop 8).take 8)
    if orig ≠ input.length - 16 then .error .encryption
    else
      let ctx := salsa20_init dkey nonce 0
      .ok (salsa20_crypt ctx (input.drop 16)).1

/-- The RC4 context: the 256-byte permutation and the two indices. -/
structure Rc4Ctx where
  S : List Nat
  i : Nat
  j : Nat
deriving DecidableEq

/-- rc4_init: identity permutation followed by the key-scheduling
algorithm. -/
def rc4_init (key : List Nat) : Rc4Ctx :=
  let start : List Nat := List.range 256
  let r := (List.range 256).foldl
    (fun (p : List Nat × Nat) i =>
      let s := p.1
      let j := (p.2 + nth s i + (nth key (i % key.length)) % 256) % 256
      let si := nth s i
      let sj := nth s j
      ((s.set i sj).set j si, j))
    (start, 0)
  { S := r.1, i := 0, j := 0 }

/-- One step of the RC4 pseudo-random generation algorithm: advance the
two indices, swap, and produce the keystream byte K. -/
def rc4Next (ctx : Rc4Ctx) : Rc4Ctx × Nat :=
  let i1 := (ctx.i + 1) % 256
  let j1 := (ctx.j + nth ctx.S i1) % 256
  let si := nth ctx.S i1
  let sj := nth ctx.S j1
  let s1 := (ctx.S.set i1 sj).set j1 si
  (⟨s1, i1, j1⟩, nth s1 ((nth s1 i1 + nth s1 j1) % 256))

/-- rc4_crypt: the pseudo-random generation algorithm, one keystream byte
per input byte, XORed with the input. -/
def rc4_crypt (ctx : Rc4Ctx) : List Nat → List Nat × Rc4Ctx
  | [] => ([], ctx)
  | x :: rest =>
    let n := rc4Next ctx
    let r := rc4_crypt n.1 rest
    (((x % 256) ^^^ n.2) :: r.1, r.2)

/-- rc4_encrypt: derive a 16-byte key (first 16 bytes of simple_hash),
reject empty input with GSEA_ERROR_ARGS, and frame the 8-byte
little-endian size followed by the ciphertext (no nonce). -/
def rc4_encrypt (input key : List Nat) : Except GseaErr (List Nat) :=
  if key.length = 0 then .error .args
  else if input.length = 0 then .error .args
  else
    let dkey := (simple_hash key).take 16
    let ctx := rc4_init dkey
    .ok (leBytes 8 input.length ++ (rc4_crypt ctx input).1)

/-- rc4_decrypt: inputs below 8 bytes and declared-size mismatches are
rejected with GSEA_ERROR_ENCRYPTION. -/
def rc4_decrypt (input key : List Nat) : Except GseaErr (List Nat) :=
  if key.length = 0 then .error .args
  else if input.length < 8 then .error .encryption
  else
    let dkey := (simple_hash key).take 16
    let orig := leVal (input.take 8)
    if 8 + orig ≠ input.length then .error .encryption
    else
      let ctx := rc4_init dkey
      .ok (rc4_crypt ctx (input.drop 8)).1

/-! ## RLE engine (rle.c) -/

/-- RLE_MAX_RUN_LENGTH from rle.h. -/
def RLE_MAX_RUN_LENGTH : Nat := 255

/-- The rle_compressed_t structure (the size field is data.length). -/
structure RleCompressed where
  data : List Nat
  original_size : Nat
deriving DecidableEq

/-- The run-counting loop of rle_compress: extend the run while the next
byte matches and the count stays below RLE_MAX_RUN_LENGTH; fuel covers
the remaining input. -/
def rleRunLenGo (input : List Nat) (i current : Nat) : Nat → Nat → Nat
  | 0, rl => rl
  | fuel + 1, rl =>
    if i + rl < input.length ∧ nth input (i + rl) = current ∧ rl < RLE_MAX_RUN_LENGTH then
      rleRunLenGo input i current fuel (rl + 1)
    else rl

/-- The length of the run starting at position i. -/
def rleRunLen (input : List Nat) (i current : Nat) : Nat :=
  rleRunLenGo input i current (input.length - (i + 1)) 1

/-- The main loop of rle_compress, emitting count and value per run. -/
def rleCompressGo (input : List Nat) : Nat → Nat → List Nat
  | 0, _ => []
  | fuel + 1, i =>
    if i < input.length then
      let current := nth input i
      let rl := rleRunLen input i current
      rl :: current :: rleCompressGo input fuel (i + rl)
    else []

/-- rle_compress: empty input is rejected with RLE_ERROR_INPUT, otherwise
the run stream is built and the original size recorded. -/
def rle_compress (input : List Nat) : Except RleErr RleCompressed :=
  if input.length = 0 then .error .input
  else .ok ⟨rleCompressGo input input.length 0, input.length⟩

/-- The expansion loop of rle_decompress: read count and value pairs,
rejecting a truncated pair or an overflowing run with RLE_ERROR_CORRUPT,
and finally requiring the output to reach the declared size exactly. -/
def rleDecodeGo (data : List Nat) (orig : Nat) :
    Nat → Nat → List Nat → Except RleErr (List Nat)
  | 0, _, out => if out.length = orig then .ok out else .error .corrupt
  | fuel + 1, in_pos, out =>
    if in_pos < data.length ∧ out.length < orig then
      if in_pos + 1 ≥ data.length then .error .corrupt
      else
        let count := nth data in_pos % 256
        let value := nth data (in_pos + 1) % 256
        if out.length + count > orig then .error .corrupt
        else rleDecodeGo data orig fuel (in_pos + 2) (out ++ List.replicate count value)
    else if out.length = orig then .ok out
    else .error .corrupt

/-- rle_decompress from rle.c. -/
def rle_decompress (c : RleCompressed) : Except RleErr (List Nat) :=
  rleDecodeGo c.data c.original_size c.data.length 0 []

/-- rle_serialize: original size, compressed size, then the run stream. -/
def rle_serialize (c : RleCompressed) : List Nat :=
  leBytes 8 c.original_size ++ leBytes 8 c.data.length ++ c.data

/-- rle_deserialize: 16-byte minimum, then the declared compressed size
must equal the remaining length exactly (the size_t sum taken modulo
2^64 as in the C arithmetic). -/
def rle_deserialize (input : List Nat) : Except RleErr RleCompressed :=
  if input.length < 16 then .error .corrupt
  else
    let orig := leVal (input.take 8)
    let size := leVal ((input.drop 8).take 8)
    if input.length ≠ (16 + size) % 2 ^ 64 then .error .corrupt
    else .ok ⟨input.drop 16, orig⟩

/-! ## Huffman engine (huffman.c) -/

/-- A Huffman tree; the nodes built by build_huffman_tree always carry
two children, so the embedding makes that structural. -/
inductive HTree
  | leaf (symbol : Nat) (frequency : Nat)
  | node (frequency : Nat) (left right : HTree)
deriving DecidableEq

/-- The frequency field of a node. -/
def HTree.freq : HTree → Nat
  | .leaf _ f => f
  | .node f _ _ => f

/-- The list of leaf symbols of a tree, left to right. -/
def HTree.syms : HTree → List Nat
  | .leaf s _ => [s]
  | .node _ l r => l.syms ++ r.syms

/-- Indexing into a heap array of tree nodes. -/
def htget (l : List HTree) (i : Nat) : HTree :=
  (l[i]?).getD (.leaf 0 0)

/-- The sift-up loop of insert_min_heap: move parents down while the new
node has strictly smaller frequency, then place the node; fuel is the
start index, which bounds the number of parent steps. -/
def heapSiftUpGo (node : HTree) : Nat → List HTree → Nat → List HTree
  | 0, arr, i => arr.set i node
  | fuel + 1, arr, i =>
    if i > 0 ∧ node.freq < (htget arr ((i - 1) / 2)).freq then
      heapSiftUpGo node fuel (arr.set i (htget arr ((i - 1) / 2))) ((i - 1) / 2)
    else arr.set i node

/-- insert_min_heap: a full heap (capacity HUFFMAN_SYMBOLS = 256) ignores
the insertion; otherwise the node is appended and sifted up. -/
def insert_min_heap (heap : List HTree) (node : HTree) : List HTree :=
  if heap.length = 256 then heap
  else heapSiftUpGo node heap.length (heap ++ [node]) heap.length

/-- The min_heapify sift-down loop: find the smallest of parent and
children by strict frequency comparison, swap and continue; fuel covers
the array length. -/
def minHeapifyGo : Nat → List HTree → Nat → List HTree
  | 0, arr, _ => arr
  | fuel + 1, arr, idx =>
    let l := 2 * idx + 1
    let r := 2 * idx + 2
    let s1 := if l < arr.length ∧ (htget arr l).freq < (htget arr idx).freq then l else idx
    let s2 := if r < arr.length ∧ (htget arr r).freq < (htget arr s1).freq then r else s1
    if s2 ≠ idx then
      minHeapifyGo fuel ((arr.set idx (htget arr s2)).set s2 (htget arr idx)) s2
    else arr

/-- extract_min: take the root, move the last element to the front and
sift it down; an empty heap yields none (the C NULL). -/
def extract_min (heap : List HTree) : Option (HTree × List HTree) :=
  match heap with
  | [] => none
  | h0 :: rest =>
    if rest.isEmpty then some (h0, [])
    else some (h0,
      minHeapifyGo rest.length (htget rest (rest.length - 1) :: rest.dropLast) 0)

/-- The leaf-insertion phase of build_huffman_tree: one leaf per symbol
with nonzero frequency, in symbol order. -/
def buildLeaves (freq : List Nat) : List HTree :=
  (List.range 256).foldl
    (fun h i => if nth freq i > 0 then insert_min_heap h (.leaf i (nth freq i)) else h) []

/-- The merge loop of build_huffman_tree: repeatedly extract the two
minimum nodes and insert their parent (frequency summed as uint32), until
one tree remains, which the final extract_min returns. -/
def mergeLoopGo : Nat → List HTree → Option HTree
  | 0, heap => (extract_min heap).map (fun p => p.1)
  | fuel + 1, heap =>
    if heap.length > 1 then
      match extract_min heap with
      | none => none
      | some (l, heap1) =>
        match extract_min heap1 with
        | none => none
        | some (r, heap2) =>
          mergeLoopGo fuel (insert_min_heap heap2 (.node ((l.freq + r.freq) % U32) l r))
    else (extract_min heap).map (fun p => p.1)

/-- build_huffman_tree from huffman.c. -/
def build_huffman_tree (freq : List Nat) : Option HTree :=
  mergeLoopGo (buildLeaves freq).length (buildLeaves freq)

/-- generate_codes as an association list in traversal order (left = 0,
right = 1); the C array write makes the last entry for a symbol win. -/
def genCodes : HTree → List Bool → List (Nat × List Bool)
  | .leaf s _, pref => [(s, pref)]
  | .node _ l r, pref => genCodes l (pref ++ [false]) ++ genCodes r (pref ++ [true])

/-- The code assigned to a symbol by generate_codes: the last traversal
entry for it, or the empty code for symbols the zero-initialised code
array never sees. -/
def codeOf (t : HTree) (s : Nat) : List Bool :=
  match (genCodes t []).reverse.find? (fun p => p.1 = s) with
  | some p => p.2
  | none => []

/-- The value of up to eight bits packed MSB-first into one byte. -/
def bitsToByte (bs : List Bool) : Nat :=
  bs.foldl (fun a b => 2 * a + (if b then 1 else 0)) 0

/-- The bit-packing loop of huffman_compress: whole bytes MSB-first, the
last byte padded with zero bits (the calloc leaves them clear). -/
def packBitsGo : Nat → List Bool → List Nat
  | 0, _ => []
  | fuel + 1, bits =>
    if bits.isEmpty then []
    else
      bitsToByte (bits.take 8 ++ List.replicate (8 - (bits.take 8).length) false) ::
        packBitsGo fuel (bits.drop 8)

/-- Pack a bit list into bytes. -/
def packBits (bits : List Bool) : List Nat :=
  packBitsGo bits.length bits

/-- The eight bits of a byte, most significant first (the decode loop
reads bit 7 down to bit 0). -/
def byteBits (b : Nat) : List Bool :=
  [b.testBit 7, b.testBit 6, b.testBit 5, b.testBit 4,
   b.testBit 3, b.testBit 2, b.testBit 1, b.testBit 0]

/-- Follow a bit path from a node (left on false, right on true); used to
relate generate_codes to the decode walk. -/
def walkTo : HTree → List Bool → Option HTree
  | t, [] => some t
  | .leaf _ _, _ :: _ => none
  | .node _ l r, b :: bs => walkTo (if b then r else l) bs

/-- The huffman_compressed_t structure (the size field is data.length). -/
structure HuffmanCompressed where
  data : List Nat
  original_size : Nat
  freq_table : List Nat
deriving DecidableEq

/-- The frequency counting loop of huffman_compress: 256 uint32 counters,
incremented modulo 2^32. -/
def computeFreq (input : List Nat) : List Nat :=
  input.foldl (fun f b => f.set (b % 256) ((nth f (b % 256) + 1) % U32))
    (List.replicate 256 0)

/-- huffman_compress: empty input is HUFFMAN_ERROR_INPUT; a failed tree
build (empty heap) is HUFFMAN_ERROR_MEMORY, as in the C NULL-root path; a
single-leaf root takes the one-symbol special case emitting that symbol
as the single payload byte; otherwise the input is encoded bit by bit
through the generated codes. -/
def huffman_compress (input : List Nat) : Except HuffErr HuffmanCompressed :=
  if input.length = 0 then .error .input
  else
    let freq := computeFreq input
    match build_huffman_tree freq with
    | none => .error .memory
    | some (.leaf s _) => .ok ⟨[s], input.length, freq⟩
    | some (.node f l r) =>
      .ok ⟨packBits (input.flatMap (fun b => codeOf (.node f l r) (b % 256))),
        input.length, freq⟩

/-- The bit-by-bit decoding walk of huffman_decompress: follow children
until a leaf, emit and restart at the root, stopping once the output has
reached the declared original size; running out of bits first, or a walk
that would leave the tree, is HUFFMAN_ERROR_CORRUPT. -/
def hWalk (root : HTree) (need : Nat) : HTree → List Bool → List Nat →
    Except HuffErr (List Nat)
  | _, [], acc => if acc.length ≥ need then .ok acc else .error .corrupt
  | cur, bit :: restBits, acc =>
    if acc.length ≥ need then .ok acc
    else
      match cur with
      | .leaf _ _ => .error .corrupt
      | .node _ l r =>
        match (if bit then r else l) with
        | .leaf s _ => hWalk root need root restBits (acc ++ [s])
        | .node f2 l2 r2 => hWalk root need (.node f2 l2 r2) restBits acc

/-- huffman_decompress: rebuild the tree from the frequency table; a
single-leaf root replays the special case by repeating the symbol
original_size times; otherwise decode the packed bitstream. -/
def huffman_decompress (c : HuffmanCompressed) : Except HuffErr (List Nat) :=
  match build_huffman_tree c.freq_table with
  | none => .error .memory
  | some (.leaf s _) => .ok (List.replicate c.original_size s)
  | some (.node f l r) =>
    hWalk (.node f l r) c.original_size (.node f l r) (c.data.flatMap byteBits) []

/-- The 256-entry frequency table serialised as uint32 little-endian. -/
def freqBytes (freq : List Nat) : List Nat :=
  freq.flatMap (fun v => leBytes 4 v)

/-- Read n little-endian uint32 words. -/
def freqReadGo : Nat → List Nat → List Nat
  | 0, _ => []
  | n + 1, l => leVal (l.take 4) :: freqReadGo n (l.drop 4)

/-- huffman_serialize: original size, compressed size, frequency table,
payload. -/
def huffman_serialize (c : HuffmanCompressed) : List Nat :=
  leBytes 8 c.original_size ++ leBytes 8 c.data.length ++ freqBytes c.freq_table ++ c.data

/-- huffman_deserialize: 1040-byte minimum (16 + 256 * 4), then the
declared compressed size must equal the remaining length exactly (size_t
sum modulo 2^64). -/
def huffman_deserialize (input : List Nat) : Except HuffErr HuffmanCompressed :=
  if input.length < 1040 then .error .corrupt
  else
    let orig := leVal (input.take 8)
    let size := leVal ((input.drop 8).take 8)
    if input.length ≠ (1040 + size) % 2 ^ 64 then .error .corrupt
    else .ok ⟨input.drop 1040, orig, freqReadGo 256 (input.drop 16)⟩

/-! ## LZW engine (lzw.c) -/

/-- LZW_INIT_DICT_SIZE from lzw.h. -/
def LZW_INIT_DICT_SIZE : Nat := 256

/-- LZW_MAX_DICT_SIZE from lzw.h. -/
def LZW_MAX_DICT_SIZE : Nat := 4096

/-- The lzw_compressed_t structure (code_count is codes.length). -/
structure LzwCompressed where
  codes : List Nat
  original_size : Nat
deriving DecidableEq

/-- One entry of the compressor dictionary, by index: entries 0-255 are
the initial single symbols (prefix 0xFFFF), entry 256 is the CLEAR_CODE
slot the initialization loop leaves unused (calloc clears its used flag),
and entries from 257 on are the added (prefix, character) pairs. -/
def lzwDictEntry (added : List (Nat × Nat)) (i : Nat) : Option (Nat × Nat) :=
  if i < 256 then some (65535, i)
  else if i = 256 then none
  else added[i - 257]?

/-- find_in_dict from lzw.c: linear scan over the used entries below
dict_size (= 257 + added.length) for a (prefix, character) match,
returning the first matching index. -/
def find_in_dict (added : List (Nat × Nat)) (w k : Nat) : Option Nat :=
  (List.range (257 + added.length)).find? (fun i =>
    match lzwDictEntry added i with
    | some e => e.1 == w && e.2 == k
    | none => false)

/-- The main loop of lzw_compress, structural on the remaining input: if
w+k is in the dictionary w becomes its code, otherwise the code of w is
emitted, (w, k) is added while the dictionary has room, and w restarts at
k; the final w is emitted when the input ends. -/
def lzwCompressGo (w : Nat) (added : List (Nat × Nat)) : List Nat → List Nat
  | [] => [w]
  | k :: rest =>
    match find_in_dict added w (k % 256) with
    | some code => lzwCompressGo code added rest
    | none =>
      let added2 :=
        if 257 + added.length < LZW_MAX_DICT_SIZE then added ++ [(w, k % 256)]
        else added
      w :: lzwCompressGo (k % 256) added2 rest

/-- lzw_compress from lzw.c: empty input is LZW_ERROR_INPUT, otherwise
the first byte seeds w and the loop runs over the rest. -/
def lzw_compress (input : List Nat) : Except LzwErr LzwCompressed :=
  match input with
  | [] => .error .input
  | b :: rest => .ok ⟨lzwCompressGo (b % 256) [] rest, input.length⟩

/-- One entry of the decompressor string table, by index: 0-255 are the
single symbols, index 256 is the slot the initialization loop skips (its
pointer stays uninitialized, so dereferencing it is an undefined read),
and entries from 257 on are the added strings. -/
def lzwStrGet (added : List (List Nat)) (i : Nat) : Option (List Nat) :=
  if i < 256 then some [i]
  else if i = 256 then none
  else added[i - 257]?

/-- The code-processing loop of lzw_decompress.  A known code is looked up
(code 256 dereferences the uninitialized slot: undefined behavior, .oob);
code = dict_size is the KwKwK special case synthesized from old_code; a
larger code is LZW_ERROR_CORRUPT.  After the output-overflow check the
entry old_code + first byte of the sequence is added while the dictionary
has room.  When the dictionary is full no entry is added, and a code equal
to dict_size - 1 (4095) then makes the loop free that live dictionary
entry, which the cleanup frees a second time, so the call's behavior is
undefined (.error .oob).  Note there is no final output_pos ==
original_size check. -/
def lzwDecodeGo (orig : Nat) : List Nat → Nat → List (List Nat) → List Nat →
    Except LzwErr (List Nat)
  | [], _, _, out => .ok out
  | code :: rest, old, added, out =>
    if code < 257 + added.length then
      match lzwStrGet added code with
      | none => .error .oob
      | some seq =>
        if out.length + seq.length > orig then .error .corrupt
        else if 257 + added.length < LZW_MAX_DICT_SIZE then
          match lzwStrGet added old with
          | none => .error .oob
          | some sold =>
            lzwDecodeGo orig rest code (added ++ [sold ++ [seq.headD 0]]) (out ++ seq)
        else if code + 1 = 257 + added.length then .error .oob
        else lzwDecodeGo orig rest code added (out ++ seq)
    else if code = 257 + added.length then
      match lzwStrGet added old with
      | none => .error .oob
      | some sold =>
        let seq := sold ++ [sold.headD 0]
        if out.length + seq.length > orig then .error .corrupt
        else if 257 + added.length < LZW_MAX_DICT_SIZE then
          lzwDecodeGo orig rest code (added ++ [sold ++ [seq.headD 0]]) (out ++ seq)
        else lzwDecodeGo orig rest code added (out ++ seq)
    else .error .corrupt

/-- lzw_decompress from lzw.c: an empty code list returns an empty buffer;
a first code outside the initial 256 symbols is LZW_ERROR_CORRUPT; a
nonempty code list with a declared original size of zero writes the first
byte past a zero-byte allocation (undefined, .error .oob); otherwise the
first code seeds the output and old_code and the loop runs over the rest. -/
def lzw_decompress (c : LzwCompressed) : Except LzwErr (List Nat) :=
  match c.codes with
  | [] => .ok []
  | c0 :: rest =>
    if c0 ≥ LZW_INIT_DICT_SIZE then .error .corrupt
    else if c.original_size = 0 then .error .oob
    else lzwDecodeGo c.original_size rest c0 [] [c0]

/-- lzw_serialize: original size, code count, then each code as two
little-endian bytes. -/
def lzw_serialize (c : LzwCompressed) : List Nat :=
  leBytes 8 c.original_size ++ leBytes 8 c.codes.length ++
    c.codes.flatMap (fun cd => [cd % 256, cd / 256 % 256])

/-- Read n two-byte little-endian codes. -/
def lzwCodesRead : Nat → List Nat → List Nat
  | 0, _ => []
  | n + 1, l => (nth l 0 + nth l 1 * 256) :: lzwCodesRead n (l.drop 2)

/-- lzw_deserialize from lzw.c: 16-byte minimum; the declared code count
times two plus the header must match the container length, with the
multiplication and addition wrapping modulo 2^64 as size_t arithmetic
does, so a count of 2^63 or more can pass the check on a short container,
after which the code-reading loop reads far outside the input (undefined,
.error .oob). -/
def lzw_deserialize (input : List Nat) : Except LzwErr LzwCompressed :=
  if input.length < 16 then .error .corrupt
  else
    let orig := leVal (input.take 8)
    let cc := leVal ((input.drop 8).take 8)
    if input.length ≠ (16 + cc * 2) % 2 ^ 64 then .error .corrupt
    else if 2 ^ 64 ≤ 16 + cc * 2 then .error .oob
    else .ok ⟨lzwCodesRead cc (input.drop 16), orig⟩

/-! ## Compression dispatcher (compression.c) -/

/-- compression_algorithm_t from common.h. -/
inductive CompressionAlgorithm
  | lz77
  | huffman
  | rle
  | lzw
deriving DecidableEq

/-- compress_data from compression.c: COMP_LZ77 returns the engine's gsea
code directly; COMP_HUFFMAN and COMP_RLE run the engine then serialize,
mapping any engine failure to GSEA_ERROR_COMPRESSION; COMP_LZW has no
case and falls through to the default arguments error.  The tbl argument
is the process-wide static LZ77 hash table passed down to lz77_compress. -/
def compress_data (tbl : Nat → Nat) (input : List Nat)
    (algorithm : CompressionAlgorithm) : Except GseaErr (List Nat) :=
  match algorithm with
  | .lz77 => lz77_compress tbl input
  | .huffman =>
    match huffman_compress input with
    | .error _ => .error .compression
    | .ok c => .ok (huffman_serialize c)
  | .rle =>
    match rle_compress input with
    | .error _ => .error .compression
    | .ok c => .ok (rle_serialize c)
  | .lzw => .error .args

/-- decompress_data from compression.c: COMP_LZ77 direct; COMP_HUFFMAN
and COMP_RLE deserialize then run the engine, mapping failures to
GSEA_ERROR_COMPRESSION; COMP_LZW falls through to the default arguments
error. -/
def decompress_data (input : List Nat) (algorithm : CompressionAlgorithm) :
    Except GseaErr (List Nat) :=
  match algorithm with
  | .lz77 => lz77_decompress input
  | .huffman =>
    match huffman_deserialize input with
    | .error _ => .error .compression
    | .ok c =>
      match huffman_decompress c with
      | .error _ => .error .compression
      | .ok out => .ok out
  | .rle =>
    match rle_deserialize input with
    | .error _ => .error .compression
    | .ok c =>
      match rle_decompress c with
      | .error _ => .error .compression
      | .ok out => .ok out
  | .lzw => .error .args

/-! ## Supporting lemmas -/

theorem leBytes_length (n v : Nat) : (leBytes n v).length = n := by
  induction n generalizing v with
  | zero => rfl
  | succ k ih => simp [leBytes, ih]

theorem leBytes_lt (n v : Nat) : ∀ x ∈ leBytes n v, x < 256 := by
  induction n generalizing v with
  | zero => intro x hx; simp [leBytes] at hx
  | succ k ih =>
    intro x hx
    simp only [leBytes, List.mem_cons] at hx
    rcases hx with h | h
    · omega
    · exact ih _ x h

theorem leVal_leBytes (n v : Nat) : leVal (leBytes n v) = v % 256 ^ n := by
  induction n generalizing v with
  | zero => simp [leBytes, leVal, Nat.mod_one]
  | succ k ih =>
    have hp : (256 : Nat) ^ (k + 1) = 256 * 256 ^ k := by ring
    simp only [leBytes, leVal, ih, hp, Nat.mod_mul]
    omega

theorem beVal_append (l1 l2 : List Nat) :
    beVal (l1 ++ l2) = (l2.foldl (fun a b => a * 256 + b % 256) (beVal l1)) := by
  simp [beVal, List.foldl_append]

theorem beVal_reverse (l : List Nat) : beVal l.reverse = leVal l := by
  induction l with
  | nil => rfl
  | cons x xs ih =>
    simp only [List.reverse_cons, beVal_append, leVal]
    simp only [beVal] at ih ⊢
    simp [List.foldl, ih]
    ring

theorem beBytes8_length (v : Nat) : (beBytes8 v).length = 8 := by
  simp [beBytes8, leBytes_length]

theorem beBytes8_lt (v : Nat) : ∀ x ∈ beBytes8 v, x < 256 := by
  intro x hx
  simp only [beBytes8, List.mem_reverse] at hx
  exact leBytes_lt 8 v x hx

theorem beVal_beBytes8 (v : Nat) : beVal (beBytes8 v) = v % 2 ^ 64 := by
  have h : (256 : Nat) ^ 8 = 2 ^ 64 := by norm_num
  rw [beBytes8, beVal_reverse, leVal_leBytes, h]

theorem nth_lt_of_forall (l : List Nat) (i : Nat) (h : ∀ y ∈ l, y < 256) :
    nth l i < 256 := by
  rcases h' : l[i]? with _ | y
  · simp [nth, h']
  · have hm : y ∈ l := List.getElem?_mem h'
    simpa [nth, h'] using h y hm

theorem nth_set_self (l : List Nat) (i v : Nat) (h : i < l.length) :
    nth (l.set i v) i = v := by
  simp [nth, List.getElem?_set_self, h]

theorem nth_set_ne (l : List Nat) (i j v : Nat) (h : i ≠ j) :
    nth (l.set i v) j = nth l j := by
  simp [nth, List.getElem?_set_ne h]

theorem nth_lt_length (l : List Nat) (i : Nat) (h : i < l.length) :
    nth l i = l.get ⟨i, h⟩ := by
  simp [nth, List.getElem?_eq_getElem h]

theorem nth_append_left (l1 l2 : List Nat) (i : Nat) (h : i < l1.length) :
    nth (l1 ++ l2) i = nth l1 i := by
  simp [nth, List.getElem?_append_left h]

theorem nth_append_right (l1 l2 : List Nat) (i : Nat) (h : l1.length ≤ i) :
    nth (l1 ++ l2) i = nth l2 (i - l1.length) := by
  simp [nth, List.getElem?_append_right h]

theorem xor_byte_lt (a b : Nat) (ha : a < 256) (hb : b < 256) : a ^^^ b < 256 := by
  have := @Nat.xor_lt_two_pow a b 8 ha hb
  simpa using this

theorem xor_byte_cancel (a b : Nat) : (a ^^^ b) ^^^ b = a := by
  rw [Nat.xor_assoc, Nat.xor_self, Nat.xor_zero]

/-! ## Cipher lemmas -/

theorem flatMap_leBytes4_length (f : Nat → Nat) :
    ((List.range 8).flatMap (fun i => leBytes 4 (f i))).length = 32 := by
  simp [List.range_succ, leBytes_length]

theorem simple_hash_length (input : List Nat) : (simple_hash input).length = 32 := by
  exact flatMap_leBytes4_length _

theorem simple_hash_bytes (input : List Nat) : ∀ x ∈ simple_hash input, x < 256 := by
  intro x hx
  simp only [simple_hash, List.mem_flatMap] at hx
  obtain ⟨i, _, hmem⟩ := hx
  exact leBytes_lt 4 _ x hmem

theorem chacha20_block_bytes (s : List Nat) : ∀ x ∈ chacha20_block s, x < 256 := by
  intro x hx
  simp only [chacha20_block, List.mem_flatMap] at hx
  obtain ⟨i, _, hmem⟩ := hx
  exact leBytes_lt 4 _ x hmem

theorem salsa20_block_bytes (s : List Nat) : ∀ x ∈ salsa20_block s, x < 256 := by
  intro x hx
  simp only [salsa20_block, List.mem_flatMap] at hx
  obtain ⟨i, _, hmem⟩ := hx
  exact leBytes_lt 4 _ x hmem

theorem chacha20_crypt_length (xs : List Nat) :
    ∀ ctx ys c2, chacha20_crypt ctx xs = .ok (ys, c2) → ys.length = xs.length := by
  induction xs with
  | nil =>
    intro ctx ys c2 h
    simp only [chacha20_crypt, Except.ok.injEq, Prod.mk.injEq] at h
    simp [← h.1]
  | cons x rest ih =>
    intro ctx ys c2 h
    simp only [chacha20_crypt] at h
    cases hr : chachaRefill ctx with
    | error e => rw [hr] at h; simp at h
    | ok ctx1 =>
      rw [hr] at h
      simp only at h
      cases hrec : chacha20_crypt { ctx1 with keystream_pos := ctx1.keystream_pos + 1 } rest with
      | error e => rw [hrec] at h; simp at h
      | ok p =>
        obtain ⟨out, c3⟩ := p
        rw [hrec] at h
        simp only [Except.ok.injEq, Prod.mk.injEq] at h
        have := ih _ _ _ hrec
        simp [← h.1, this]

theorem chachaRefill_keystream (ctx ctx1 : ChaCtx)
    (hks : ∀ y ∈ ctx.keystream, y < 256)
    (h : chachaRefill ctx = .ok ctx1) : ∀ y ∈ ctx1.keystream, y < 256 := by
  unfold chachaRefill at h
  by_cases hpos : ctx.keystream_pos ≥ 64
  · simp only [hpos, if_true] at h
    by_cases hw : (nth ctx.state 12 + 1) % U32 = 0
    · simp [hw] at h
    · simp only [hw, if_false, Except.ok.injEq] at h
      rw [← h]
      exact chacha20_block_bytes ctx.state
  · simp only [hpos, if_false, Except.ok.injEq] at h
    rw [← h]
    exact hks

theorem chacha20_crypt_invol (xs : List Nat) :
    ∀ ctx ys c2, (∀ y ∈ ctx.keystream, y < 256) →
      chacha20_crypt ctx xs = .ok (ys, c2) →
      chacha20_crypt ctx ys = .ok (xs.map (· % 256), c2) := by
  induction xs with
  | nil =>
    intro ctx ys c2 hks h
    simp only [chacha20_crypt, Except.ok.injEq, Prod.mk.injEq] at h
    simp [← h.1, ← h.2, chacha20_crypt]
  | cons x rest ih =>
    intro ctx ys c2 hks h
    simp only [chacha20_crypt] at h
    cases hr : chachaRefill ctx with
    | error e => rw [hr] at h; simp at h
    | ok ctx1 =>
      rw [hr] at h
      simp only at h
      cases hrec : chacha20_crypt { ctx1 with keystream_pos := ctx1.keystream_pos + 1 } rest with
      | error e => rw [hrec] at h; simp at h
      | ok p =>
        obtain ⟨out, c3⟩ := p
        rw [hrec] at h
        simp only [Except.ok.injEq, Prod.mk.injEq] at h
        have hks1 : ∀ y ∈ ctx1.keystream, y < 256 := chachaRefill_keystream ctx ctx1 hks hr
        have hk : nth ctx1.keystream ctx1.keystream_pos < 256 :=
          nth_lt_of_forall _ _ hks1
        have hb : (x % 256) ^^^ nth ctx1.keystream ctx1.keystream_pos < 256 :=
          xor_byte_lt _ _ (by omega) hk
        have ihx := ih ({ ctx1 with keystream_pos := ctx1.keystream_pos + 1 } : ChaCtx)
          _ _ (by simpa using hks1) hrec
        rw [← h.1, ← h.2]
        simp only [chacha20_crypt, hr]
        rw [ihx]
        simp [Nat.mod_eq_of_lt hb, xor_byte_cancel]

theorem chachaRefill_id (ctx : ChaCtx) (hpos : ctx.keystream_pos < 64) :
    chachaRefill ctx = .ok ctx := by
  simp [chachaRefill, Nat.not_le.mpr hpos]

theorem chachaRefill_wrap (ctx : ChaCtx) (hpos : ctx.keystream_pos ≥ 64)
    (hw : (nth ctx.state 12 + 1) % U32 = 0) : chachaRefill ctx = .error .input := by
  simp [chachaRefill, hpos, hw]

theorem chachaRefill_spec (ctx : ChaCtx) (hpos : ctx.keystream_pos ≥ 64)
    (hw : (nth ctx.state 12 + 1) % U32 ≠ 0) :
    chachaRefill ctx =
      .ok ⟨ctx.state.set 12 ((nth ctx.state 12 + 1) % U32), chacha20_block ctx.state, 0⟩ := by
  simp [chachaRefill, hpos, hw]

theorem chacha20_crypt_cons_isOk (x : Nat) (rest : List Nat) (ctx ctx1 : ChaCtx)
    (hr : chachaRefill ctx = .ok ctx1) :
    (chacha20_crypt ctx (x :: rest)).isOk =
      (chacha20_crypt ⟨ctx1.state, ctx1.keystream, ctx1.keystream_pos + 1⟩ rest).isOk := by
  simp only [chacha20_crypt, hr]
  cases chacha20_crypt ⟨ctx1.state, ctx1.keystream, ctx1.keystream_pos + 1⟩ rest with
  | ok p => obtain ⟨o, c⟩ := p; rfl
  | error e => rfl

theorem chacha20_crypt_cons_err (x : Nat) (rest : List Nat) (ctx : ChaCtx) (e : CipherErr)
    (hr : chachaRefill ctx = .error e) :
    chacha20_crypt ctx (x :: rest) = .error e := by
  simp only [chacha20_crypt, hr]

theorem chacha20_crypt_isOk_iff (xs : List Nat) :
    ∀ ctx, 12 < ctx.state.length → nth ctx.state 12 < U32 →
      ((chacha20_crypt ctx xs).isOk = true ↔ xs.length ≤ chachaCap ctx) := by
  induction xs with
  | nil =>
    intro ctx h12 hc
    simp [chacha20_crypt, Except.isOk, Except.toBool]
  | cons x rest ih =>
    intro ctx h12 hc
    by_cases hpos : ctx.keystream_pos ≥ 64
    · by_cases hw : (nth ctx.state 12 + 1) % U32 = 0
      · rw [chacha20_crypt_cons_err x rest ctx _ (chachaRefill_wrap ctx hpos hw)]
        have hcw : nth ctx.state 12 = U32 - 1 := by
          simp only [U32] at hc hw ⊢
          omega
        simp only [Except.isOk, Except.toBool, List.length_cons, chachaCap,
          Nat.not_lt.mpr hpos, if_false, hcw]
        simp [U32]
      · rw [chacha20_crypt_cons_isOk x rest ctx _ (chachaRefill_spec ctx hpos hw)]
        dsimp only
        have hc1 : nth ctx.state 12 + 1 < U32 := by
          simp only [U32] at hc hw ⊢
          omega
        have hnewc : nth (ctx.state.set 12 ((nth ctx.state 12 + 1) % U32)) 12 =
            nth ctx.state 12 + 1 := by
          rw [nth_set_self _ _ _ (by omega), Nat.mod_eq_of_lt hc1]
        rw [ih ⟨ctx.state.set 12 ((nth ctx.state 12 + 1) % U32), chacha20_block ctx.state, 0 + 1⟩
          (by simpa using h12) (by simpa [hnewc] using hc1)]
        simp only [chachaCap, List.length_cons, Nat.not_lt.mpr hpos, if_false]
        rw [hnewc]
        simp only [U32] at hc1 ⊢
        constructor <;> intro h2
        · simp only [show ((0:Nat) + 1 < 64) = True by simp, if_true] at h2
          omega
        · simp only [show ((0:Nat) + 1 < 64) = True by simp, if_true]
          omega
    · have hplt : ctx.keystream_pos < 64 := by omega
      rw [chacha20_crypt_cons_isOk x rest ctx ctx (chachaRefill_id ctx hplt)]
      rw [ih ⟨ctx.state, ctx.keystream, ctx.keystream_pos + 1⟩ (by simpa using h12)
        (by simpa using hc)]
      simp only [chachaCap, List.length_cons]
      by_cases hq : ctx.keystream_pos + 1 < 64
      · simp only [hplt, hq, if_true]
        omega
      · simp only [hplt, hq, if_true, if_false]
        omega

theorem chacha20_crypt_cons_ok (x : Nat) (rest : List Nat) (ctx ctx1 : ChaCtx)
    (hr : chachaRefill ctx = .ok ctx1) :
    chacha20_crypt ctx (x :: rest) =
      match chacha20_crypt ⟨ctx1.state, ctx1.keystream, ctx1.keystream_pos + 1⟩ rest with
      | .ok (out, c2) => .ok (((x % 256) ^^^ nth ctx1.keystream ctx1.keystream_pos) :: out, c2)
      | .error e => .error e := by
  simp only [chacha20_crypt, hr]

theorem chachaTrace_cons_wrap (x : Nat) (rest : List Nat) (ctx : ChaCtx)
    (hpos : ctx.keystream_pos ≥ 64) (hw : (nth ctx.state 12 + 1) % U32 = 0) :
    chachaTrace ctx (x :: rest) = [] := by
  simp [chachaTrace, hpos, hw]

theorem chachaTrace_cons_big (x : Nat) (rest : List Nat) (ctx : ChaCtx)
    (hpos : ctx.keystream_pos ≥ 64) (hw : (nth ctx.state 12 + 1) % U32 ≠ 0) :
    chachaTrace ctx (x :: rest) =
      nth ctx.state 12 :: chachaTrace ⟨ctx.state.set 12 ((nth ctx.state 12 + 1) % U32),
        chacha20_block ctx.state, 1⟩ rest := by
  simp [chachaTrace, hpos, hw]

theorem chachaTrace_cons_small (x : Nat) (rest : List Nat) (ctx : ChaCtx)
    (hpos : ¬ ctx.keystream_pos ≥ 64) :
    chachaTrace ctx (x :: rest) =
      chachaTrace ⟨ctx.state, ctx.keystream, ctx.keystream_pos + 1⟩ rest := by
  simp [chachaTrace, hpos]

theorem chachaTrace_bounds (xs : List Nat) :
    ∀ ctx, 12 < ctx.state.length → nth ctx.state 12 < U32 →
      ∀ y ∈ chachaTrace ctx xs, nth ctx.state 12 ≤ y ∧ y < U32 := by
  induction xs with
  | nil => intro ctx h12 hc y hy; simp [chachaTrace] at hy
  | cons x rest ih =>
    intro ctx h12 hc y hy
    by_cases hpos : ctx.keystream_pos ≥ 64
    · by_cases hw : (nth ctx.state 12 + 1) % U32 = 0
      · rw [chachaTrace_cons_wrap x rest ctx hpos hw] at hy
        simp at hy
      · rw [chachaTrace_cons_big x rest ctx hpos hw] at hy
        have hc1 : nth ctx.state 12 + 1 < U32 := by
          simp only [U32] at hc hw ⊢
          omega
        have hnewc : nth (ctx.state.set 12 ((nth ctx.state 12 + 1) % U32)) 12 =
            nth ctx.state 12 + 1 := by
          rw [nth_set_self _ _ _ (by omega), Nat.mod_eq_of_lt hc1]
        rcases List.mem_cons.mp hy with h | h
        · exact ⟨Nat.le_of_eq h.symm, h ▸ hc⟩
        · have hb := ih ⟨ctx.state.set 12 ((nth ctx.state 12 + 1) % U32),
              chacha20_block ctx.state, 1⟩ (by simpa using h12) (by simpa [hnewc] using hc1) y h
          simp only [hnewc] at hb
          exact ⟨by omega, hb.2⟩
    · rw [chachaTrace_cons_small x rest ctx hpos] at hy
      exact ih ⟨ctx.state, ctx.keystream, ctx.keystream_pos + 1⟩ h12 hc y hy

theorem chachaTrace_pairwise (xs : List Nat) :
    ∀ ctx, 12 < ctx.state.length → nth ctx.state 12 < U32 →
      (chachaTrace ctx xs).Pairwise (· ≠ ·) := by
  induction xs with
  | nil => intro ctx h12 hc; simp [chachaTrace]
  | cons x rest ih =>
    intro ctx h12 hc
    by_cases hpos : ctx.keystream_pos ≥ 64
    · by_cases hw : (nth ctx.state 12 + 1) % U32 = 0
      · rw [chachaTrace_cons_wrap x rest ctx hpos hw]
        simp
      · rw [chachaTrace_cons_big x rest ctx hpos hw]
        have hc1 : nth ctx.state 12 + 1 < U32 := by
          simp only [U32] at hc hw ⊢
          omega
        have hnewc : nth (ctx.state.set 12 ((nth ctx.state 12 + 1) % U32)) 12 =
            nth ctx.state 12 + 1 := by
          rw [nth_set_self _ _ _ (by omega), Nat.mod_eq_of_lt hc1]
        refine List.Pairwise.cons ?_ (ih _ (by simpa using h12) (by simpa [hnewc] using hc1))
        intro y hy
        have hb := chachaTrace_bounds rest ⟨ctx.state.set 12 ((nth ctx.state 12 + 1) % U32),
            chacha20_block ctx.state, 1⟩ (by simpa using h12) (by simpa [hnewc] using hc1) y hy
        simp only [hnewc] at hb
        omega
    · rw [chachaTrace_cons_small x rest ctx hpos]
      exact ih ⟨ctx.state, ctx.keystream, ctx.keystream_pos + 1⟩ h12 hc

theorem chacha20_crypt_counter_link (xs : List Nat) :
    ∀ ctx ys c2, 12 < ctx.state.length → nth ctx.state 12 < U32 →
      chacha20_crypt ctx xs = .ok (ys, c2) →
      nth c2.state 12 = nth ctx.state 12 + (chachaTrace ctx xs).length := by
  induction xs with
  | nil =>
    intro ctx ys c2 h12 hc h
    simp only [chacha20_crypt, Except.ok.injEq, Prod.mk.injEq] at h
    simp [← h.2, chachaTrace]
  | cons x rest ih =>
    intro ctx ys c2 h12 hc h
    by_cases hpos : ctx.keystream_pos ≥ 64
    · by_cases hw : (nth ctx.state 12 + 1) % U32 = 0
      · rw [chacha20_crypt_cons_err x rest ctx _ (chachaRefill_wrap ctx hpos hw)] at h
        simp at h
      · rw [chacha20_crypt_cons_ok x rest ctx _ (chachaRefill_spec ctx hpos hw)] at h
        have hc1 : nth ctx.state 12 + 1 < U32 := by
          simp only [U32] at hc hw ⊢
          omega
        have hnewc : nth (ctx.state.set 12 ((nth ctx.state 12 + 1) % U32)) 12 =
            nth ctx.state 12 + 1 := by
          rw [nth_set_self _ _ _ (by omega), Nat.mod_eq_of_lt hc1]
        rw [chachaTrace_cons_big x rest ctx hpos hw]
        simp only [Nat.zero_add] at h
        cases hrec : chacha20_crypt ⟨ctx.state.set 12 ((nth ctx.state 12 + 1) % U32),
            chacha20_block ctx.state, 1⟩ rest with
        | error e => rw [hrec] at h; simp at h
        | ok p =>
          obtain ⟨out, c3⟩ := p
          rw [hrec] at h
          simp only [Except.ok.injEq, Prod.mk.injEq] at h
          have ihx := ih ⟨ctx.state.set 12 ((nth ctx.state 12 + 1) % U32),
              chacha20_block ctx.state, 1⟩ out c3 (by simpa using h12)
            (by simpa [hnewc] using hc1) hrec
          simp only [hnewc] at ihx
          rw [← h.2]
          simp only [List.length_cons]
          omega
    · have hplt : ctx.keystream_pos < 64 := by omega
      rw [chacha20_crypt_cons_ok x rest ctx ctx (chachaRefill_id ctx hplt)] at h
      rw [chachaTrace_cons_small x rest ctx hpos]
      cases hrec : chacha20_crypt ⟨ctx.state, ctx.keystream, ctx.keystream_pos + 1⟩ rest with
      | error e => rw [hrec] at h; simp at h
      | ok p =>
        obtain ⟨out, c3⟩ := p
        rw [hrec] at h
        simp only [Except.ok.injEq, Prod.mk.injEq] at h
        have ihx := ih ⟨ctx.state, ctx.keystream, ctx.keystream_pos + 1⟩ out c3 h12 hc hrec
        rw [← h.2]
        exact ihx

theorem salsaRefill_keystream (ctx : SalsaCtx) (hks : ∀ y ∈ ctx.keystream, y < 256) :
    ∀ y ∈ (salsaRefill ctx).keystream, y < 256 := by
  unfold salsaRefill
  by_cases hpos : ctx.keystream_pos ≥ 64
  · simp only [hpos, if_true]
    exact salsa20_block_bytes ctx.state
  · simp only [hpos, if_false]
    exact hks

theorem salsa20_crypt_length (xs : List Nat) :
    ∀ ctx, (salsa20_crypt ctx xs).1.length = xs.length := by
  induction xs with
  | nil => intro ctx; rfl
  | cons x rest ih =>
    intro ctx
    simp only [salsa20_crypt, List.length_cons]
    rw [ih]

theorem salsa20_crypt_invol (xs : List Nat) :
    ∀ ctx, (∀ y ∈ ctx.keystream, y < 256) →
      salsa20_crypt ctx (salsa20_crypt ctx xs).1 =
        (xs.map (· % 256), (salsa20_crypt ctx xs).2) := by
  induction xs with
  | nil => intro ctx hks; rfl
  | cons x rest ih =>
    intro ctx hks
    have hks1 : ∀ y ∈ (salsaRefill ctx).keystream, y < 256 := salsaRefill_keystream ctx hks
    have hk : nth (salsaRefill ctx).keystream (salsaRefill ctx).keystream_pos < 256 :=
      nth_lt_of_forall _ _ hks1
    have hb : (x % 256) ^^^ nth (salsaRefill ctx).keystream (salsaRefill ctx).keystream_pos < 256 :=
      xor_byte_lt _ _ (by omega) hk
    have ihx := ih ⟨(salsaRefill ctx).state, (salsaRefill ctx).keystream,
        (salsaRefill ctx).keystream_pos + 1, (salsaRefill ctx).counter⟩ (by simpa using hks1)
    simp only [salsa20_crypt]
    rw [ihx]
    simp [Nat.mod_eq_of_lt hb, xor_byte_cancel]

theorem rc4Next_bounds (ctx : Rc4Ctx) (hS : ∀ y ∈ ctx.S, y < 256) :
    (∀ y ∈ (rc4Next ctx).1.S, y < 256) ∧ (rc4Next ctx).2 < 256 := by
  simp only [rc4Next]
  constructor
  · intro y hy
    rcases List.mem_or_eq_of_mem_set hy with hy2 | hy2
    · rcases List.mem_or_eq_of_mem_set hy2 with hy3 | hy3
      · exact hS y hy3
      · rw [hy3]; exact nth_lt_of_forall _ _ hS
    · rw [hy2]; exact nth_lt_of_forall _ _ hS
  · apply nth_lt_of_forall
    intro y hy
    rcases List.mem_or_eq_of_mem_set hy with hy2 | hy2
    · rcases List.mem_or_eq_of_mem_set hy2 with hy3 | hy3
      · exact hS y hy3
      · rw [hy3]; exact nth_lt_of_forall _ _ hS
    · rw [hy2]; exact nth_lt_of_forall _ _ hS

theorem rc4_crypt_length (xs : List Nat) :
    ∀ ctx, (rc4_crypt ctx xs).1.length = xs.length := by
  induction xs with
  | nil => intro ctx; rfl
  | cons x rest ih =>
    intro ctx
    simp only [rc4_crypt, List.length_cons]
    rw [ih]

theorem rc4_crypt_invol (xs : List Nat) :
    ∀ ctx, (∀ y ∈ ctx.S, y < 256) →
      rc4_crypt ctx (rc4_crypt ctx xs).1 = (xs.map (· % 256), (rc4_crypt ctx xs).2) := by
  induction xs with
  | nil => intro ctx hS; rfl
  | cons x rest ih =>
    intro ctx hS
    have hn := rc4Next_bounds ctx hS
    have hb : (x % 256) ^^^ (rc4Next ctx).2 < 256 := xor_byte_lt _ _ (by omega) hn.2
    have ihx := ih (rc4Next ctx).1 hn.1
    simp only [rc4_crypt]
    rw [ihx]
    simp [Nat.mod_eq_of_lt hb, xor_byte_cancel]

theorem rc4_init_S_bounds (key : List Nat) : ∀ y ∈ (rc4_init key).S, y < 256 := by
  unfold rc4_init
  have h : ∀ (l : List Nat), ∀ (p : List Nat × Nat), (∀ y ∈ p.1, y < 256) →
      ∀ y ∈ (l.foldl (fun (p : List Nat × Nat) i =>
        ((p.1.set i (nth p.1 ((p.2 + nth p.1 i + nth key (i % key.length) % 256) % 256))).set
          ((p.2 + nth p.1 i + nth key (i % key.length) % 256) % 256) (nth p.1 i),
         (p.2 + nth p.1 i + nth key (i % key.length) % 256) % 256)) p).1, y < 256 := by
    intro l
    induction l with
    | nil => intro p hp; exact hp
    | cons a as ihl =>
      intro p hp
      apply ihl
      intro y hy
      rcases List.mem_or_eq_of_mem_set hy with hy2 | hy2
      · rcases List.mem_or_eq_of_mem_set hy2 with hy3 | hy3
        · exact hp y hy3
        · rw [hy3]; exact nth_lt_of_forall _ _ hp
      · rw [hy2]; exact nth_lt_of_forall _ _ hp
  apply h
  intro y hy
  simp only [List.mem_range] at hy
  omega

theorem map_mod_eq_self (b : List Nat) (h : ∀ x ∈ b, x < 256) :
    b.map (· % 256) = b := by
  induction b with
  | nil => rfl
  | cons x xs ih =>
    simp only [List.map_cons, List.cons.injEq]
    constructor
    · exact Nat.mod_eq_of_lt (h x (by simp))
    · exact ih (fun y hy => h y (by simp [hy]))

theorem chacha20_init_state_length (key nonce : List Nat) (c : Nat) :
    (chacha20_init key nonce c).state.length = 16 := rfl

theorem chacha20_init_counter (key nonce : List Nat) (c : Nat) :
    nth (chacha20_init key nonce c).state 12 = c % U32 := rfl

theorem chacha20_init_keystream (key nonce : List Nat) (c : Nat) :
    (chacha20_init key nonce c).keystream = List.replicate 64 0 := rfl

theorem chacha20_init_pos (key nonce : List Nat) (c : Nat) :
    (chacha20_init key nonce c).keystream_pos = 64 := rfl

theorem chachaCap_init (key nonce : List Nat) :
    chachaCap (chacha20_init key nonce 1) = 64 * (U32 - 2) := by
  have h1 : nth (chacha20_init key nonce 1).state 12 = 1 := by
    rw [chacha20_init_counter]
    simp [U32]
  simp only [chachaCap, h1, chacha20_init_pos]
  norm_num
  omega

theorem chacha20_decrypt_spec (k nonce ct pt : List Nat) (cf : ChaCtx)
    (hkl : ¬ k.length = 0) (hn : nonce.length = 12) (hlen : ct.length < 2 ^ 64)
    (hinv : chacha20_crypt (chacha20_init (simple_hash k) nonce 1) ct = .ok (pt, cf)) :
    chacha20_decrypt (nonce ++ (leBytes 8 ct.length ++ ct)) k = .ok pt := by
  have h1 : (nonce ++ (leBytes 8 ct.length ++ ct)).length = 20 + ct.length := by
    simp [hn, leBytes_length]
    omega
  have htake : (nonce ++ (leBytes 8 ct.length ++ ct)).take 12 = nonce :=
    List.take_left' hn
  have hdrop : (nonce ++ (leBytes 8 ct.length ++ ct)).drop 12 = leBytes 8 ct.length ++ ct :=
    List.drop_left' hn
  have htake8 : (leBytes 8 ct.length ++ ct).take 8 = leBytes 8 ct.length :=
    List.take_left' (leBytes_length 8 ct.length)
  have hval : leVal (leBytes 8 ct.length) = ct.length := by
    rw [leVal_leBytes]
    have : (256 : Nat) ^ 8 = 2 ^ 64 := by norm_num
    rw [this]
    exact Nat.mod_eq_of_lt hlen
  have hdrop20 : (nonce ++ (leBytes 8 ct.length ++ ct)).drop 20 = ct := by
    have h2 : ((nonce ++ (leBytes 8 ct.length ++ ct)).drop 12).drop 8 =
        (nonce ++ (leBytes 8 ct.length ++ ct)).drop 20 := by
      rw [List.drop_drop]
    rw [← h2, hdrop, List.drop_left' (leBytes_length 8 ct.length)]
  simp only [chacha20_decrypt, if_neg hkl, h1, htake, hdrop, htake8, hval, hdrop20]
  rw [if_neg (by omega), if_neg (by omega), hinv]

theorem chacha20_roundtrip (b k : List Nat) (hbytes : ∀ x ∈ b, x < 256)
    (hk : ¬ k.length = 0) (hcap : b.length ≤ 64 * (U32 - 2)) :
    (chacha20_encrypt b k).bind (fun c => chacha20_decrypt c k) = .ok b := by
  have hok : (chacha20_crypt (chacha20_init (simple_hash k) ((simple_hash k).take 12) 1) b).isOk
      = true := by
    rw [chacha20_crypt_isOk_iff b _ (by rw [chacha20_init_state_length]; omega)
      (by rw [chacha20_init_counter]; simp [U32]), chachaCap_init]
    exact hcap
  cases hcr : chacha20_crypt (chacha20_init (simple_hash k) ((simple_hash k).take 12) 1) b with
  | error e => rw [hcr] at hok; simp [Except.isOk, Except.toBool] at hok
  | ok p =>
    obtain ⟨ct, cf⟩ := p
    have hctlen : ct.length = b.length := chacha20_crypt_length b _ ct cf hcr
    have hnlen : ((simple_hash k).take 12).length = 12 := by
      simp [List.length_take, simple_hash_length]
    have hinv : chacha20_crypt (chacha20_init (simple_hash k) ((simple_hash k).take 12) 1) ct
        = .ok (b.map (· % 256), cf) :=
      chacha20_crypt_invol b _ ct cf
        (by rw [chacha20_init_keystream]; intro y hy; simp at hy; omega) hcr
    have hdec := chacha20_decrypt_spec k ((simple_hash k).take 12) ct (b.map (· % 256)) cf
      hk hnlen (by rw [hctlen]; exact Nat.lt_of_le_of_lt hcap (by simp [U32])) hinv
    simp only [chacha20_encrypt, if_neg hk, hcr]
    simp only [Except.bind]
    rw [hctlen, ← List.append_assoc] at hdec
    rw [hdec, map_mod_eq_self b hbytes]

theorem salsa20_init_keystream (key nonce : List Nat) (c : Nat) :
    (salsa20_init key nonce c).keystream = List.replicate 64 0 := rfl

theorem salsa20_decrypt_spec (k nonce ct pt : List Nat) (cf : SalsaCtx)
    (hkl : ¬ k.length = 0) (hn : nonce.length = 8) (hlen : ct.length < 2 ^ 64)
    (hinv : salsa20_crypt (salsa20_init (simple_hash k) nonce 0) ct = (pt, cf)) :
    salsa20_decrypt (nonce ++ (leBytes 8 ct.length ++ ct)) k = .ok pt := by
  have h1 : (nonce ++ (leBytes 8 ct.length ++ ct)).length = 16 + ct.length := by
    simp [hn, leBytes_length]
    omega
  have htake : (nonce ++ (leBytes 8 ct.length ++ ct)).take 8 = nonce :=
    List.take_left' hn
  have hdrop : (nonce ++ (leBytes 8 ct.length ++ ct)).drop 8 = leBytes 8 ct.length ++ ct :=
    List.drop_left' hn
  have htake8 : (leBytes 8 ct.length ++ ct).take 8 = leBytes 8 ct.length :=
    List.take_left' (leBytes_length 8 ct.length)
  have hval : leVal (leBytes 8 ct.length) = ct.length := by
    rw [leVal_leBytes]
    have h2 : (256 : Nat) ^ 8 = 2 ^ 64 := by norm_num
    rw [h2]
    exact Nat.mod_eq_of_lt hlen
  have hdrop16 : (nonce ++ (leBytes 8 ct.length ++ ct)).drop 16 = ct := by
    have h2 : ((nonce ++ (leBytes 8 ct.length ++ ct)).drop 8).drop 8 =
        (nonce ++ (leBytes 8 ct.length ++ ct)).drop 16 := by
      rw [List.drop_drop]
    rw [← h2, hdrop, List.drop_left' (leBytes_length 8 ct.length)]
  simp only [salsa20_decrypt, if_neg hkl, h1, htake, hdrop, htake8, hval, hdrop16]
  rw [if_neg (by omega), if_neg (by omega), hinv]

theorem salsa20_roundtrip (b k : List Nat) (hb : b ≠ []) (hbytes : ∀ x ∈ b, x < 256)
    (hk : ¬ k.length = 0) (hlen : b.length < 2 ^ 64) :
    (salsa20_encrypt b k).bind (fun c => salsa20_decrypt c k) = .ok b := by
  have hb0 : ¬ b.length = 0 := by simpa [List.length_eq_zero] using hb
  have hctlen : ((salsa20_crypt (salsa20_init (simple_hash k) ((simple_hash k).take 8) 0) b).1).length
      = b.length := salsa20_crypt_length b _
  have hnlen : ((simple_hash k).take 8).length = 8 := by
    simp [List.length_take, simple_hash_length]
  have hinv := salsa20_crypt_invol b (salsa20_init (simple_hash k) ((simple_hash k).take 8) 0)
    (by rw [salsa20_init_keystream]; intro y hy; simp at hy; omega)
  have hdec := salsa20_decrypt_spec k ((simple_hash k).take 8)
    ((salsa20_crypt (salsa20_init (simple_hash k) ((simple_hash k).take 8) 0) b).1)
    (b.map (· % 256))
    ((salsa20_crypt (salsa20_init (simple_hash k) ((simple_hash k).take 8) 0) b).2)
    hk hnlen (by rw [hctlen]; exact hlen) (by rw [hinv])
  simp only [salsa20_encrypt, if_neg hk, if_neg hb0]
  simp only [Except.bind]
  rw [hctlen, ← List.append_assoc] at hdec
  rw [hdec, map_mod_eq_self b hbytes]

theorem rc4_decrypt_spec (k ct pt : List Nat) (cf : Rc4Ctx)
    (hkl : ¬ k.length = 0) (hlen : ct.length < 2 ^ 64)
    (hinv : rc4_crypt (rc4_init ((simple_hash k).take 16)) ct = (pt, cf)) :
    rc4_decrypt (leBytes 8 ct.length ++ ct) k = .ok pt := by
  have h1 : (leBytes 8 ct.length ++ ct).length = 8 + ct.length := by
    simp [leBytes_length]
  have htake : (leBytes 8 ct.length ++ ct).take 8 = leBytes 8 ct.length :=
    List.take_left' (leBytes_length 8 ct.length)
  have hdrop : (leBytes 8 ct.length ++ ct).drop 8 = ct :=
    List.drop_left' (leBytes_length 8 ct.length)
  have hval : leVal (leBytes 8 ct.length) = ct.length := by
    rw [leVal_leBytes]
    have h2 : (256 : Nat) ^ 8 = 2 ^ 64 := by norm_num
    rw [h2]
    exact Nat.mod_eq_of_lt hlen
  simp only [rc4_decrypt, if_neg hkl, h1, htake, hdrop, hval]
  rw [if_neg (by omega), if_neg (by omega), hinv]

theorem rc4_roundtrip (b k : List Nat) (hb : b ≠ []) (hbytes : ∀ x ∈ b, x < 256)
    (hk : ¬ k.length = 0) (hlen : b.length < 2 ^ 64) :
    (rc4_encrypt b k).bind (fun c => rc4_decrypt c k) = .ok b := by
  have hb0 : ¬ b.length = 0 := by simpa [List.length_eq_zero] using hb
  have hctlen : ((rc4_crypt (rc4_init ((simple_hash k).take 16)) b).1).length = b.length :=
    rc4_crypt_length b _
  have hinv := rc4_crypt_invol b (rc4_init ((simple_hash k).take 16))
    (rc4_init_S_bounds ((simple_hash k).take 16))
  have hdec := rc4_decrypt_spec k ((rc4_crypt (rc4_init ((simple_hash k).take 16)) b).1)
    (b.map (· % 256)) ((rc4_crypt (rc4_init ((simple_hash k).take 16)) b).2)
    hk (by rw [hctlen]; exact hlen) (by rw [hinv])
  simp only [rc4_encrypt, if_neg hk, if_neg hb0]
  simp only [Except.bind]
  rw [hctlen] at hdec
  rw [hdec, map_mod_eq_self b hbytes]

/-! ## RLE lemmas -/

theorem nth_drop (l : List Nat) (m k : Nat) : nth (l.drop m) k = nth l (m + k) := by
  simp [nth, List.getElem?_drop]

theorem leVal_lt (l : List Nat) (h : ∀ x ∈ l, x < 256) : leVal l < 256 ^ l.length := by
  induction l with
  | nil => simp [leVal]
  | cons a t ih =>
    simp only [leVal, List.length_cons, pow_succ]
    have ha : a % 256 < 256 := Nat.mod_lt _ (by omega)
    have ht := ih (fun x hx => h x (by simp [hx]))
    calc a % 256 + 256 * leVal t < 256 * (leVal t + 1) := by omega
    _ ≤ 256 * 256 ^ t.length := by
        exact Nat.mul_le_mul_left _ ht
    _ = 256 ^ t.length * 256 := by ring

theorem rleRunLenGo_spec (input : List Nat) (i cur : Nat) :
    ∀ fuel rl, 1 ≤ rl → rl ≤ 255 → i + rl ≤ input.length →
      (∀ j < rl, nth input (i + j) = cur) →
      1 ≤ rleRunLenGo input i cur fuel rl ∧
      rleRunLenGo input i cur fuel rl ≤ 255 ∧
      i + rleRunLenGo input i cur fuel rl ≤ input.length ∧
      (∀ j < rleRunLenGo input i cur fuel rl, nth input (i + j) = cur) := by
  intro fuel
  induction fuel with
  | zero => intro rl h1 h2 h3 h4; exact ⟨h1, h2, h3, h4⟩
  | succ n ih =>
    intro rl h1 h2 h3 h4
    by_cases hc : i + rl < input.length ∧ nth input (i + rl) = cur ∧ rl < RLE_MAX_RUN_LENGTH
    · rw [rleRunLenGo, if_pos hc]
      refine ih (rl + 1) (by omega) ?_ (by omega) ?_
      · have := hc.2.2; simp [RLE_MAX_RUN_LENGTH] at this; omega
      · intro j hj
        rcases Nat.lt_succ_iff_lt_or_eq.mp hj with h | h
        · exact h4 j h
        · subst h; exact hc.2.1
    · rw [rleRunLenGo, if_neg hc]; exact ⟨h1, h2, h3, h4⟩

theorem rleRunLen_spec (input : List Nat) (i : Nat) (h : i < input.length) :
    1 ≤ rleRunLen input i (nth input i) ∧
    rleRunLen input i (nth input i) ≤ 255 ∧
    i + rleRunLen input i (nth input i) ≤ input.length ∧
    (∀ j < rleRunLen input i (nth input i), nth input (i + j) = nth input i) := by
  refine rleRunLenGo_spec input i (nth input i) _ 1 le_rfl (by omega) (by omega) ?_
  intro j hj
  have : j = 0 := by omega
  subst this; simp

theorem take_run_segment (input : List Nat) (i rl : Nat) (hrl : i + rl ≤ input.length)
    (heq : ∀ j < rl, nth input (i + j) = nth input i) :
    input.take (i + rl) = input.take i ++ List.replicate rl (nth input i) := by
  rw [List.take_add]
  congr 1
  apply List.ext_getElem
  · simp; omega
  · intro n h1 h2
    simp only [List.getElem_take, List.getElem_drop, List.getElem_replicate]
    have hn : n < rl := by simpa using h2
    have := heq n hn
    rw [nth_lt_length input (i + n) (by omega)] at this
    simp only [List.get_eq_getElem] at this
    rw [this]

theorem rleCompressGo_cons (input : List Nat) (fuel i : Nat) (hi : i < input.length)
    (hf : input.length - i ≤ fuel + 1) :
    rleCompressGo input (fuel + 1) i =
      rleRunLen input i (nth input i) :: nth input i ::
        rleCompressGo input fuel (i + rleRunLen input i (nth input i)) := by
  rw [rleCompressGo, if_pos hi]

theorem rleCompressGo_fuel (input : List Nat) :
    ∀ fuel1 fuel2 i, input.length - i ≤ fuel1 → input.length - i ≤ fuel2 →
      rleCompressGo input fuel1 i = rleCompressGo input fuel2 i := by
  intro fuel1
  induction fuel1 with
  | zero =>
    intro fuel2 i h1 h2
    have : ¬ i < input.length := by omega
    cases fuel2 with
    | zero => rfl
    | succ m => rw [rleCompressGo, rleCompressGo, if_neg this]
  | succ n ih =>
    intro fuel2 i h1 h2
    by_cases hi : i < input.length
    · cases fuel2 with
      | zero => omega
      | succ m =>
        rw [rleCompressGo, rleCompressGo, if_pos hi, if_pos hi]
        have hrl := (rleRunLen_spec input i hi).1
        exact congrArg _ (congrArg _ (ih m _ (by omega) (by omega)))
    · cases fuel2 with
      | zero => rw [rleCompressGo, rleCompressGo, if_neg hi]
      | succ m => rw [rleCompressGo, rleCompressGo, if_neg hi, if_neg hi]


theorem rleDecodeGo_of_suffix (input : List Nat) (hbytes : ∀ x ∈ input, x < 256)
    (data : List Nat) :
    ∀ fuelD fuelC i in_pos,
      i ≤ input.length →
      input.length - i ≤ fuelC →
      data.length - in_pos ≤ fuelD →
      in_pos ≤ data.length →
      data.drop in_pos = rleCompressGo input fuelC i →
      rleDecodeGo data input.length fuelD in_pos (input.take i) = .ok input := by
  intro fuelD
  induction fuelD with
  | zero =>
    intro fuelC i in_pos hi hfC hfD hpos hsuf
    -- no data left: the suffix is empty, so i = input.length
    have hdrop : data.drop in_pos = [] := by
      have : (data.drop in_pos).length = 0 := by simp; omega
      exact List.eq_nil_of_length_eq_zero this
    have hieq : i = input.length := by
      by_contra hne
      have hi' : i < input.length := by omega
      cases fuelC with
      | zero => omega
      | succ m =>
        rw [rleCompressGo_cons input m i hi' (by omega)] at hsuf
        rw [hdrop] at hsuf
        exact absurd hsuf (by simp)
    subst hieq
    rw [rleDecodeGo]
    simp [List.take_length]
  | succ fd ih =>
    intro fuelC i in_pos hi hfC hfD hpos hsuf
    by_cases hi' : i < input.length
    · -- one run to decode
      cases fuelC with
      | zero => omega
      | succ m =>
        rw [rleCompressGo_cons input m i hi' (by omega)] at hsuf
        set rl := rleRunLen input i (nth input i) with hrldef
        set v := nth input i with hvdef
        obtain ⟨hrl1, hrl255, hrlbound, hrleq⟩ := rleRunLen_spec input i hi'
        -- data positions
        have hlen2 : in_pos + 2 ≤ data.length := by
          have : (data.drop in_pos).length ≥ 2 := by rw [hsuf]; simp
          simp at this; omega
        have hcount : nth data in_pos = rl := by
          have := nth_drop data in_pos 0
          rw [hsuf] at this; simpa using this.symm
        have hval : nth data (in_pos + 1) = v := by
          have := nth_drop data in_pos 1
          rw [hsuf] at this; simpa [nth] using this.symm
        have hvlt : v < 256 := nth_lt_of_forall input i hbytes
        rw [rleDecodeGo]
        rw [if_pos ⟨by omega, by simp [List.length_take]; omega⟩]
        rw [if_neg (by omega)]
        have hcm : nth data in_pos % 256 = rl := by rw [hcount]; omega
        have hvm : nth data (in_pos + 1) % 256 = v := by rw [hval]; omega
        rw [hcm, hvm]
        rw [if_neg (by simp [List.length_take]; omega)]
        rw [← take_run_segment input i rl hrlbound hrleq]
        refine ih m (i + rl) (in_pos + 2) (by omega) (by omega) (by omega) (by omega) ?_
        have : data.drop (in_pos + 2) = (data.drop in_pos).drop 2 := by
          rw [List.drop_drop]
        rw [this, hsuf]
        rfl
    · -- input exhausted: suffix empty, final length check succeeds
      have hieq : i = input.length := by omega
      subst hieq
      have hdrop : data.drop in_pos = [] := by
        cases fuelC with
        | zero => simpa [rleCompressGo] using hsuf
        | succ m => rw [rleCompressGo, if_neg hi'] at hsuf; exact hsuf
      have hposlen : in_pos = data.length := by
        have : (data.drop in_pos).length = 0 := by rw [hdrop]; rfl
        simp at this; omega
      rw [rleDecodeGo]
      rw [if_neg (by simp)]
      simp [List.take_length]

theorem rle_roundtrip (input : List Nat) (hne : input ≠ []) (hbytes : ∀ x ∈ input, x < 256) :
    (rle_compress input).bind rle_decompress = .ok input := by
  have hlen : input.length ≠ 0 := by simpa using hne
  rw [rle_compress, if_neg hlen]
  simp only [Except.bind]
  rw [rle_decompress]
  exact rleDecodeGo_of_suffix input hbytes _ _ input.length 0 0 (by omega) (by omega)
    (by omega) (by omega) (by simp)


theorem rleCompressGo_length_le (input : List Nat) :
    ∀ fuel i, (rleCompressGo input fuel i).length ≤ 2 * (input.length - i) := by
  intro fuel
  induction fuel with
  | zero => intro i; simp [rleCompressGo]
  | succ n ih =>
    intro i
    by_cases hi : i < input.length
    · rw [rleCompressGo, if_pos hi]
      obtain ⟨h1, _, h3, _⟩ := rleRunLen_spec input i hi
      have := ih (i + rleRunLen input i (nth input i))
      simp only [List.length_cons]
      omega
    · rw [rleCompressGo, if_neg hi]; simp

theorem rleCompressGo_ne_nil (input : List Nat) (fuel i : Nat) (hi : i < input.length)
    (hf : 1 ≤ fuel) : rleCompressGo input fuel i ≠ [] := by
  cases fuel with
  | zero => omega
  | succ n => rw [rleCompressGo, if_pos hi]; simp

theorem serial_take8 (a : Nat) (rest : List Nat) :
    (leBytes 8 a ++ rest).take 8 = leBytes 8 a :=
  List.take_left' (leBytes_length 8 a)

theorem serial_drop8 (a : Nat) (rest : List Nat) :
    (leBytes 8 a ++ rest).drop 8 = rest :=
  List.drop_left' (leBytes_length 8 a)

theorem rle_serialize_deserialize (data : List Nat) (orig : Nat)
    (horig : orig < 2 ^ 64) (hsz : 16 + data.length < 2 ^ 64) :
    rle_deserialize (rle_serialize ⟨data, orig⟩) = .ok ⟨data, orig⟩ := by
  have hlen : (rle_serialize ⟨data, orig⟩).length = 16 + data.length := by
    simp [rle_serialize, leBytes_length]; omega
  have hassoc : rle_serialize ⟨data, orig⟩ =
      leBytes 8 orig ++ (leBytes 8 data.length ++ data) := by
    simp [rle_serialize]
  have htk : (rle_serialize ⟨data, orig⟩).take 8 = leBytes 8 orig := by
    rw [hassoc]; exact serial_take8 _ _
  have hdp : (rle_serialize ⟨data, orig⟩).drop 8 = leBytes 8 data.length ++ data := by
    rw [hassoc]; exact serial_drop8 _ _
  have hdp16 : (rle_serialize ⟨data, orig⟩).drop 16 = data := by
    rw [show (16 : Nat) = 8 + 8 from rfl, Nat.add_comm, ← List.drop_drop, hdp]
    exact serial_drop8 _ _
  rw [rle_deserialize, if_neg (by omega)]
  simp only [htk, hdp, serial_take8, hdp16, leVal_leBytes]
  have h1 : orig % 256 ^ 8 = orig := Nat.mod_eq_of_lt (by norm_num; omega)
  have h2 : data.length % 256 ^ 8 = data.length := Nat.mod_eq_of_lt (by norm_num; omega)
  rw [h1, h2, if_neg (by rw [hlen]; omega)]


theorem rle_truncation (data : List Nat) (orig : Nat) (hne : data ≠ []) :
    rle_deserialize ((rle_serialize ⟨data, orig⟩).dropLast) = .error .corrupt := by
  have hsz : 1 ≤ data.length := List.length_pos.mpr hne
  have hassoc : (rle_serialize ⟨data, orig⟩).dropLast =
      leBytes 8 orig ++ (leBytes 8 data.length ++ data.dropLast) := by
    show (leBytes 8 orig ++ leBytes 8 data.length ++ data).dropLast = _
    rw [List.append_assoc, List.dropLast_append_of_ne_nil _ (by
      intro h
      exact hne (List.append_eq_nil.mp h).2)]
    rw [List.dropLast_append_of_ne_nil _ hne]
  have hlen : (rle_serialize ⟨data, orig⟩).dropLast.length = 15 + data.length := by
    rw [hassoc]; simp [leBytes_length]; omega
  rw [rle_deserialize, if_neg (by omega)]
  rw [hassoc]
  simp only [serial_take8, serial_drop8, leVal_leBytes]
  rw [if_pos]
  rw [← hassoc, hlen]
  have hmod : data.length % 256 ^ 8 % 2 ^ 64 < 2 ^ 64 := Nat.mod_lt _ (by norm_num)
  have : (16 + data.length % 256 ^ 8) % 2 ^ 64 =
      (16 + data.length % 2 ^ 64) % 2 ^ 64 := by norm_num
  by_cases hw : 16 + data.length % 256 ^ 8 < 2 ^ 64
  · rw [Nat.mod_eq_of_lt hw]
    have : data.length % 256 ^ 8 ≤ data.length := Nat.mod_le _ _
    have h2 : data.length % 256 ^ 8 < 2 ^ 64 := by omega
    omega
  · have hlt : data.length % 256 ^ 8 < 2 ^ 64 := by norm_num [Nat.mod_lt]
    have : (16 + data.length % 256 ^ 8) % 2 ^ 64 = 16 + data.length % 256 ^ 8 - 2 ^ 64 := by
      rw [Nat.mod_eq_sub_mod (by omega), Nat.mod_eq_of_lt (by omega)]
    omega

theorem rle_deserialize_exact (input : List Nat) (hbytes : ∀ x ∈ input, x < 256)
    (hlen : input.length < 2 ^ 64) :
    ((rle_deserialize input).isOk = true) ↔
      input.length = 16 + leVal ((input.drop 8).take 8) := by
  constructor
  · intro hok
    rw [rle_deserialize] at hok
    by_cases h16 : input.length < 16
    · rw [if_pos h16] at hok; simp [Except.isOk, Except.toBool] at hok
    · rw [if_neg h16] at hok
      set size := leVal ((input.drop 8).take 8) with hsz
      by_cases hchk : input.length = (16 + size) % 2 ^ 64
      · have hszlt : size < 2 ^ 64 := by
          have hb : ∀ x ∈ (input.drop 8).take 8, x < 256 := by
            intro x hx
            exact hbytes x (List.mem_of_mem_drop (List.mem_of_mem_take hx))
          have hl : ((input.drop 8).take 8).length = 8 := by
            simp; omega
          have := leVal_lt _ hb
          rw [hl] at this
          calc size < 256 ^ 8 := this
          _ = 2 ^ 64 := by norm_num
        by_cases hw : 16 + size < 2 ^ 64
        · rw [Nat.mod_eq_of_lt hw] at hchk; exact hchk
        · exfalso
          have : (16 + size) % 2 ^ 64 = 16 + size - 2 ^ 64 := by
            rw [Nat.mod_eq_sub_mod (by omega), Nat.mod_eq_of_lt (by omega)]
          omega
      · exfalso
        have herr : (if input.length ≠ (16 + size) % 2 ^ 64 then
            (Except.error RleErr.corrupt : Except RleErr RleCompressed)
            else Except.ok ⟨input.drop 16, leVal (input.take 8)⟩) =
            Except.error RleErr.corrupt := if_pos hchk
        rw [herr] at hok
        simp [Except.isOk, Except.toBool] at hok
  · intro heq
    rw [rle_deserialize, if_neg (by omega)]
    rw [if_neg (by rw [Nat.mod_eq_of_lt (by omega)]; omega)]
    simp [Except.isOk, Except.toBool]

/-! ## LZ77 lemmas -/

theorem nth_take (l : List Nat) (m i : Nat) (h : i < m) :
    nth (l.take m) i = nth l i := by
  simp [nth, List.getElem?_take, h]

theorem take_succ_nth (l : List Nat) (n : Nat) (h : n < l.length) :
    l.take (n + 1) = l.take n ++ [nth l n] := by
  rw [List.take_succ, nth_lt_length l n h]
  simp [List.getElem?_eq_getElem h]

theorem extendMatchGo_spec (input : List Nat) (cand pos lookEnd : Nat) :
    ∀ fuel len0,
      (∀ j < len0, nth input (cand + j) = nth input (pos + j)) →
      len0 ≤ extendMatchGo input cand pos lookEnd fuel len0 ∧
      (∀ j < extendMatchGo input cand pos lookEnd fuel len0,
        nth input (cand + j) = nth input (pos + j)) ∧
      (extendMatchGo input cand pos lookEnd fuel len0 = len0 ∨
        pos + extendMatchGo input cand pos lookEnd fuel len0 ≤ lookEnd) := by
  intro fuel
  induction fuel with
  | zero => intro len0 h; exact ⟨le_rfl, h, Or.inl rfl⟩
  | succ n ih =>
    intro len0 h
    by_cases hc : pos + len0 < lookEnd ∧ nth input (cand + len0) = nth input (pos + len0)
    · rw [extendMatchGo, if_pos hc]
      have hext : ∀ j < len0 + 1, nth input (cand + j) = nth input (pos + j) := by
        intro j hj
        rcases Nat.lt_succ_iff_lt_or_eq.mp hj with h' | h'
        · exact h j h'
        · subst h'; exact hc.2
      obtain ⟨h1, h2, h3⟩ := ih (len0 + 1) hext
      refine ⟨by omega, h2, ?_⟩
      rcases h3 with h3 | h3
      · right; omega
      · right; exact h3
    · rw [extendMatchGo, if_neg hc]
      exact ⟨le_rfl, h, Or.inl rfl⟩

theorem flm_match_spec (tbl : Nat → Nat) (input : List Nat) (pos : Nat)
    (h : MIN_MATCH_LENGTH ≤ (find_longest_match tbl input pos).1.2) :
    1 ≤ (find_longest_match tbl input pos).1.1 ∧
    (find_longest_match tbl input pos).1.1 ≤ pos ∧
    (find_longest_match tbl input pos).1.1 ≤ 4096 ∧
    (find_longest_match tbl input pos).1.2 ≤ 18 ∧
    pos + (find_longest_match tbl input pos).1.2 ≤ input.length ∧
    (∀ j < (find_longest_match tbl input pos).1.2,
      nth input (pos - (find_longest_match tbl input pos).1.1 + j) = nth input (pos + j)) := by
  by_cases hend : pos + 2 ≥ input.length
  · rw [find_longest_match, if_pos hend] at h ⊢
    simp [MIN_MATCH_LENGTH] at h
  · rw [find_longest_match, if_neg hend] at h ⊢
    simp only []
    set ws := if pos > WINDOW_SIZE then pos - WINDOW_SIZE else 0 with hws
    set le := if pos + LOOKAHEAD_SIZE < input.length then pos + LOOKAHEAD_SIZE
      else input.length with hle
    set cand := tbl (compute_hash (nth input pos) (nth input (pos + 1)) (nth input (pos + 2)))
      with hcand
    have h' : MIN_MATCH_LENGTH ≤ (if cand ≥ ws ∧ cand < pos ∧
        nth input cand = nth input pos ∧ nth input (cand + 1) = nth input (pos + 1) ∧
        nth input (cand + 2) = nth input (pos + 2) then
        (pos - cand, extendMatch input cand pos le 3) else (0, 0)).2 := h
    by_cases hm : cand ≥ ws ∧ cand < pos ∧ nth input cand = nth input pos ∧
        nth input (cand + 1) = nth input (pos + 1) ∧ nth input (cand + 2) = nth input (pos + 2)
    · rw [if_pos hm] at h' ⊢
      simp only []
      have hbase : ∀ j < 3, nth input (cand + j) = nth input (pos + j) := by
        intro j hj
        interval_cases j
        · simpa using hm.2.2.1
        · exact hm.2.2.2.1
        · exact hm.2.2.2.2
      obtain ⟨e1, e2, e3⟩ := extendMatchGo_spec input cand pos le _ 3 hbase
      set r := extendMatchGo input cand pos le (le - (pos + 3)) 3 with hr
      have hle18 : le ≤ pos + 18 ∧ le ≤ input.length := by
        rw [hle]
        simp only [LOOKAHEAD_SIZE]
        split <;> omega
      have hws' : ws ≥ pos - 4096 ∧ ws ≤ pos := by
        rw [hws]
        simp only [WINDOW_SIZE]
        split <;> omega
      have hcandlt : cand < pos := hm.2.1
      have hcandge : ws ≤ cand := hm.1
      have hr3 : (3 : Nat) ≤ r := e1
      have hr' : MIN_MATCH_LENGTH ≤ r := by
        simpa [extendMatch, ← hr] using h'
      have hbound : r ≤ 18 ∧ pos + r ≤ input.length := by
        rcases e3 with e3 | e3
        · omega
        · omega
      refine ⟨by omega, by omega, by omega, ?_, ?_, ?_⟩
      · exact hbound.1
      · exact hbound.2
      · intro j hj
        have : pos - (pos - cand) = cand := by omega
        rw [this]
        exact e2 j hj
    · rw [if_neg hm] at h'
      simp [MIN_MATCH_LENGTH] at h'


theorem refCopy_spec (input : List Nat) (off : Nat) (hoff : 1 ≤ off) :
    ∀ n p, off ≤ p → p + n ≤ input.length →
      (∀ j < n, nth input (p - off + j) = nth input (p + j)) →
      refCopy (input.take p) (p - off) n = input.take (p + n) := by
  intro n
  induction n with
  | zero => intro p _ _ _; simp [refCopy]
  | succ m ih =>
    intro p hp hlen hmatch
    rw [refCopy]
    have h0 : nth (input.take p) (p - off) = nth input (p - off) :=
      nth_take _ _ _ (by omega)
    have h0' : nth input (p - off) = nth input p := by simpa using hmatch 0 (by omega)
    rw [h0, h0', ← take_succ_nth input p (by omega)]
    have he : p - off + 1 = (p + 1) - off := by omega
    rw [he]
    have hrec := ih (p + 1) (by omega) (by omega) (by
      intro j hj
      have h2 := hmatch (j + 1) (by omega)
      have e1 : p - off + (j + 1) = (p + 1) - off + j := by omega
      have e2 : p + (j + 1) = (p + 1) + j := by omega
      rw [e1, e2] at h2
      exact h2)
    rw [hrec]
    congr 1
    omega

theorem lz77TokensGo_ne_nil (input : List Nat) (fuel : Nat) (tbl : Nat → Nat) (pos : Nat)
    (hpos : pos < input.length) (hf : 1 ≤ fuel) :
    lz77TokensGo input fuel tbl pos ≠ [] := by
  cases fuel with
  | zero => omega
  | succ n =>
    rw [lz77TokensGo, if_pos hpos]
    by_cases hm : MIN_MATCH_LENGTH ≤ (find_longest_match tbl input pos).1.2
    · rw [if_pos hm]; simp
    · rw [if_neg hm]; simp

theorem lz77DecodeGo_zero (data : List Nat) (orig in_pos : Nat) (out : List Nat) :
    lz77DecodeGo data orig 0 in_pos out =
      if out.length = orig then .ok out else .error .compression := rfl

theorem lz77DecodeGo_step (data : List Nat) (orig fuel in_pos : Nat) (out : List Nat) :
    lz77DecodeGo data orig (fuel + 1) in_pos out =
      if in_pos < data.length ∧ out.length < orig then
        if in_pos + 4 > data.length then .error .compression
        else
          if nth data in_pos % 256 * 256 + nth data (in_pos + 1) % 256 > 0 ∧
              nth data (in_pos + 2) % 256 > 0 then
            if nth data in_pos % 256 * 256 + nth data (in_pos + 1) % 256 > out.length then
              .error .compression
            else
              lz77DecodeGo data orig fuel (in_pos + 4)
                (if (refCopy out
                    (out.length - (nth data in_pos % 256 * 256 + nth data (in_pos + 1) % 256))
                    (nth data (in_pos + 2) % 256)).length < orig then
                  refCopy out
                    (out.length - (nth data in_pos % 256 * 256 + nth data (in_pos + 1) % 256))
                    (nth data (in_pos + 2) % 256) ++ [nth data (in_pos + 3) % 256]
                else
                  refCopy out
                    (out.length - (nth data in_pos % 256 * 256 + nth data (in_pos + 1) % 256))
                    (nth data (in_pos + 2) % 256))
          else
            lz77DecodeGo data orig fuel (in_pos + 4)
              (if out.length < orig then out ++ [nth data (in_pos + 3) % 256] else out)
      else if out.length = orig then .ok out else .error .compression := rfl

theorem lz77DecodeGo_of_suffix (input : List Nat) (hbytes : ∀ x ∈ input, x < 256)
    (data : List Nat) :
    ∀ fuelD fuelC tbl pos in_pos,
      input.length - pos ≤ fuelC →
      data.length - in_pos ≤ fuelD →
      in_pos ≤ data.length →
      data.drop in_pos = (lz77TokensGo input fuelC tbl pos).flatMap tokenBytes →
      lz77DecodeGo data input.length fuelD in_pos (input.take pos) = .ok input := by
  intro fuelD
  induction fuelD with
  | zero =>
    intro fuelC tbl pos in_pos hfC hfD hpos hsuf
    have hdrop : data.drop in_pos = [] := by
      have : (data.drop in_pos).length = 0 := by simp; omega
      exact List.eq_nil_of_length_eq_zero this
    have hple : input.length ≤ pos := by
      by_contra hne
      have hp2 : pos < input.length := by omega
      cases fuelC with
      | zero => omega
      | succ m =>
        have hnn := lz77TokensGo_ne_nil input (m + 1) tbl pos hp2 (by omega)
        rw [hdrop] at hsuf
        rcases he : lz77TokensGo input (m + 1) tbl pos with _ | ⟨t, rest⟩
        · exact hnn he
        · rw [he] at hsuf
          simp [tokenBytes] at hsuf
    rw [lz77DecodeGo_zero]
    rw [List.take_of_length_le hple, if_pos rfl]
  | succ fd ih =>
    intro fuelC tbl pos in_pos hfC hfD hpos hsuf
    by_cases hp2 : pos < input.length
    · cases fuelC with
      | zero => omega
      | succ fc =>
        rw [lz77TokensGo, if_pos hp2] at hsuf
        set r := find_longest_match tbl input pos with hrdef
        have houtlen : (input.take pos).length = pos := by simp; omega
        by_cases hm : MIN_MATCH_LENGTH ≤ r.1.2
        · -- match token
          rw [if_pos hm] at hsuf
          obtain ⟨hoff1, hoffp, hoff4096, hlen18, hplen, hmatch⟩ :=
            flm_match_spec tbl input pos hm
          set off := r.1.1 with hoffdef
          set mlen := r.1.2 with hmlendef
          set nc := if pos + mlen < input.length then nth input (pos + mlen) else 0
            with hncdef
          have hofflt : off < 65536 := by omega
          have hmlenlt : mlen < 256 := by omega
          have hnclt : nc < 256 := by
            rw [hncdef]
            split
            · exact nth_lt_of_forall input _ hbytes
            · omega
          have htok : tokenBytes ⟨off % 65536, mlen % 256, nc⟩ =
              [off / 256, off % 256, mlen, nc] := by
            simp only [tokenBytes]
            rw [Nat.mod_eq_of_lt hofflt]
            rw [Nat.mod_eq_of_lt hmlenlt]
            rw [Nat.mod_eq_of_lt hmlenlt]
            rw [Nat.mod_eq_of_lt hnclt]
            rw [Nat.mod_eq_of_lt (show off / 256 < 256 by omega)]
          have hsuf2 : data.drop in_pos =
              tokenBytes ⟨off % 65536, mlen % 256, nc⟩ ++
                (lz77TokensGo input fc r.2 (pos + mlen + 1)).flatMap tokenBytes := hsuf
          rw [htok] at hsuf2
          have hb0 : nth data in_pos = off / 256 := by
            have := nth_drop data in_pos 0
            rw [hsuf2] at this; simpa [nth] using this.symm
          have hb1 : nth data (in_pos + 1) = off % 256 := by
            have := nth_drop data in_pos 1
            rw [hsuf2] at this; simpa [nth] using this.symm
          have hb2 : nth data (in_pos + 2) = mlen := by
            have := nth_drop data in_pos 2
            rw [hsuf2] at this; simpa [nth] using this.symm
          have hb3 : nth data (in_pos + 3) = nc := by
            have := nth_drop data in_pos 3
            rw [hsuf2] at this; simpa [nth] using this.symm
          have hlen4 : in_pos + 4 ≤ data.length := by
            have : (data.drop in_pos).length ≥ 4 := by rw [hsuf2]; simp
            simp at this; omega
          have hoffval : off / 256 % 256 * 256 + off % 256 % 256 = off := by
            rw [Nat.mod_eq_of_lt (show off / 256 < 256 by omega),
              Nat.mod_eq_of_lt (Nat.mod_lt _ (show 0 < 256 by omega))]
            omega
          rw [lz77DecodeGo_step]
          rw [if_pos ⟨show in_pos < data.length by omega,
            show (input.take pos).length < input.length by rw [houtlen]; omega⟩]
          rw [if_neg (show ¬ in_pos + 4 > data.length by omega)]
          rw [hb0, hb1, hb2, hb3, hoffval]
          rw [Nat.mod_eq_of_lt hmlenlt, Nat.mod_eq_of_lt hnclt]
          rw [if_pos ⟨show off > 0 by omega, show mlen > 0 by
            have := hm; simp [MIN_MATCH_LENGTH] at this; omega⟩]
          rw [if_neg (show ¬ off > (input.take pos).length by rw [houtlen]; omega)]
          rw [houtlen]
          have hrc : refCopy (input.take pos) (pos - off) mlen = input.take (pos + mlen) :=
            refCopy_spec input off hoff1 mlen pos hoffp hplen hmatch
          rw [hrc]
          have hout2 : (if (input.take (pos + mlen)).length < input.length
              then input.take (pos + mlen) ++ [nc] else input.take (pos + mlen)) =
              input.take (pos + mlen + 1) := by
            by_cases hend : pos + mlen < input.length
            · rw [if_pos (by simp; omega)]
              rw [hncdef, if_pos hend]
              exact (take_succ_nth input (pos + mlen) hend).symm
            · rw [if_neg (by simp; omega)]
              rw [List.take_of_length_le (by omega), List.take_of_length_le (by omega)]
          rw [hout2]
          refine ih fc r.2 (pos + mlen + 1) (in_pos + 4) (by omega) (by omega) (by omega) ?_
          rw [show in_pos + 4 = in_pos + 4 from rfl, ← List.drop_drop, hsuf2]
          rfl
        · -- literal token
          rw [if_neg hm] at hsuf
          have hblt : nth input pos < 256 := nth_lt_of_forall input pos hbytes
          have htok : tokenBytes ⟨0, 0, nth input pos⟩ =
              [0, 0, 0, nth input pos] := by
            simp [tokenBytes, Nat.mod_eq_of_lt hblt]
          rw [List.flatMap_cons, htok] at hsuf
          have hb0 : nth data in_pos = 0 := by
            have := nth_drop data in_pos 0
            rw [hsuf] at this; simpa [nth] using this.symm
          have hb1 : nth data (in_pos + 1) = 0 := by
            have := nth_drop data in_pos 1
            rw [hsuf] at this; simpa [nth] using this.symm
          have hb3 : nth data (in_pos + 3) = nth input pos := by
            have := nth_drop data in_pos 3
            rw [hsuf] at this; simpa [nth] using this.symm
          have hlen4 : in_pos + 4 ≤ data.length := by
            have : (data.drop in_pos).length ≥ 4 := by rw [hsuf]; simp
            simp at this; omega
          rw [lz77DecodeGo_step]
          rw [if_pos ⟨show in_pos < data.length by omega,
            show (input.take pos).length < input.length by rw [houtlen]; omega⟩]
          rw [if_neg (show ¬ in_pos + 4 > data.length by omega)]
          rw [hb0, hb1, hb3]
          rw [if_neg (by simp)]
          rw [if_pos (show (input.take pos).length < input.length by rw [houtlen]; omega)]
          have hlit : input.take pos ++ [nth input pos % 256] = input.take (pos + 1) := by
            rw [Nat.mod_eq_of_lt hblt]
            exact (take_succ_nth input pos hp2).symm
          rw [hlit]
          refine ih fc r.2 (pos + 1) (in_pos + 4) (by omega) (by omega) (by omega) ?_
          rw [← List.drop_drop, hsuf]
          rfl
    · -- input exhausted
      have hdrop : data.drop in_pos = [] := by
        cases fuelC with
        | zero => simpa [lz77TokensGo] using hsuf
        | succ m =>
          rw [lz77TokensGo, if_neg hp2] at hsuf
          simpa using hsuf
      have hposlen : in_pos = data.length := by
        have : (data.drop in_pos).length = 0 := by rw [hdrop]; rfl
        simp at this; omega
      rw [lz77DecodeGo_step]
      rw [if_neg (by rw [List.take_of_length_le (by omega)]; omega)]
      rw [List.take_of_length_le (by omega), if_pos rfl]


theorem lz77_roundtrip (tbl : Nat → Nat) (input : List Nat) (hne : input ≠ [])
    (hbytes : ∀ x ∈ input, x < 256) (hlen : input.length < 2 ^ 64) :
    (lz77_compress tbl input).bind lz77_decompress = .ok input := by
  have hl0 : input.length ≠ 0 := by simpa using hne
  rw [lz77_compress, if_neg hl0]
  simp only [Except.bind]
  have htne : lz77Tokens (fun _ => 0) input 0 ≠ [] := by
    rw [lz77Tokens]
    exact lz77TokensGo_ne_nil input _ _ 0 (by omega) (by omega)
  have hflatlen : 4 ≤ ((lz77Tokens (fun _ => 0) input 0).flatMap tokenBytes).length := by
    rcases he : lz77Tokens (fun _ => 0) input 0 with _ | ⟨t, rest⟩
    · exact absurd he htne
    · simp [tokenBytes]
  set flat := (lz77Tokens (fun _ => 0) input 0).flatMap tokenBytes with hflat
  have hclen : (beBytes8 input.length ++ flat).length = 8 + flat.length := by
    simp [beBytes8_length]
  rw [lz77_decompress, if_neg (by omega)]
  rw [List.take_left' (beBytes8_length input.length), beVal_beBytes8,
    Nat.mod_eq_of_lt hlen]
  rw [if_neg hl0]
  rw [lz77DecodeLoop]
  have hd8 : (beBytes8 input.length ++ flat).drop 8 = flat :=
    List.drop_left' (beBytes8_length input.length)
  have := lz77DecodeGo_of_suffix input hbytes (beBytes8 input.length ++ flat)
    ((beBytes8 input.length ++ flat).length - 8) input.length (fun _ => 0) 0 8
    (by omega) (by omega) (by omega)
    (by rw [hd8, hflat, lz77Tokens, Nat.sub_zero])
  simpa using this

theorem dropLast_append_of_ne_nil (l1 l2 : List Nat) (h : l2 ≠ []) :
    (l1 ++ l2).dropLast = l1 ++ l2.dropLast :=
  List.dropLast_append_of_ne_nil l1 h

theorem lz77DecodeGo_of_suffix_trunc (input : List Nat) (hbytes : ∀ x ∈ input, x < 256)
    (data : List Nat) :
    ∀ fuelD fuelC tbl pos in_pos,
      pos < input.length →
      input.length - pos ≤ fuelC →
      data.length - in_pos ≤ fuelD →
      in_pos ≤ data.length →
      data.drop in_pos = ((lz77TokensGo input fuelC tbl pos).flatMap tokenBytes).dropLast →
      lz77DecodeGo data input.length fuelD in_pos (input.take pos) = .error .compression := by
  intro fuelD
  induction fuelD with
  | zero =>
    intro fuelC tbl pos in_pos hp2 hfC hfD hpos hsuf
    exfalso
    have htne : lz77TokensGo input fuelC tbl pos ≠ [] :=
      lz77TokensGo_ne_nil input fuelC tbl pos hp2 (by omega)
    have h4 : 4 ≤ ((lz77TokensGo input fuelC tbl pos).flatMap tokenBytes).length := by
      rcases he : lz77TokensGo input fuelC tbl pos with _ | ⟨t, rest⟩
      · exact absurd he htne
      · simp [tokenBytes]
    have h1 : (data.drop in_pos).length = data.length - in_pos := by simp
    rw [hsuf, List.length_dropLast] at h1
    omega
  | succ fd ih =>
    intro fuelC tbl pos in_pos hp2 hfC hfD hpos hsuf
    cases fuelC with
    | zero => omega
    | succ fc =>
      rw [lz77TokensGo, if_pos hp2] at hsuf
      set r := find_longest_match tbl input pos with hrdef
      have houtlen : (input.take pos).length = pos := by simp; omega
      by_cases hm : MIN_MATCH_LENGTH ≤ r.1.2
      · -- match token
        rw [if_pos hm] at hsuf
        obtain ⟨hoff1, hoffp, hoff4096, hlen18, hplen, hmatch⟩ :=
          flm_match_spec tbl input pos hm
        set off := r.1.1 with hoffdef
        set mlen := r.1.2 with hmlendef
        set nc := if pos + mlen < input.length then nth input (pos + mlen) else 0
          with hncdef
        have hofflt : off < 65536 := by omega
        have hmlenlt : mlen < 256 := by omega
        have hnclt : nc < 256 := by
          rw [hncdef]
          split
          · exact nth_lt_of_forall input _ hbytes
          · omega
        have htok : tokenBytes ⟨off % 65536, mlen % 256, nc⟩ =
            [off / 256, off % 256, mlen, nc] := by
          simp only [tokenBytes]
          rw [Nat.mod_eq_of_lt hofflt]
          rw [Nat.mod_eq_of_lt hmlenlt]
          rw [Nat.mod_eq_of_lt hmlenlt]
          rw [Nat.mod_eq_of_lt hnclt]
          rw [Nat.mod_eq_of_lt (show off / 256 < 256 by omega)]
        have hsuf2 : data.drop in_pos =
            ((tokenBytes ⟨off % 65536, mlen % 256, nc⟩ ++
              (lz77TokensGo input fc r.2 (pos + mlen + 1)).flatMap tokenBytes)).dropLast := hsuf
        rw [htok] at hsuf2
        by_cases hrest : pos + mlen + 1 < input.length
        · -- more tokens follow: the truncation is further right
          have hrne : lz77TokensGo input fc r.2 (pos + mlen + 1) ≠ [] :=
            lz77TokensGo_ne_nil input fc r.2 (pos + mlen + 1) hrest (by omega)
          have hfne : (lz77TokensGo input fc r.2 (pos + mlen + 1)).flatMap tokenBytes ≠ [] := by
            rcases he : lz77TokensGo input fc r.2 (pos + mlen + 1) with _ | ⟨t, rest⟩
            · exact absurd he hrne
            · simp [tokenBytes]
          rw [dropLast_append_of_ne_nil _ _ hfne] at hsuf2
          have hb0 : nth data in_pos = off / 256 := by
            have := nth_drop data in_pos 0
            rw [hsuf2] at this; simpa [nth] using this.symm
          have hb1 : nth data (in_pos + 1) = off % 256 := by
            have := nth_drop data in_pos 1
            rw [hsuf2] at this; simpa [nth] using this.symm
          have hb2 : nth data (in_pos + 2) = mlen := by
            have := nth_drop data in_pos 2
            rw [hsuf2] at this; simpa [nth] using this.symm
          have hb3 : nth data (in_pos + 3) = nc := by
            have := nth_drop data in_pos 3
            rw [hsuf2] at this; simpa [nth] using this.symm
          have hfmin : 3 ≤ ((lz77TokensGo input fc r.2 (pos + mlen + 1)).flatMap
              tokenBytes).dropLast.length + 1 := by
            rcases he : lz77TokensGo input fc r.2 (pos + mlen + 1) with _ | ⟨t, rest⟩
            · exact absurd he hrne
            · simp [tokenBytes]
          have hlen4 : in_pos + 4 ≤ data.length := by
            have : (data.drop in_pos).length ≥ 4 := by rw [hsuf2]; simp
            simp at this; omega
          have hoffval : off / 256 % 256 * 256 + off % 256 % 256 = off := by
            rw [Nat.mod_eq_of_lt (show off / 256 < 256 by omega),
              Nat.mod_eq_of_lt (Nat.mod_lt _ (show 0 < 256 by omega))]
            omega
          rw [lz77DecodeGo_step]
          rw [if_pos ⟨show in_pos < data.length by omega,
            show (input.take pos).length < input.length by rw [houtlen]; omega⟩]
          rw [if_neg (show ¬ in_pos + 4 > data.length by omega)]
          rw [hb0, hb1, hb2, hb3, hoffval]
          rw [Nat.mod_eq_of_lt hmlenlt, Nat.mod_eq_of_lt hnclt]
          rw [if_pos ⟨show off > 0 by omega, show mlen > 0 by
            have := hm; simp [MIN_MATCH_LENGTH] at this; omega⟩]
          rw [if_neg (show ¬ off > (input.take pos).length by rw [houtlen]; omega)]
          rw [houtlen]
          have hrc : refCopy (input.take pos) (pos - off) mlen = input.take (pos + mlen) :=
            refCopy_spec input off hoff1 mlen pos hoffp hplen hmatch
          rw [hrc]
          have hout2 : (if (input.take (pos + mlen)).length < input.length
              then input.take (pos + mlen) ++ [nc] else input.take (pos + mlen)) =
              input.take (pos + mlen + 1) := by
            rw [if_pos (by simp; omega)]
            rw [hncdef, if_pos (by omega)]
            exact (take_succ_nth input (pos + mlen) (by omega)).symm
          rw [hout2]
          refine ih fc r.2 (pos + mlen + 1) (in_pos + 4) hrest (by omega) (by omega)
            (by omega) ?_
          rw [← List.drop_drop, hsuf2]
          simp [tokenBytes]
        · -- this is the final token: only three of its bytes remain
          have hrnil : lz77TokensGo input fc r.2 (pos + mlen + 1) = [] := by
            cases fc with
            | zero => rfl
            | succ m => rw [lz77TokensGo, if_neg hrest]
          rw [hrnil] at hsuf2
          simp only [List.flatMap_nil, List.append_nil] at hsuf2
          have hsuf3 : data.drop in_pos = [off / 256, off % 256, mlen] := by
            rw [hsuf2]; rfl
          have hdl : (data.drop in_pos).length = 3 := by rw [hsuf3]; rfl
          have hlen3 : data.length = in_pos + 3 := by simp at hdl; omega
          rw [lz77DecodeGo_step]
          rw [if_pos ⟨show in_pos < data.length by omega,
            show (input.take pos).length < input.length by rw [houtlen]; omega⟩]
          rw [if_pos (show in_pos + 4 > data.length by omega)]
      · -- literal token
        rw [if_neg hm] at hsuf
        have hblt : nth input pos < 256 := nth_lt_of_forall input pos hbytes
        have htok : tokenBytes ⟨0, 0, nth input pos⟩ =
            [0, 0, 0, nth input pos] := by
          simp [tokenBytes, Nat.mod_eq_of_lt hblt]
        rw [List.flatMap_cons, htok] at hsuf
        by_cases hrest : pos + 1 < input.length
        · have hrne : lz77TokensGo input fc r.2 (pos + 1) ≠ [] :=
            lz77TokensGo_ne_nil input fc r.2 (pos + 1) hrest (by omega)
          have hfne : (lz77TokensGo input fc r.2 (pos + 1)).flatMap tokenBytes ≠ [] := by
            rcases he : lz77TokensGo input fc r.2 (pos + 1) with _ | ⟨t, rest⟩
            · exact absurd he hrne
            · simp [tokenBytes]
          rw [dropLast_append_of_ne_nil _ _ hfne] at hsuf
          have hb0 : nth data in_pos = 0 := by
            have := nth_drop data in_pos 0
            rw [hsuf] at this; simpa [nth] using this.symm
          have hb1 : nth data (in_pos + 1) = 0 := by
            have := nth_drop data in_pos 1
            rw [hsuf] at this; simpa [nth] using this.symm
          have hb3 : nth data (in_pos + 3) = nth input pos := by
            have := nth_drop data in_pos 3
            rw [hsuf] at this; simpa [nth] using this.symm
          have hlen4 : in_pos + 4 ≤ data.length := by
            have : (data.drop in_pos).length ≥ 4 := by rw [hsuf]; simp
            simp at this; omega
          rw [lz77DecodeGo_step]
          rw [if_pos ⟨show in_pos < data.length by omega,
            show (input.take pos).length < input.length by rw [houtlen]; omega⟩]
          rw [if_neg (show ¬ in_pos + 4 > data.length by omega)]
          rw [hb0, hb1, hb3]
          rw [if_neg (by simp)]
          rw [if_pos (show (input.take pos).length < input.length by rw [houtlen]; omega)]
          have hlit : input.take pos ++ [nth input pos % 256] = input.take (pos + 1) := by
            rw [Nat.mod_eq_of_lt hblt]
            exact (take_succ_nth input pos hp2).symm
          rw [hlit]
          refine ih fc r.2 (pos + 1) (in_pos + 4) hrest (by omega) (by omega) (by omega) ?_
          rw [← List.drop_drop, hsuf]
          rfl
        · have hrnil : lz77TokensGo input fc r.2 (pos + 1) = [] := by
            cases fc with
            | zero => rfl
            | succ m => rw [lz77TokensGo, if_neg hrest]
          rw [hrnil] at hsuf
          simp only [List.flatMap_nil, List.append_nil] at hsuf
          have hdl : (data.drop in_pos).length = 3 := by rw [hsuf]; rfl
          have hlen3 : data.length = in_pos + 3 := by simp at hdl; omega
          rw [lz77DecodeGo_step]
          rw [if_pos ⟨show in_pos < data.length by omega,
            show (input.take pos).length < input.length by rw [houtlen]; omega⟩]
          rw [if_pos (show in_pos + 4 > data.length by omega)]


theorem lz77_container_truncation (tbl : Nat → Nat) (input : List Nat) (hne : input ≠ [])
    (hbytes : ∀ x ∈ input, x < 256) (hlen : input.length < 2 ^ 64) (out : List Nat)
    (hok : lz77_compress tbl input = .ok out) :
    (out.length = 12 → lz77_decompress out.dropLast = .error .args) ∧
    (13 ≤ out.length → lz77_decompress out.dropLast = .error .compression) := by
  have hl0 : input.length ≠ 0 := by simpa using hne
  rw [lz77_compress, if_neg hl0] at hok
  have hout : out = beBytes8 input.length ++ (lz77Tokens (fun _ => 0) input 0).flatMap
      tokenBytes := by
    exact (Except.ok.injEq _ _).mp hok |>.symm
  set flat := (lz77Tokens (fun _ => 0) input 0).flatMap tokenBytes with hflat
  have htne : lz77Tokens (fun _ => 0) input 0 ≠ [] := by
    rw [lz77Tokens]
    exact lz77TokensGo_ne_nil input _ _ 0 (by omega) (by omega)
  have hfne : flat ≠ [] := by
    rcases he : lz77Tokens (fun _ => 0) input 0 with _ | ⟨t, rest⟩
    · exact absurd he htne
    · rw [hflat, he]; simp [tokenBytes]
  have hclen : out.length = 8 + flat.length := by
    rw [hout]; simp [beBytes8_length]
  constructor
  · intro h12
    have : out.dropLast.length = 11 := by simp; omega
    rw [lz77_decompress, if_pos (by omega)]
  · intro h13
    have hdl : out.dropLast = beBytes8 input.length ++ flat.dropLast := by
      rw [hout]
      exact dropLast_append_of_ne_nil _ _ hfne
    have hdlen : out.dropLast.length = 7 + flat.length := by
      rw [hdl]
      simp [beBytes8_length]
      omega
    rw [lz77_decompress, if_neg (by omega)]
    rw [hdl, List.take_left' (beBytes8_length input.length), beVal_beBytes8,
      Nat.mod_eq_of_lt hlen, if_neg hl0]
    rw [lz77DecodeLoop]
    have hd8 : (beBytes8 input.length ++ flat.dropLast).drop 8 = flat.dropLast :=
      List.drop_left' (beBytes8_length input.length)
    have := lz77DecodeGo_of_suffix_trunc input hbytes
      (beBytes8 input.length ++ flat.dropLast)
      ((beBytes8 input.length ++ flat.dropLast).length - 8) input.length (fun _ => 0) 0 8
      (by omega) (by omega) (by omega) (by simp [beBytes8_length])
      (by rw [hd8, hflat, lz77Tokens, Nat.sub_zero])
    simpa using this

/-! ## Huffman lemmas -/

theorem htget_lt (l : List HTree) (i : Nat) (h : i < l.length) :
    htget l i = l.get ⟨i, h⟩ := by
  simp [htget, List.getElem?_eq_getElem h]

theorem set_htget_self (l : List HTree) (i : Nat) (h : i < l.length) :
    l.set i (htget l i) = l := by
  rw [htget_lt l i h]
  apply List.ext_getElem (by simp)
  intro n h1 h2
  rw [List.getElem_set]
  split
  · rename_i he; subst he; rfl
  · rfl

theorem cons_set_perm (t : List HTree) : ∀ m (x : HTree), m < t.length →
    (htget t m :: t.set m x).Perm (x :: t) := by
  induction t with
  | nil => intro m x h; simp at h
  | cons y s ih =>
    intro m x h
    cases m with
    | zero =>
      simp only [htget, List.getElem?_cons_zero, Option.getD_some, List.set_cons_zero]
      exact List.Perm.swap x y s
    | succ k =>
      have hk : k < s.length := by simpa using h
      simp only [htget, List.getElem?_cons_succ, List.set_cons_succ]
      exact (List.Perm.swap y (htget s k) _).trans
        (((ih k x hk).cons y).trans (List.Perm.swap x y s))


theorem set_swap_perm (l : List HTree) : ∀ i j, i < l.length → j < l.length →
    ((l.set i (htget l j)).set j (htget l i)).Perm l := by
  induction l with
  | nil => intro i j hi; simp at hi
  | cons x t ih =>
    intro i j hi hj
    cases i with
    | zero =>
      cases j with
      | zero =>
        simp only [htget, List.getElem?_cons_zero, Option.getD_some, List.set_cons_zero]
        exact List.Perm.refl _
      | succ m =>
        have hm : m < t.length := by simpa using hj
        simp only [htget, List.getElem?_cons_zero, List.getElem?_cons_succ,
          Option.getD_some, List.set_cons_zero, List.set_cons_succ]
        exact cons_set_perm t m x hm
    | succ k =>
      cases j with
      | zero =>
        have hk : k < t.length := by simpa using hi
        simp only [htget, List.getElem?_cons_zero, List.getElem?_cons_succ,
          Option.getD_some, List.set_cons_zero, List.set_cons_succ]
        have h1 : (htget t k :: t.set k x).Perm (x :: t) := cons_set_perm t k x hk
        exact h1
      | succ m =>
        have hk : k < t.length := by simpa using hi
        have hm : m < t.length := by simpa using hj
        simp only [htget, List.getElem?_cons_succ, List.set_cons_succ]
        exact (ih k m hk hm).cons x

theorem heapSiftUpGo_perm (node : HTree) : ∀ fuel (arr : List HTree) i,
    i < arr.length → (heapSiftUpGo node fuel arr i).Perm (arr.set i node) := by
  intro fuel
  induction fuel with
  | zero => intro arr i hi; exact List.Perm.refl _
  | succ n ih =>
    intro arr i hi
    by_cases hc : i > 0 ∧ node.freq < (htget arr ((i - 1) / 2)).freq
    · rw [heapSiftUpGo, if_pos hc]
      have hp : (i - 1) / 2 < arr.length := by
        have : (i - 1) / 2 ≤ i - 1 := Nat.div_le_self _ _
        omega
      have hpi : (i - 1) / 2 ≠ i := by
        have : (i - 1) / 2 ≤ i - 1 := Nat.div_le_self _ _
        omega
      have h1 := ih (arr.set i (htget arr ((i - 1) / 2))) ((i - 1) / 2) (by simpa using hp)
      refine h1.trans ?_
      -- (arr.set i (htget arr p)).set p node ~ arr.set i node
      set B := arr.set i node with hB
      have e1 : arr.set i (htget arr ((i - 1) / 2)) = B.set i (htget B ((i - 1) / 2)) := by
        rw [hB, List.set_set]
        congr 1
        rw [htget, htget, List.getElem?_set_ne (by omega)]
      have e2 : node = htget B i := by
        rw [hB, htget, List.getElem?_set_self hi]
        rfl
      rw [e1]
      rw [e2]
      exact set_swap_perm B i ((i - 1) / 2)
        (by rw [hB, List.length_set]; exact hi)
        (by rw [hB, List.length_set]; exact hp)
    · rw [heapSiftUpGo, if_neg hc]

theorem insert_min_heap_perm (heap : List HTree) (node : HTree)
    (h : heap.length < 256) : (insert_min_heap heap node).Perm (heap ++ [node]) := by
  rw [insert_min_heap, if_neg (by omega)]
  have h1 := heapSiftUpGo_perm node heap.length (heap ++ [node]) heap.length (by simp)
  refine h1.trans ?_
  have : (heap ++ [node]).set heap.length node = heap ++ [node] := by
    have e : node = htget (heap ++ [node]) heap.length := by
      rw [htget, List.getElem?_append_right (le_refl _)]
      simp
    nth_rewrite 2 [e]
    exact set_htget_self _ _ (by simp)
  rw [this]

theorem minHeapifyGo_perm : ∀ fuel (arr : List HTree) idx, idx < arr.length →
    (minHeapifyGo fuel arr idx).Perm arr := by
  intro fuel
  induction fuel with
  | zero => intro arr idx _; exact List.Perm.refl _
  | succ n ih =>
    intro arr idx hidx
    rw [minHeapifyGo]
    set l := 2 * idx + 1 with hl
    set r := 2 * idx + 2 with hr
    set s1 := if l < arr.length ∧ (htget arr l).freq < (htget arr idx).freq then l else idx
      with hs1
    set s2 := if r < arr.length ∧ (htget arr r).freq < (htget arr s1).freq then r else s1
      with hs2
    by_cases hne : s2 ≠ idx
    · rw [if_pos hne]
      have hs1cases : s1 = idx ∨ (s1 = l ∧ l < arr.length) := by
        rw [hs1]
        split
        · rename_i hcond; exact Or.inr ⟨rfl, hcond.1⟩
        · exact Or.inl rfl
      have hs2cases : s2 = s1 ∨ (s2 = r ∧ r < arr.length) := by
        rw [hs2]
        split
        · rename_i hcond; exact Or.inr ⟨rfl, hcond.1⟩
        · exact Or.inl rfl
      have hs2lt : s2 < arr.length := by
        rcases hs2cases with h2 | h2
        · rcases hs1cases with h1 | h1
          · exact absurd (h2.trans h1) hne
          · rw [h2, h1.1]; exact h1.2
        · rw [h2.1]; exact h2.2
      have hperm := set_swap_perm arr idx s2 hidx hs2lt
      have h1 := ih ((arr.set idx (htget arr s2)).set s2 (htget arr idx)) s2
        (by simpa using hs2lt)
      exact h1.trans hperm
    · rw [if_neg hne]


theorem extract_min_perm (heap : List HTree) (t : HTree) (rest : List HTree)
    (h : extract_min heap = some (t, rest)) : (t :: rest).Perm heap := by
  match heap with
  | [] => simp [extract_min] at h
  | h0 :: r =>
    rw [extract_min] at h
    by_cases hre : r.isEmpty
    · rw [if_pos hre] at h
      simp only [Option.some.injEq, Prod.mk.injEq] at h
      obtain ⟨ht, hr⟩ := h
      subst ht; subst hr
      have : r = [] := List.isEmpty_iff.mp hre
      subst this
      exact List.Perm.refl _
    · rw [if_neg hre] at h
      have hrne : r ≠ [] := by simpa [List.isEmpty_iff] using hre
      have hrlen : 1 ≤ r.length := List.length_pos.mpr hrne
      simp only [Option.some.injEq, Prod.mk.injEq] at h
      obtain ⟨ht, hr⟩ := h
      subst ht; subst hr
      refine List.Perm.cons h0 ?_
      have h2 : (minHeapifyGo r.length (htget r (r.length - 1) :: r.dropLast) 0).Perm
          (htget r (r.length - 1) :: r.dropLast) :=
        minHeapifyGo_perm r.length _ 0 (by simp)
      refine h2.trans ?_
      have hlast : htget r (r.length - 1) = r.getLast hrne := by
        rw [htget_lt r (r.length - 1) (by omega)]
        simp [List.getLast_eq_getElem]
      rw [hlast]
      have : r.dropLast ++ [r.getLast hrne] = r := List.dropLast_append_getLast hrne
      calc (r.getLast hrne :: r.dropLast).Perm (r.dropLast ++ [r.getLast hrne]) :=
        (List.perm_append_singleton _ _).symm
      _ = r := this

theorem extract_min_isSome (heap : List HTree) (hne : heap ≠ []) :
    ∃ t rest, extract_min heap = some (t, rest) := by
  match heap with
  | [] => exact absurd rfl hne
  | h0 :: r =>
    rw [extract_min]
    by_cases hre : r.isEmpty
    · rw [if_pos hre]; exact ⟨h0, [], rfl⟩
    · rw [if_neg hre]; exact ⟨h0, _, rfl⟩


theorem heapSyms_perm (h1 h2 : List HTree) (h : h1.Perm h2) :
    (h1.flatMap HTree.syms).Perm (h2.flatMap HTree.syms) := by
  rw [List.flatMap_def, List.flatMap_def]
  exact (h.map _).flatten

theorem mergeLoopGo_spec : ∀ fuel (heap : List HTree),
    1 ≤ heap.length → heap.length ≤ 256 → heap.length ≤ fuel + 1 →
    ∃ t, mergeLoopGo fuel heap = some t ∧
      t.syms.Perm (heap.flatMap HTree.syms) := by
  intro fuel
  induction fuel with
  | zero =>
    intro heap h1 h256 hf
    have : heap.length = 1 := by omega
    match heap, this with
    | [h0], _ =>
      refine ⟨h0, ?_, ?_⟩
      · rw [mergeLoopGo]
        rfl
      · simp
  | succ n ih =>
    intro heap h1 h256 hf
    by_cases hgt : heap.length > 1
    · rw [mergeLoopGo, if_pos hgt]
      obtain ⟨l, heap1, he1⟩ := extract_min_isSome heap (by
        intro hnil; rw [hnil] at h1; simp at h1)
      have hp1 := extract_min_perm heap l heap1 he1
      have hlen1 : heap1.length = heap.length - 1 := by
        have := hp1.length_eq
        simp at this; omega
      obtain ⟨r, heap2, he2⟩ := extract_min_isSome heap1 (by
        intro hnil; rw [hnil] at hlen1; simp at hlen1; omega)
      have hp2 := extract_min_perm heap1 r heap2 he2
      have hlen2 : heap2.length = heap.length - 2 := by
        have := hp2.length_eq
        simp at this; omega
      simp only [he1, he2]
      have hinsp := insert_min_heap_perm heap2 (.node ((l.freq + r.freq) % U32) l r)
        (by omega)
      have hinslen : (insert_min_heap heap2 (.node ((l.freq + r.freq) % U32) l r)).length
          = heap.length - 1 := by
        have := hinsp.length_eq
        simp at this; omega
      obtain ⟨t, ht, hts⟩ := ih
        (insert_min_heap heap2 (.node ((l.freq + r.freq) % U32) l r))
        (by omega) (by omega) (by omega)
      refine ⟨t, ht, ?_⟩
      refine hts.trans ?_
      refine (heapSyms_perm _ _ hinsp).trans ?_
      have e1 : (heap2 ++ [HTree.node ((l.freq + r.freq) % U32) l r]).flatMap HTree.syms
          = heap2.flatMap HTree.syms ++ (l.syms ++ r.syms) := by
        simp [HTree.syms]
      rw [e1]
      have step1 : (heap2.flatMap HTree.syms ++ (l.syms ++ r.syms)).Perm
          (l.syms ++ (r.syms ++ heap2.flatMap HTree.syms)) := by
        have := @List.perm_append_comm _ (heap2.flatMap HTree.syms)
          (l.syms ++ r.syms)
        refine this.trans ?_
        rw [List.append_assoc]
      refine step1.trans ?_
      have step2 : (r.syms ++ heap2.flatMap HTree.syms).Perm (heap1.flatMap HTree.syms) := by
        have := heapSyms_perm _ _ hp2
        simpa [HTree.syms] using this
      have step3 : (l.syms ++ (r.syms ++ heap2.flatMap HTree.syms)).Perm
          (l.syms ++ heap1.flatMap HTree.syms) := step2.append_left _
      refine step3.trans ?_
      have := heapSyms_perm _ _ hp1
      simpa using this
    · have : heap.length = 1 := by omega
      match heap, this with
      | [h0], _ =>
        rw [mergeLoopGo]
        rw [if_neg (by simp)]
        refine ⟨h0, rfl, by simp⟩


theorem foldl_insert_perm (freq : List Nat) : ∀ (l : List Nat) (heap : List HTree),
    heap.length + (l.filter (fun i => decide (0 < nth freq i))).length ≤ 256 →
    (l.foldl (fun h i => if nth freq i > 0 then insert_min_heap h (.leaf i (nth freq i))
        else h) heap).Perm
      (heap ++ (l.filter (fun i => decide (0 < nth freq i))).map
        (fun i => HTree.leaf i (nth freq i))) := by
  intro l
  induction l with
  | nil => intro heap _; simp
  | cons i l' ih =>
    intro heap hb
    rw [List.foldl_cons]
    by_cases hpos : 0 < nth freq i
    · rw [if_pos hpos]
      have hfil : (i :: l').filter (fun i => decide (0 < nth freq i)) =
          i :: l'.filter (fun i => decide (0 < nth freq i)) := by
        simp [List.filter_cons, hpos]
      rw [hfil] at hb
      simp only [List.length_cons] at hb
      have hheap : heap.length < 256 := by omega
      have hinsp := insert_min_heap_perm heap (.leaf i (nth freq i)) hheap
      have hinslen : (insert_min_heap heap (.leaf i (nth freq i))).length =
          heap.length + 1 := by
        have := hinsp.length_eq
        simpa using this
      have h2 := ih (insert_min_heap heap (.leaf i (nth freq i))) (by omega)
      refine h2.trans ?_
      rw [hfil, List.map_cons]
      have h3 : (insert_min_heap heap (.leaf i (nth freq i)) ++
          (l'.filter (fun i => decide (0 < nth freq i))).map
            (fun i => HTree.leaf i (nth freq i))).Perm
          ((heap ++ [HTree.leaf i (nth freq i)]) ++
          (l'.filter (fun i => decide (0 < nth freq i))).map
            (fun i => HTree.leaf i (nth freq i))) :=
        hinsp.append_right _
      refine h3.trans ?_
      rw [List.append_assoc]
      exact List.Perm.refl _
    · rw [if_neg hpos]
      have hfil : (i :: l').filter (fun i => decide (0 < nth freq i)) =
          l'.filter (fun i => decide (0 < nth freq i)) := by
        simp [List.filter_cons, hpos]
      rw [hfil] at hb ⊢
      exact ih heap (by omega)

theorem flatMap_leaf_syms (f : Nat → Nat) : ∀ l : List Nat,
    ((l.map (fun i => HTree.leaf i (f i))).flatMap HTree.syms) = l := by
  intro l
  induction l with
  | nil => rfl
  | cons a t ih => simp [HTree.syms, ih]

theorem buildLeaves_perm (freq : List Nat) :
    (buildLeaves freq).Perm
      (((List.range 256).filter (fun i => decide (0 < nth freq i))).map
        (fun i => HTree.leaf i (nth freq i))) := by
  have hlen : ((List.range 256).filter (fun i => decide (0 < nth freq i))).length ≤ 256 := by
    have := List.length_filter_le (fun i => decide (0 < nth freq i)) (List.range 256)
    simpa using this
  have h := foldl_insert_perm freq (List.range 256) [] (by simpa using hlen)
  rw [buildLeaves]
  simpa using h

theorem build_huffman_tree_spec (freq : List Nat)
    (hne : (List.range 256).filter (fun i => decide (0 < nth freq i)) ≠ []) :
    ∃ t, build_huffman_tree freq = some t ∧
      t.syms.Perm ((List.range 256).filter (fun i => decide (0 < nth freq i))) := by
  have hperm := buildLeaves_perm freq
  have hlen1 : 1 ≤ (buildLeaves freq).length := by
    rw [hperm.length_eq]
    simp only [List.length_map]
    exact List.length_pos.mpr hne
  have hlen256 : (buildLeaves freq).length ≤ 256 := by
    rw [hperm.length_eq]
    simp only [List.length_map]
    have := List.length_filter_le (fun i => decide (0 < nth freq i)) (List.range 256)
    simpa using this
  obtain ⟨t, ht, hts⟩ := mergeLoopGo_spec (buildLeaves freq).length (buildLeaves freq)
    hlen1 hlen256 (by omega)
  refine ⟨t, ht, ?_⟩
  refine hts.trans ?_
  refine (heapSyms_perm _ _ hperm).trans ?_
  rw [flatMap_leaf_syms]

theorem build_huffman_tree_none (freq : List Nat)
    (h : (List.range 256).filter (fun i => decide (0 < nth freq i)) = []) :
    build_huffman_tree freq = none := by
  have hperm := buildLeaves_perm freq
  rw [h] at hperm
  simp only [List.map_nil] at hperm
  have : buildLeaves freq = [] := hperm.eq_nil
  rw [build_huffman_tree, this]
  rfl


theorem HTree.syms_ne_nil : ∀ t : HTree, t.syms ≠ [] := by
  intro t
  induction t with
  | leaf s f => simp [HTree.syms]
  | node f l r ihl ihr =>
    simp only [HTree.syms]
    intro h
    exact ihl (List.append_eq_nil.mp h).1

theorem genCodes_fst : ∀ (t : HTree) (pref : List Bool),
    (genCodes t pref).map Prod.fst = t.syms := by
  intro t
  induction t with
  | leaf s f => intro pref; simp [genCodes, HTree.syms]
  | node f l r ihl ihr =>
    intro pref
    simp [genCodes, HTree.syms, ihl, ihr]

theorem genCodes_path : ∀ (t : HTree) (pref : List Bool) (p : Nat × List Bool),
    p ∈ genCodes t pref →
    ∃ q fr, p.2 = pref ++ q ∧ walkTo t q = some (.leaf p.1 fr) := by
  intro t
  induction t with
  | leaf s f =>
    intro pref p hp
    simp only [genCodes, List.mem_singleton] at hp
    subst hp
    exact ⟨[], f, by simp, rfl⟩
  | node f l r ihl ihr =>
    intro pref p hp
    simp only [genCodes, List.mem_append] at hp
    rcases hp with hp | hp
    · obtain ⟨q, fr, hq, hw⟩ := ihl (pref ++ [false]) p hp
      refine ⟨false :: q, fr, by simp [hq], ?_⟩
      rw [walkTo]
      simpa using hw
    · obtain ⟨q, fr, hq, hw⟩ := ihr (pref ++ [true]) p hp
      refine ⟨true :: q, fr, by simp [hq], ?_⟩
      rw [walkTo]
      simpa using hw

theorem codeOf_spec (t : HTree) (v : Nat) (hv : v ∈ t.syms) :
    ∃ fr, walkTo t (codeOf t v) = some (.leaf v fr) := by
  have hmem : v ∈ ((genCodes t []).reverse.map Prod.fst) := by
    rw [List.map_reverse, genCodes_fst]
    simpa using hv
  obtain ⟨p, hp, hpv⟩ := List.mem_map.mp hmem
  have hfind : ((genCodes t []).reverse.find? (fun q => q.1 = v)).isSome := by
    rw [List.find?_isSome]
    exact ⟨p, hp, by simp [hpv]⟩
  rcases hf : (genCodes t []).reverse.find? (fun q => q.1 = v) with _ | p'
  · rw [hf] at hfind; simp at hfind
  · have hp'mem : p' ∈ (genCodes t []).reverse := List.mem_of_find?_eq_some hf
    have hp'v : p'.1 = v := by
      have := List.find?_some hf
      simpa using this
    have hp'gen : p' ∈ genCodes t [] := List.mem_reverse.mp hp'mem
    obtain ⟨q, fr, hq, hw⟩ := genCodes_path t [] p' hp'gen
    refine ⟨fr, ?_⟩
    rw [codeOf, hf]
    simp only [List.nil_append] at hq
    rw [← hq] at hw
    rw [← hp'v]
    exact hw

theorem hWalk_nil (root : HTree) (need : Nat) (cur : HTree) (acc : List Nat) :
    hWalk root need cur [] acc =
      if acc.length ≥ need then .ok acc else .error .corrupt := rfl

theorem hWalk_cons (root : HTree) (need : Nat) (cur : HTree) (b : Bool)
    (bits : List Bool) (acc : List Nat) :
    hWalk root need cur (b :: bits) acc =
      if acc.length ≥ need then .ok acc
      else
        match cur with
        | .leaf _ _ => .error .corrupt
        | .node _ l r =>
          match (if b then r else l) with
          | .leaf s _ => hWalk root need root bits (acc ++ [s])
          | .node f2 l2 r2 => hWalk root need (.node f2 l2 r2) bits acc := rfl

theorem hWalk_step (root : HTree) (need : Nat) (v fr : Nat) :
    ∀ (q : List Bool) (cur : HTree), walkTo cur q = some (.leaf v fr) → q ≠ [] →
      ∀ (bits : List Bool) (acc : List Nat), acc.length < need →
        hWalk root need cur (q ++ bits) acc = hWalk root need root bits (acc ++ [v]) := by
  intro q
  induction q with
  | nil => intro cur _ hne; exact absurd rfl hne
  | cons b q' ih =>
    intro cur hw hne bits acc hacc
    match cur with
    | .leaf s f => rw [walkTo] at hw; exact absurd hw (by simp)
    | .node f l r =>
      rw [walkTo] at hw
      rw [List.cons_append, hWalk_cons, if_neg (by omega)]
      by_cases hq : q' = []
      · subst hq
        rw [walkTo] at hw
        have hchild : (if b = true then r else l) = HTree.leaf v fr :=
          (Option.some.injEq _ _).mp hw
        simp only [hchild, List.nil_append]
      · match hchild : (if b = true then r else l) with
        | .leaf s2 f2 =>
          exfalso
          rw [hchild] at hw
          rcases q' with _ | ⟨b2, q2⟩
          · exact hq rfl
          · rw [walkTo] at hw; exact absurd hw (by simp)
        | .node f2 l2 r2 =>
          rw [hchild] at hw
          simp only [hchild]
          exact ih (.node f2 l2 r2) hw hq bits acc hacc

theorem hWalk_encode (root : HTree) (f0 : Nat) (l0 r0 : HTree)
    (hroot : root = .node f0 l0 r0) (need : Nat) :
    ∀ (bs : List Nat) (acc : List Nat) (rest : List Bool),
      (∀ v ∈ bs, v ∈ root.syms) → acc.length + bs.length = need →
      hWalk root need root (bs.flatMap (codeOf root) ++ rest) acc = .ok (acc ++ bs) := by
  intro bs
  induction bs with
  | nil =>
    intro acc rest _ hlen
    simp only [List.flatMap_nil, List.nil_append]
    simp only [List.length_nil] at hlen
    rcases rest with _ | ⟨b, bits⟩
    · rw [hWalk_nil, if_pos (by omega)]
      simp
    · rw [hWalk_cons, if_pos (by omega)]
      simp
  | cons v bs' ih =>
    intro acc rest hmem hlen
    obtain ⟨fr, hw⟩ := codeOf_spec root v (hmem v (by simp))
    have hqne : codeOf root v ≠ [] := by
      intro hnil
      rw [hnil] at hw
      rw [walkTo] at hw
      rw [hroot] at hw
      simp at hw
    rw [List.flatMap_cons, List.append_assoc]
    rw [hWalk_step root need v fr (codeOf root v) root hw hqne _ acc (by simp at hlen; omega)]
    rw [ih (acc ++ [v]) rest (fun x hx => hmem x (by simp [hx])) (by simp at hlen ⊢; omega)]
    simp


theorem byteBits_bitsToByte8 : ∀ a b c d e f g h : Bool,
    byteBits (bitsToByte [a, b, c, d, e, f, g, h]) = [a, b, c, d, e, f, g, h] := by
  decide

theorem packBitsGo_nil : ∀ fuel, packBitsGo fuel [] = [] := by
  intro fuel
  cases fuel with
  | zero => rfl
  | succ n => rw [packBitsGo, if_pos (by simp)]

theorem exists_eight (l : List Bool) (h : l.length = 8) :
    ∃ a b c d e f g hh : Bool, l = [a, b, c, d, e, f, g, hh] := by
  match l, h with
  | [a, b, c, d, e, f, g, hh], _ => exact ⟨a, b, c, d, e, f, g, hh, rfl⟩

theorem flatMap_byteBits_packBitsGo : ∀ fuel (bits : List Bool), bits.length ≤ fuel →
    (packBitsGo fuel bits).flatMap byteBits =
      bits ++ List.replicate ((8 - bits.length % 8) % 8) false := by
  intro fuel
  induction fuel with
  | zero =>
    intro bits h
    have : bits = [] := List.eq_nil_of_length_eq_zero (by omega)
    subst this
    rfl
  | succ n ih =>
    intro bits hlen
    by_cases hne : bits.isEmpty
    · rw [packBitsGo, if_pos hne]
      have : bits = [] := List.isEmpty_iff.mp hne
      subst this
      rfl
    · rw [packBitsGo, if_neg hne]
      have hbne : bits ≠ [] := by simpa [List.isEmpty_iff] using hne
      have hpos : 1 ≤ bits.length := List.length_pos.mpr hbne
      by_cases h8 : 8 ≤ bits.length
      · have htk : (bits.take 8).length = 8 := by simp; omega
        have hpad : 8 - (bits.take 8).length = 0 := by omega
        rw [hpad]
        simp only [List.replicate_zero, List.append_nil]
        obtain ⟨a, b, c, d, e, f, g, hh, he⟩ := exists_eight _ htk
        rw [List.flatMap_cons, he, byteBits_bitsToByte8]
        rw [ih (bits.drop 8) (by simp; omega)]
        rw [← List.append_assoc, ← he, List.take_append_drop]
        have hmod : (bits.drop 8).length % 8 = bits.length % 8 := by
          simp
          omega
        rw [hmod]
      · have htk : bits.take 8 = bits := List.take_of_length_le (by omega)
        rw [htk]
        rw [List.flatMap_cons]
        have hlen8 : (bits ++ List.replicate (8 - bits.length) false).length = 8 := by
          simp; omega
        obtain ⟨a, b, c, d, e, f, g, hh, he⟩ := exists_eight _ hlen8
        rw [he, byteBits_bitsToByte8, ← he]
        have hdrop : bits.drop 8 = [] := List.drop_eq_nil_of_le (by omega)
        rw [hdrop, packBitsGo_nil]
        simp only [List.flatMap_nil, List.append_nil]
        have : bits.length % 8 = bits.length := Nat.mod_eq_of_lt (by omega)
        rw [this, Nat.mod_eq_of_lt (by omega)]
  
theorem flatMap_byteBits_packBits (bits : List Bool) :
    (packBits bits).flatMap byteBits =
      bits ++ List.replicate ((8 - bits.length % 8) % 8) false :=
  flatMap_byteBits_packBitsGo bits.length bits le_rfl

theorem packBitsGo_length_le : ∀ fuel (bits : List Bool),
    (packBitsGo fuel bits).length ≤ bits.length := by
  intro fuel
  induction fuel with
  | zero => intro bits; simp [packBitsGo]
  | succ n ih =>
    intro bits
    by_cases hne : bits.isEmpty
    · rw [packBitsGo, if_pos hne]; simp
    · rw [packBitsGo, if_neg hne]
      have hbne : bits ≠ [] := by simpa [List.isEmpty_iff] using hne
      have hpos : 1 ≤ bits.length := List.length_pos.mpr hbne
      have := ih (bits.drop 8)
      simp only [List.length_cons, List.length_drop] at this ⊢
      omega

theorem packBitsGo_ne_nil (fuel : Nat) (bits : List Bool) (hne : bits ≠ [])
    (hf : 1 ≤ fuel) : packBitsGo fuel bits ≠ [] := by
  cases fuel with
  | zero => omega
  | succ n =>
    rw [packBitsGo, if_neg (by simpa [List.isEmpty_iff] using hne)]
    simp


theorem computeFreq_foldl_spec (l : List Nat) : ∀ (f : List Nat), f.length = 256 →
    (∀ x ∈ f, x < U32) →
    (l.foldl (fun f b => f.set (b % 256) ((nth f (b % 256) + 1) % U32)) f).length = 256 ∧
    (∀ x ∈ l.foldl (fun f b => f.set (b % 256) ((nth f (b % 256) + 1) % U32)) f, x < U32) ∧
    (∀ v < 256, nth (l.foldl (fun f b => f.set (b % 256) ((nth f (b % 256) + 1) % U32)) f) v
      = (nth f v + (l.map (· % 256)).count v) % U32) := by
  induction l with
  | nil =>
    intro f hlen hbd
    refine ⟨hlen, hbd, ?_⟩
    intro v hv
    simp only [List.foldl_nil, List.map_nil, List.count_nil, Nat.add_zero]
    have : nth f v < U32 := by
      rcases hg : f[v]? with _ | y
      · simp [nth, hg, U32]
      · have : y ∈ f := List.getElem?_mem hg
        simp only [nth, hg, Option.getD_some]
        exact hbd y this
    rw [Nat.mod_eq_of_lt this]
  | cons b l' ih =>
    intro f hlen hbd
    rw [List.foldl_cons]
    have hsetlen : (f.set (b % 256) ((nth f (b % 256) + 1) % U32)).length = 256 := by
      simp [hlen]
    have hsetbd : ∀ x ∈ f.set (b % 256) ((nth f (b % 256) + 1) % U32), x < U32 := by
      intro x hx
      rcases List.mem_or_eq_of_mem_set hx with hx | hx
      · exact hbd x hx
      · rw [hx]; exact Nat.mod_lt _ (by simp [U32])
    obtain ⟨h1, h2, h3⟩ := ih _ hsetlen hsetbd
    refine ⟨h1, h2, ?_⟩
    intro v hv
    rw [h3 v hv]
    by_cases hbv : b % 256 = v
    · rw [hbv, nth_set_self _ _ _ (by omega)]
      have hcnt : ((b :: l').map (· % 256)).count v = (l'.map (· % 256)).count v + 1 := by
        simp [hbv]
      rw [hcnt, Nat.mod_add_mod]
      have : nth f v + 1 + (l'.map (· % 256)).count v =
          nth f v + ((l'.map (· % 256)).count v + 1) := by omega
      rw [this]
    · rw [nth_set_ne _ _ _ _ (by omega)]
      have hcnt : ((b :: l').map (· % 256)).count v = (l'.map (· % 256)).count v := by
        simp only [List.map_cons]
        rw [List.count_cons]
        simp [hbv]
      rw [hcnt]


theorem computeFreq_length (input : List Nat) : (computeFreq input).length = 256 :=
  (computeFreq_foldl_spec input (List.replicate 256 0) (by simp)
    (by intro x hx; simp at hx; simp [hx, U32])).1

theorem computeFreq_bound (input : List Nat) : ∀ x ∈ computeFreq input, x < U32 :=
  (computeFreq_foldl_spec input (List.replicate 256 0) (by simp)
    (by intro x hx; simp at hx; simp [hx, U32])).2.1

theorem computeFreq_nth (input : List Nat) (hbytes : ∀ x ∈ input, x < 256)
    (v : Nat) (hv : v < 256) :
    nth (computeFreq input) v = input.count v % U32 := by
  have h := (computeFreq_foldl_spec input (List.replicate 256 0) (by simp)
    (by intro x hx; simp at hx; simp [hx, U32])).2.2 v hv
  rw [computeFreq]
  rw [h]
  rw [map_mod_eq_self input hbytes]
  have hg : nth (List.replicate 256 (0 : Nat)) v = 0 := by
    rw [nth, List.getElem?_replicate, if_pos hv]
    rfl
  rw [hg, Nat.zero_add]

theorem freqBytes_length : ∀ freq : List Nat, (freqBytes freq).length = 4 * freq.length := by
  intro freq
  induction freq with
  | nil => rfl
  | cons v f' ih =>
    simp only [freqBytes, List.flatMap_cons] at ih ⊢
    simp [leBytes_length, ih]
    omega

theorem freqRead_freqBytes : ∀ (freq rest : List Nat), (∀ x ∈ freq, x < 2 ^ 32) →
    freqReadGo freq.length (freqBytes freq ++ rest) = freq := by
  intro freq
  induction freq with
  | nil => intro rest _; rfl
  | cons v f' ih =>
    intro rest hbd
    simp only [freqBytes, List.flatMap_cons, List.length_cons]
    rw [freqReadGo]
    rw [List.append_assoc, List.take_left' (leBytes_length 4 v),
      List.drop_left' (leBytes_length 4 v)]
    rw [leVal_leBytes]
    have hv : v < 2 ^ 32 := hbd v (by simp)
    have : v % 256 ^ 4 = v := Nat.mod_eq_of_lt (by norm_num; omega)
    rw [this]
    have := ih rest (fun x hx => hbd x (by simp [hx]))
    simp only [freqBytes] at this
    rw [this]

theorem huffman_serialize_parts (c : HuffmanCompressed) :
    huffman_serialize c = leBytes 8 c.original_size ++ (leBytes 8 c.data.length ++
      (freqBytes c.freq_table ++ c.data)) := by
  simp [huffman_serialize]

theorem huffman_serialize_deserialize (c : HuffmanCompressed)
    (hfl : c.freq_table.length = 256) (hfb : ∀ x ∈ c.freq_table, x < 2 ^ 32)
    (horig : c.original_size < 2 ^ 64) (hsz : 1040 + c.data.length < 2 ^ 64) :
    huffman_deserialize (huffman_serialize c) = .ok c := by
  have hlen : (huffman_serialize c).length = 1040 + c.data.length := by
    rw [huffman_serialize_parts]
    simp [leBytes_length, freqBytes_length, hfl]
    omega
  have htk : (huffman_serialize c).take 8 = leBytes 8 c.original_size := by
    rw [huffman_serialize_parts]; exact List.take_left' (leBytes_length 8 _)
  have hdp : (huffman_serialize c).drop 8 = leBytes 8 c.data.length ++
      (freqBytes c.freq_table ++ c.data) := by
    rw [huffman_serialize_parts]; exact List.drop_left' (leBytes_length 8 _)
  have htk2 : ((huffman_serialize c).drop 8).take 8 = leBytes 8 c.data.length := by
    rw [hdp]; exact List.take_left' (leBytes_length 8 _)
  have hdp16 : (huffman_serialize c).drop 16 = freqBytes c.freq_table ++ c.data := by
    rw [show (16 : Nat) = 8 + 8 from rfl, Nat.add_comm, ← List.drop_drop, hdp]
    exact List.drop_left' (leBytes_length 8 _)
  have hdp1040 : (huffman_serialize c).drop 1040 = c.data := by
    rw [show (1040 : Nat) = 16 + 1024 from rfl, ← List.drop_drop, hdp16]
    exact List.drop_left' (by rw [freqBytes_length, hfl])
  rw [huffman_deserialize, if_neg (by omega)]
  rw [htk, htk2, hdp16, hdp1040, leVal_leBytes, leVal_leBytes]
  have h1 : c.original_size % 256 ^ 8 = c.original_size := Nat.mod_eq_of_lt (by norm_num; omega)
  have h2 : c.data.length % 256 ^ 8 = c.data.length := Nat.mod_eq_of_lt (by norm_num; omega)
  rw [h1, h2, if_neg (by
    rw [hlen, Nat.mod_eq_of_lt (by omega)]
    exact fun h => h rfl)]
  have hread : freqReadGo 256 (freqBytes c.freq_table ++ c.data) = c.freq_table := by
    have := freqRead_freqBytes c.freq_table c.data hfb
    rw [hfl] at this
    exact this
  rw [hread]


theorem flatMap_congr_mem (l : List Nat) (f g : Nat → List Bool)
    (h : ∀ x ∈ l, f x = g x) : l.flatMap f = l.flatMap g := by
  induction l with
  | nil => rfl
  | cons a t ih =>
    simp only [List.flatMap_cons]
    rw [h a (by simp), ih (fun x hx => h x (by simp [hx]))]

theorem flatMap_length_le (l : List Nat) (f : Nat → List Bool) (k : Nat)
    (h : ∀ x ∈ l, (f x).length ≤ k) : (l.flatMap f).length ≤ k * l.length := by
  induction l with
  | nil => simp
  | cons a t ih =>
    simp only [List.flatMap_cons, List.length_append, List.length_cons]
    have h1 := h a (by simp)
    have h2 := ih (fun x hx => h x (by simp [hx]))
    have : k * (t.length + 1) = k * t.length + k := by ring
    omega

theorem walkTo_length : ∀ (q : List Bool) (t : HTree) (v fr : Nat),
    walkTo t q = some (.leaf v fr) → q.length + 1 ≤ t.syms.length := by
  intro q
  induction q with
  | nil =>
    intro t v fr hw
    rw [walkTo] at hw
    have : t = .leaf v fr := (Option.some.injEq _ _).mp hw
    subst this
    simp [HTree.syms]
  | cons b q' ih =>
    intro t v fr hw
    match t with
    | .leaf s f => rw [walkTo] at hw; exact absurd hw (by simp)
    | .node f l r =>
      rw [walkTo] at hw
      have hchild := ih _ v fr hw
      have hlne := HTree.syms_ne_nil l
      have hrne := HTree.syms_ne_nil r
      have hl1 : 1 ≤ l.syms.length := List.length_pos.mpr hlne
      have hr1 : 1 ≤ r.syms.length := List.length_pos.mpr hrne
      simp only [HTree.syms, List.length_append, List.length_cons]
      by_cases hb : b
      · rw [if_pos hb] at hchild; omega
      · rw [if_neg hb] at hchild; omega

theorem huffman_engine_roundtrip (input : List Nat) (hne : input ≠ [])
    (hbytes : ∀ x ∈ input, x < 256) (hlen : input.length < 2 ^ 32) :
    ∃ c, huffman_compress input = .ok c ∧ huffman_decompress c = .ok input ∧
      c.freq_table = computeFreq input ∧ c.original_size = input.length ∧
      c.data ≠ [] ∧ c.data.length ≤ 256 * input.length := by
  have hl0 : input.length ≠ 0 := by simpa using hne
  set freq := computeFreq input with hfreq
  have hU32 : U32 = 2 ^ 32 := by norm_num [U32]
  have hcount : ∀ v ∈ input, 0 < nth freq v := by
    intro v hv
    rw [hfreq, computeFreq_nth input hbytes v (hbytes v hv)]
    have h1 : 0 < input.count v := List.count_pos_iff.mpr hv
    have h2 : input.count v ≤ input.length := List.count_le_length _ _
    rw [Nat.mod_eq_of_lt (by omega)]
    exact h1
  have hmemnzs : ∀ v ∈ input, v ∈ (List.range 256).filter
      (fun i => decide (0 < nth freq i)) := by
    intro v hv
    rw [List.mem_filter]
    exact ⟨by simp [List.mem_range]; exact hbytes v hv, by simpa using hcount v hv⟩
  have hnzsne : (List.range 256).filter (fun i => decide (0 < nth freq i)) ≠ [] := by
    rcases input with _ | ⟨v, rest⟩
    · exact absurd rfl hne
    · intro hnil
      have := hmemnzs v (by simp)
      rw [hnil] at this
      simp at this
  obtain ⟨t, hbuild, hts⟩ := build_huffman_tree_spec freq hnzsne
  have hmemsyms : ∀ v ∈ input, v ∈ t.syms := by
    intro v hv
    rw [hts.mem_iff]
    exact hmemnzs v hv
  match t with
  | .leaf s fr =>
    -- single-symbol special case
    have hnzs : (List.range 256).filter (fun i => decide (0 < nth freq i)) = [s] := by
      have := hts
      simp only [HTree.syms] at this
      exact (List.perm_singleton.mp this.symm).symm ▸ rfl
    have hall : ∀ v ∈ input, v = s := by
      intro v hv
      have := hmemsyms v hv
      simpa [HTree.syms] using this
    have hinput : input = List.replicate input.length s := by
      apply List.eq_replicate_of_mem
      intro x hx
      exact hall x hx
    refine ⟨⟨[s], input.length, freq⟩, ?_, ?_, rfl, rfl, by simp, by simp; omega⟩
    · have hstep : huffman_compress input = (match build_huffman_tree freq with
          | none => Except.error HuffErr.memory
          | some (.leaf s2 _) => Except.ok ⟨[s2], input.length, freq⟩
          | some (.node f l r) => Except.ok ⟨packBits (input.flatMap fun b =>
              codeOf (.node f l r) (b % 256)), input.length, freq⟩) := by
        rw [huffman_compress, if_neg hl0]
      rw [hstep]
      simp only [hbuild]
    · simp only [huffman_decompress, hbuild]
      exact congrArg Except.ok hinput.symm
  | .node f0 l0 r0 =>
    set bits := input.flatMap (codeOf (.node f0 l0 r0)) with hbits
    have hflatcongr : input.flatMap (fun b => codeOf (.node f0 l0 r0) (b % 256)) = bits := by
      rw [hbits]
      apply flatMap_congr_mem
      intro x hx
      rw [Nat.mod_eq_of_lt (hbytes x hx)]
    have hcodelen : ∀ v ∈ input, (codeOf (.node f0 l0 r0) v).length ≤ 256 := by
      intro v hv
      obtain ⟨fr, hw⟩ := codeOf_spec _ v (hmemsyms v hv)
      have h1 := walkTo_length _ _ v fr hw
      have h2 : (HTree.node f0 l0 r0).syms.length ≤ 256 := by
        rw [hts.length_eq]
        have := List.length_filter_le (fun i => decide (0 < nth freq i)) (List.range 256)
        simpa using this
      omega
    have hbitsne : bits ≠ [] := by
      rcases hin : input with _ | ⟨v, rest⟩
      · exact absurd hin hne
      · rw [hbits, hin, List.flatMap_cons]
        obtain ⟨fr, hw⟩ := codeOf_spec _ v (hmemsyms v (by rw [hin]; simp))
        intro hnil
        have hqne : codeOf (.node f0 l0 r0) v ≠ [] := by
          intro hq
          rw [hq, walkTo] at hw
          simp at hw
        rcases List.append_eq_nil.mp hnil with ⟨h1, _⟩
        exact hqne h1
    have hdata_ne : packBits bits ≠ [] := by
      rw [packBits]
      exact packBitsGo_ne_nil _ _ hbitsne (List.length_pos.mpr hbitsne)
    have hdata_len : (packBits bits).length ≤ 256 * input.length := by
      have h1 : (packBits bits).length ≤ bits.length := packBitsGo_length_le _ _
      have h2 : bits.length ≤ 256 * input.length := by
        rw [hbits]
        exact flatMap_length_le input _ 256 hcodelen
      omega
    refine ⟨⟨packBits bits, input.length, freq⟩, ?_, ?_, rfl, rfl, hdata_ne, hdata_len⟩
    · have hstep : huffman_compress input = (match build_huffman_tree freq with
          | none => Except.error HuffErr.memory
          | some (.leaf s2 _) => Except.ok ⟨[s2], input.length, freq⟩
          | some (.node f l r) => Except.ok ⟨packBits (input.flatMap fun b =>
              codeOf (.node f l r) (b % 256)), input.length, freq⟩) := by
        rw [huffman_compress, if_neg hl0]
      rw [hstep]
      simp only [hbuild]
      rw [hflatcongr]
    · simp only [huffman_decompress, hbuild]
      rw [flatMap_byteBits_packBits]
      have := hWalk_encode (.node f0 l0 r0) f0 l0 r0 rfl input.length input []
        (List.replicate ((8 - bits.length % 8) % 8) false) hmemsyms (by simp)
      simpa [hbits] using this


theorem huffman_truncation (c : HuffmanCompressed) (hne : c.data ≠ [])
    (hfl : c.freq_table.length = 256) :
    huffman_deserialize ((huffman_serialize c).dropLast) = .error .corrupt := by
  have hsz : 1 ≤ c.data.length := List.length_pos.mpr hne
  have hassoc : (huffman_serialize c).dropLast =
      leBytes 8 c.original_size ++ (leBytes 8 c.data.length ++
        (freqBytes c.freq_table ++ c.data.dropLast)) := by
    rw [huffman_serialize_parts]
    rw [List.dropLast_append_of_ne_nil _ (by
      intro h
      exact hne (List.append_eq_nil.mp (List.append_eq_nil.mp h).2).2)]
    rw [List.dropLast_append_of_ne_nil _ (by
      intro h
      exact hne (List.append_eq_nil.mp h).2)]
    rw [List.dropLast_append_of_ne_nil _ hne]
  have hlen : (huffman_serialize c).dropLast.length = 1039 + c.data.length := by
    rw [hassoc]
    simp [leBytes_length, freqBytes_length, hfl]
    omega
  rw [huffman_deserialize, if_neg (by omega)]
  rw [hassoc]
  rw [List.take_left' (leBytes_length 8 _), List.drop_left' (leBytes_length 8 _),
    List.take_left' (leBytes_length 8 _), leVal_leBytes]
  rw [if_pos]
  rw [← hassoc, hlen, leVal_leBytes]
  have hmod : c.data.length % 256 ^ 8 < 2 ^ 64 := by
    have := Nat.mod_lt c.data.length (show 0 < 256 ^ 8 by norm_num)
    calc c.data.length % 256 ^ 8 < 256 ^ 8 := this
    _ = 2 ^ 64 := by norm_num
  by_cases hw : 1040 + c.data.length % 256 ^ 8 < 2 ^ 64
  · rw [Nat.mod_eq_of_lt hw]
    have : c.data.length % 256 ^ 8 ≤ c.data.length := Nat.mod_le _ _
    omega
  · have : (1040 + c.data.length % 256 ^ 8) % 2 ^ 64 =
        1040 + c.data.length % 256 ^ 8 - 2 ^ 64 := by
      rw [Nat.mod_eq_sub_mod (by omega), Nat.mod_eq_of_lt (by omega)]
    omega

theorem huffman_deserialize_exact (input : List Nat) (hbytes : ∀ x ∈ input, x < 256)
    (hlen : input.length < 2 ^ 64) :
    ((huffman_deserialize input).isOk = true) ↔
      input.length = 1040 + leVal ((input.drop 8).take 8) := by
  constructor
  · intro hok
    rw [huffman_deserialize] at hok
    by_cases h16 : input.length < 1040
    · rw [if_pos h16] at hok; simp [Except.isOk, Except.toBool] at hok
    · rw [if_neg h16] at hok
      set size := leVal ((input.drop 8).take 8) with hsz
      by_cases hchk : input.length = (1040 + size) % 2 ^ 64
      · have hszlt : size < 2 ^ 64 := by
          have hb : ∀ x ∈ (input.drop 8).take 8, x < 256 := by
            intro x hx
            exact hbytes x (List.mem_of_mem_drop (List.mem_of_mem_take hx))
          have hl : ((input.drop 8).take 8).length = 8 := by
            simp; omega
          have := leVal_lt _ hb
          rw [hl] at this
          calc size < 256 ^ 8 := this
          _ = 2 ^ 64 := by norm_num
        by_cases hwrap : 1040 + size < 2 ^ 64
        · rw [Nat.mod_eq_of_lt hwrap] at hchk; exact hchk
        · exfalso
          have : (1040 + size) % 2 ^ 64 = 1040 + size - 2 ^ 64 := by
            rw [Nat.mod_eq_sub_mod (by omega), Nat.mod_eq_of_lt (by omega)]
          omega
      · exfalso
        have herr : (if input.length ≠ (1040 + size) % 2 ^ 64 then
            (Except.error HuffErr.corrupt : Except HuffErr HuffmanCompressed)
            else Except.ok ⟨input.drop 1040, leVal (input.take 8),
              freqReadGo 256 (input.drop 16)⟩) =
            Except.error HuffErr.corrupt := if_pos hchk
        rw [herr] at hok
        simp [Except.isOk, Except.toBool] at hok
  · intro heq
    rw [huffman_deserialize, if_neg (by omega)]
    rw [if_neg (by rw [Nat.mod_eq_of_lt (by omega)]; omega)]
    simp [Except.isOk, Except.toBool]


theorem computeFreq_replicate (n v : Nat) (hv : v < 256) :
    computeFreq (List.replicate n v) = (List.replicate 256 0).set v (n % U32) := by
  have hbytes : ∀ x ∈ List.replicate n v, x < 256 := by
    intro x hx
    rw [List.eq_of_mem_replicate hx]
    exact hv
  apply List.ext_getElem
  · simp [computeFreq_length]
  · intro j h1 h2
    have hj : j < 256 := by rw [computeFreq_length] at h1; exact h1
    have hl : nth (computeFreq (List.replicate n v)) j =
        (List.replicate n v).count j % U32 := computeFreq_nth _ hbytes j hj
    rw [nth_lt_length _ _ (by rw [computeFreq_length]; exact hj)] at hl
    simp only [List.get_eq_getElem] at hl
    rw [hl]
    rw [List.count_replicate]
    by_cases hjv : j = v
    · subst hjv
      rw [if_pos (by simp), List.getElem_set_self]
    · rw [if_neg (by simp only [beq_iff_eq]; omega)]
      rw [List.getElem_set_ne (by omega), List.getElem_replicate, Nat.zero_mod]

theorem nzs_single (v k : Nat) (hv : v < 256) (hk : k ≠ 0) :
    (List.range 256).filter
      (fun i => decide (0 < nth ((List.replicate 256 0).set v k) i)) = [v] := by
  have hpred : ∀ i ∈ List.range 256,
      (decide (0 < nth ((List.replicate 256 0).set v k) i)) = (i == v) := by
    intro i hi
    have hi256 : i < 256 := List.mem_range.mp hi
    by_cases hiv : i = v
    · subst hiv
      rw [nth_set_self _ _ _ (by simp; omega)]
      simp [Nat.pos_of_ne_zero hk]
    · rw [nth_set_ne _ _ _ _ (by omega)]
      have : nth (List.replicate 256 (0 : Nat)) i = 0 := by
        rw [nth, List.getElem?_replicate, if_pos hi256]
        rfl
      rw [this]
      simp [hiv]
  rw [List.filter_congr hpred]
  rw [List.filter_beq]
  have hcount : (List.range 256).count v = 1 := by
    have hnd := List.nodup_range 256
    have hmem : v ∈ List.range 256 := List.mem_range.mpr hv
    have hle := List.nodup_iff_count_le_one.mp hnd v
    have hge := List.count_pos_iff.mpr hmem
    omega
  rw [hcount]
  rfl

theorem mergeLoop_singleton (fuel : Nat) (x : HTree) : mergeLoopGo fuel [x] = some x := by
  cases fuel with
  | zero => rfl
  | succ n => rw [mergeLoopGo, if_neg (by simp)]; rfl

theorem build_single (v k : Nat) (hv : v < 256) (hk : k ≠ 0) :
    build_huffman_tree ((List.replicate 256 0).set v k) = some (.leaf v k) := by
  have hperm := buildLeaves_perm ((List.replicate 256 0).set v k)
  rw [nzs_single v k hv hk] at hperm
  have hnth : nth ((List.replicate 256 0).set v k) v = k :=
    nth_set_self _ _ _ (by simp; omega)
  rw [List.map_cons, List.map_nil, hnth] at hperm
  have hBL : buildLeaves ((List.replicate 256 0).set v k) = [.leaf v k] :=
    List.perm_singleton.mp hperm
  rw [build_huffman_tree, hBL]
  exact mergeLoop_singleton _ _

theorem huffman_replicate_spec (n v : Nat) (hn : 1 ≤ n) (hv : v < 256)
    (hmod : n % U32 ≠ 0) :
    huffman_compress (List.replicate n v) =
      .ok ⟨[v], n, (List.replicate 256 0).set v (n % U32)⟩ ∧
    huffman_decompress ⟨[v], n, (List.replicate 256 0).set v (n % U32)⟩ =
      .ok (List.replicate n v) ∧
    (List.range 256).filter (fun i => decide (0 < nth
      ((List.replicate 256 0).set v (n % U32)) i)) = [v] := by
  have hl0 : (List.replicate n v).length ≠ 0 := by simp; omega
  have hfr := computeFreq_replicate n v hv
  have hbuild := build_single v (n % U32) hv hmod
  refine ⟨?_, ?_, nzs_single v (n % U32) hv hmod⟩
  · have hstep : huffman_compress (List.replicate n v) =
        (match build_huffman_tree (computeFreq (List.replicate n v)) with
        | none => Except.error HuffErr.memory
        | some (.leaf s2 _) => Except.ok ⟨[s2], (List.replicate n v).length,
            computeFreq (List.replicate n v)⟩
        | some (.node f l r) => Except.ok ⟨packBits ((List.replicate n v).flatMap fun b =>
            codeOf (.node f l r) (b % 256)), (List.replicate n v).length,
            computeFreq (List.replicate n v)⟩) := by
      rw [huffman_compress, if_neg hl0]
    rw [hstep, hfr]
    simp only [hbuild]
    simp
  · simp only [huffman_decompress, hbuild]

theorem set_zero_replicate (v : Nat) :
    (List.replicate 256 (0 : Nat)).set v 0 = List.replicate 256 0 := by
  apply List.ext_getElem (by simp)
  intro n h1 h2
  rw [List.getElem_set]
  split
  · rw [List.getElem_replicate]
  · rfl

theorem huffman_compress_replicate_wrap (n v : Nat) (hn : n ≠ 0) (hv : v < 256)
    (hmod : n % U32 = 0) : huffman_compress (List.replicate n v) = .error .memory := by
  have hl0 : (List.replicate n v).length ≠ 0 := by simpa using hn
  have hfr := computeFreq_replicate n v hv
  rw [hmod, set_zero_replicate] at hfr
  have hnone : build_huffman_tree (List.replicate 256 0) = none := by
    apply build_huffman_tree_none
    decide
  have hstep : huffman_compress (List.replicate n v) =
      (match build_huffman_tree (computeFreq (List.replicate n v)) with
      | none => Except.error HuffErr.memory
      | some (.leaf s2 _) => Except.ok ⟨[s2], (List.replicate n v).length,
          computeFreq (List.replicate n v)⟩
      | some (.node f l r) => Except.ok ⟨packBits ((List.replicate n v).flatMap
          fun b => codeOf (.node f l r) (b % 256)), (List.replicate n v).length,
          computeFreq (List.replicate n v)⟩) := by
    rw [huffman_compress, if_neg hl0]
  rw [hstep, hfr]
  simp only [hnone]

/-! ## LZW lemmas -/

theorem lzwStrGet_bounds (d : List (List Nat)) (x : Nat) (s : List Nat)
    (h : lzwStrGet d x = some s) : x ≠ 256 ∧ x < 257 + d.length := by
  rw [lzwStrGet] at h
  by_cases h1 : x < 256
  · exact ⟨by omega, by omega⟩
  · rw [if_neg h1] at h
    by_cases h2 : x = 256
    · rw [if_pos h2] at h; simp at h
    · rw [if_neg h2] at h
      obtain ⟨hlt, -⟩ := List.getElem?_eq_some_iff.mp h
      exact ⟨by omega, by omega⟩

theorem lzwStrGet_isSome (d : List (List Nat)) (x : Nat) (h1 : x ≠ 256)
    (h2 : x < 257 + d.length) : ∃ s, lzwStrGet d x = some s := by
  rw [lzwStrGet]
  by_cases h3 : x < 256
  · rw [if_pos h3]; exact ⟨[x], rfl⟩
  · rw [if_neg h3, if_neg h1]
    have : x - 257 < d.length := by omega
    exact ⟨d[x - 257], List.getElem?_eq_getElem this⟩

theorem lzwStrGet_append (d e : List (List Nat)) (x : Nat) (h1 : x ≠ 256)
    (h2 : x < 257 + d.length) : lzwStrGet (d ++ e) x = lzwStrGet d x := by
  by_cases h3 : x < 256
  · simp only [lzwStrGet, if_pos h3]
  · simp only [lzwStrGet, if_neg h3, if_neg h1]
    exact List.getElem?_append_left (by omega)

theorem headD_append (P l : List Nat) (h : P ≠ []) : (P ++ l).headD 0 = P.headD 0 := by
  cases P with
  | nil => exact absurd rfl h
  | cons a t => rfl

theorem find_in_dict_spec (d : List (Nat × Nat)) (w k j : Nat) (hw : w < 65535)
    (h : find_in_dict d w k = some j) :
    257 ≤ j ∧ j - 257 < d.length ∧ d[j - 257]? = some (w, k) := by
  rw [find_in_dict] at h
  have hmem := List.mem_of_find?_eq_some h
  have hpred := List.find?_some h
  rw [List.mem_range] at hmem
  by_cases h1 : j < 256
  · exfalso
    rw [lzwDictEntry, if_pos h1] at hpred
    simp at hpred
    omega
  · by_cases h2 : j = 256
    · exfalso
      rw [lzwDictEntry, if_neg h1, if_pos h2] at hpred
      simp at hpred
    · rw [lzwDictEntry, if_neg h1, if_neg h2] at hpred
      rcases hg : d[j - 257]? with _ | e
      · rw [hg] at hpred; simp at hpred
      · rw [hg] at hpred
        simp at hpred
        obtain ⟨hlt, -⟩ := List.getElem?_eq_some_iff.mp hg
        refine ⟨by omega, hlt, ?_⟩
        have he : e = (w, k) := by
          cases e
          simp_all
        rw [he]


theorem lzwDecode_one (orig : Nat) (cs : List Nat) (w old : Nat)
    (d_d : List (List Nat)) (out P sold : List Nat)
    (hsold : lzwStrGet d_d old = some sold)
    (hov : out.length + P.length ≤ orig)
    (hw4095 : w ≠ 4095)
    (hdd : d_d.length ≤ 3839)
    (hcase : lzwStrGet d_d w = some P ∨
      (w = 257 + d_d.length ∧ P = sold ++ [sold.headD 0])) :
    lzwDecodeGo orig (w :: cs) old d_d out =
      if 257 + d_d.length < 4096 then
        lzwDecodeGo orig cs w (d_d ++ [sold ++ [P.headD 0]]) (out ++ P)
      else lzwDecodeGo orig cs w d_d (out ++ P) := by
  rcases hcase with hget | ⟨hlag, hP⟩
  · obtain ⟨hw256, hwlt⟩ := lzwStrGet_bounds d_d w P hget
    rw [lzwDecodeGo, if_pos hwlt]
    simp only [hget]
    rw [if_neg (show ¬ out.length + P.length > orig by omega)]
    by_cases hfull : 257 + d_d.length < LZW_MAX_DICT_SIZE
    · rw [if_pos hfull]
      simp only [hsold]
      rw [if_pos (show 257 + d_d.length < 4096 by
        simpa [LZW_MAX_DICT_SIZE] using hfull)]
    · rw [if_neg hfull]
      have hlen : d_d.length = 3839 := by
        simp [LZW_MAX_DICT_SIZE] at hfull
        omega
      rw [if_neg (show ¬ w + 1 = 257 + d_d.length by omega)]
      rw [if_neg (show ¬ 257 + d_d.length < 4096 by
        simpa [LZW_MAX_DICT_SIZE] using hfull)]
  · rw [lzwDecodeGo, if_neg (show ¬ w < 257 + d_d.length by omega), if_pos hlag]
    simp only [hsold]
    rw [← hP]
    rw [if_neg (show ¬ out.length + P.length > orig by omega)]
    by_cases hfull : 257 + d_d.length < LZW_MAX_DICT_SIZE
    · rw [if_pos hfull]
      rw [if_pos (show 257 + d_d.length < 4096 by
        simpa [LZW_MAX_DICT_SIZE] using hfull)]
    · rw [if_neg hfull]
      rw [if_neg (show ¬ 257 + d_d.length < 4096 by
        simpa [LZW_MAX_DICT_SIZE] using hfull)]


theorem find_in_dict_nil (w k : Nat) (hw : w < 65535) : find_in_dict [] w k = none := by
  rw [find_in_dict]
  apply List.find?_eq_none.mpr
  intro i hi
  rw [List.mem_range] at hi
  simp only [List.length_nil] at hi
  by_cases h1 : i < 256
  · rw [lzwDictEntry, if_pos h1]
    simp
    omega
  · have h2 : i = 256 := by omega
    subst h2
    rw [lzwDictEntry]
    simp


theorem lzwDecode_lockstep (input : List Nat) :
    ∀ (rest : List Nat) (w : Nat) (d_e : List (Nat × Nat)) (old : Nat)
      (d_d : List (List Nat)) (out P : List Nat),
      (∀ x ∈ rest, x < 256) →
      out ++ P ++ rest = input →
      P ≠ [] →
      w ≠ 256 → w < 257 + d_e.length →
      old ≠ 256 → old < 257 + d_d.length →
      (lzwStrGet d_d w = some P ∨
        (w = 257 + d_d.length ∧ ∃ Qold, lzwStrGet d_d old = some Qold ∧
          P = Qold ++ [Qold.headD 0])) →
      (d_e.length = d_d.length + 1 ∨ (d_e.length = 3839 ∧ d_d.length = 3839)) →
      (d_e.length = d_d.length + 1 → d_e[d_d.length]? = some (old, P.headD 0)) →
      (∀ j, j < d_d.length → ∃ p c Q, d_e[j]? = some (p, c) ∧ p ≠ 256 ∧ p < 257 + j ∧
        lzwStrGet d_d p = some Q ∧ d_d[j]? = some (Q ++ [c])) →
      d_e.length ≤ 3839 → d_d.length ≤ 3839 →
      (∀ c ∈ lzwCompressGo w d_e rest, c ≠ 4095) →
      lzwDecodeGo input.length (lzwCompressGo w d_e rest) old d_d out = .ok input := by
  intro rest
  induction rest with
  | nil =>
    intro w d_e old d_d out P hrest i1 i2 hw256 hwlt hold256 holdlt i5 i6 i7 i8 hde hdd hno
    obtain ⟨sold, hcase⟩ : ∃ sold, lzwStrGet d_d old = some sold ∧
        (lzwStrGet d_d w = some P ∨ (w = 257 + d_d.length ∧ P = sold ++ [sold.headD 0])) := by
      obtain ⟨sold, hsold⟩ := lzwStrGet_isSome d_d old hold256 holdlt
      rcases i5 with h | ⟨hlag, Qold, hQ, hP⟩
      · exact ⟨sold, hsold, Or.inl h⟩
      · rw [hQ] at hsold
        exact ⟨Qold, hQ, Or.inr ⟨hlag, by rw [← (Option.some.injEq _ _).mp hsold.symm] at hP ⊢; exact hP⟩⟩
    obtain ⟨hsold, hcase2⟩ := hcase
    have hov : out.length + P.length ≤ input.length := by
      rw [← i1]
      simp
    have hw4095 : w ≠ 4095 := by
      apply hno
      rw [lzwCompressGo]
      simp
    rw [show lzwCompressGo w d_e [] = [w] from rfl]
    rw [lzwDecode_one input.length [] w old d_d out P sold hsold hov hw4095 hdd hcase2]
    have hok : ∀ dd : List (List Nat),
        lzwDecodeGo input.length [] w dd (out ++ P) = .ok (out ++ P) := fun _ => rfl
    rw [hok, hok, ite_self]
    rw [← i1]
    simp
  | cons k rest ih =>
    intro w d_e old d_d out P hrest i1 i2 hw256 hwlt hold256 holdlt i5 i6 i7 i8 hde hdd hno
    have hk : k < 256 := hrest k (by simp)
    have hkm : k % 256 = k := Nat.mod_eq_of_lt hk
    have hrest' : ∀ x ∈ rest, x < 256 := fun x hx => hrest x (by simp [hx])
    rcases hfind : find_in_dict d_e w (k % 256) with _ | j
    · -- emit step
      have hcodes : lzwCompressGo w d_e (k :: rest) =
          w :: lzwCompressGo (k % 256)
            (if 257 + d_e.length < LZW_MAX_DICT_SIZE then d_e ++ [(w, k % 256)] else d_e)
            rest := by
        rw [lzwCompressGo, hfind]
      rw [hcodes] at hno ⊢
      obtain ⟨sold, hsold, hcase2⟩ : ∃ sold, lzwStrGet d_d old = some sold ∧
          (lzwStrGet d_d w = some P ∨ (w = 257 + d_d.length ∧ P = sold ++ [sold.headD 0])) := by
        obtain ⟨sold, hsold⟩ := lzwStrGet_isSome d_d old hold256 holdlt
        rcases i5 with h | ⟨hlag, Qold, hQ, hP⟩
        · exact ⟨sold, hsold, Or.inl h⟩
        · refine ⟨Qold, hQ, Or.inr ⟨hlag, hP⟩⟩
      have hov : out.length + P.length ≤ input.length := by
        rw [← i1]
        simp
      have hw4095 : w ≠ 4095 := by
        apply hno
        simp
      rw [lzwDecode_one input.length _ w old d_d out P sold hsold hov hw4095 hdd hcase2]
      set d_e2 := if 257 + d_e.length < LZW_MAX_DICT_SIZE then d_e ++ [(w, k % 256)]
        else d_e with hd_e2
      have hi1' : (out ++ P) ++ [k % 256] ++ rest = input := by
        rw [hkm, ← i1]
        simp
      have hnewbyte : ∀ dd : List (List Nat), lzwStrGet dd (k % 256) = some [k % 256] := by
        intro dd
        rw [lzwStrGet, if_pos (by omega)]
      by_cases hddfull : 257 + d_d.length < 4096
      · rw [if_pos hddfull]
        -- decoder adds; the state is lagged
        have hlag : d_e.length = d_d.length + 1 := by
          rcases i6 with h | ⟨h1, h2⟩
          · exact h
          · omega
        have hlagentry := i7 hlag
        by_cases henc : 257 + d_e.length < LZW_MAX_DICT_SIZE
        · -- both add
          have hd_e2v : d_e2 = d_e ++ [(w, k % 256)] := by rw [hd_e2, if_pos henc]
          refine ih (k % 256) d_e2 w (d_d ++ [sold ++ [P.headD 0]]) (out ++ P) [k % 256]
            hrest' hi1' (by simp) (by omega) ?_ hw256 ?_ ?_ ?_ ?_ ?_ ?_ ?_ ?_
          · rw [hd_e2v]; simp; omega
          · simp
            omega
          · exact Or.inl (hnewbyte _)
          · rw [hd_e2v]
            simp
            omega
          · intro hlen2
            rw [hd_e2v]
            simp only [List.length_append, List.length_cons]
            rw [List.getElem?_append_right (by simp; omega)]
            simp [hlag]
          · intro j hj
            simp only [List.length_append, List.length_cons] at hj
            by_cases hjold : j < d_d.length
            · obtain ⟨p, c, Q, he1, he2, he3, he4, he5⟩ := i8 j hjold
              refine ⟨p, c, Q, ?_, he2, he3, ?_, ?_⟩
              · rw [hd_e2v, List.getElem?_append_left (by omega)]
                exact he1
              · rw [lzwStrGet_append _ _ p he2 (by omega)]
                exact he4
              · rw [List.getElem?_append_left (by omega)]
                exact he5
            · have hjeq : j = d_d.length := by simp at hj; omega
              subst hjeq
              refine ⟨old, P.headD 0, sold, ?_, hold256, by omega, ?_, ?_⟩
              · rw [hd_e2v, List.getElem?_append_left (by omega)]
                exact hlagentry
              · rw [lzwStrGet_append _ _ old hold256 holdlt]
                exact hsold
              · rw [List.getElem?_append_right (by omega)]
                simp
          · rw [hd_e2v]
            simp only [List.length_append, List.length_cons, List.length_nil]
            simp only [LZW_MAX_DICT_SIZE] at henc
            omega
          · simp only [List.length_append, List.length_cons, List.length_nil]
            omega
          · intro c hc
            exact hno c (by simp [hc])
        · -- encoder full, decoder catching up
          have hd_e2v : d_e2 = d_e := by rw [hd_e2, if_neg henc]
          have hde3839 : d_e.length = 3839 := by
            simp [LZW_MAX_DICT_SIZE] at henc
            omega
          refine ih (k % 256) d_e2 w (d_d ++ [sold ++ [P.headD 0]]) (out ++ P) [k % 256]
            hrest' hi1' (by simp) (by omega) ?_ hw256 ?_ ?_ ?_ ?_ ?_ ?_ ?_ ?_
          · rw [hd_e2v]; omega
          · simp; omega
          · exact Or.inl (hnewbyte _)
          · rw [hd_e2v]
            right
            simp
            omega
          · intro hlen2
            rw [hd_e2v] at hlen2 ⊢
            simp at hlen2
            omega
          · intro j hj
            simp only [List.length_append, List.length_cons] at hj
            by_cases hjold : j < d_d.length
            · obtain ⟨p, c, Q, he1, he2, he3, he4, he5⟩ := i8 j hjold
              refine ⟨p, c, Q, ?_, he2, he3, ?_, ?_⟩
              · rw [hd_e2v]
                exact he1
              · rw [lzwStrGet_append _ _ p he2 (by omega)]
                exact he4
              · rw [List.getElem?_append_left (by omega)]
                exact he5
            · have hjeq : j = d_d.length := by simp at hj; omega
              subst hjeq
              refine ⟨old, P.headD 0, sold, ?_, hold256, by omega, ?_, ?_⟩
              · rw [hd_e2v]
                exact hlagentry
              · rw [lzwStrGet_append _ _ old hold256 holdlt]
                exact hsold
              · rw [List.getElem?_append_right (by omega)]
                simp
          · rw [hd_e2v]; omega
          · simp; omega
          · intro c hc
            exact hno c (by simp [hc])
      · -- decoder full: both dictionaries stay fixed
        rw [if_neg hddfull]
        have hdd3839 : d_d.length = 3839 := by omega
        have hde3839 : d_e.length = 3839 := by
          rcases i6 with h | ⟨h1, h2⟩
          · omega
          · exact h1
        have hd_e2v : d_e2 = d_e := by
          rw [hd_e2, if_neg (show ¬ 257 + d_e.length < LZW_MAX_DICT_SIZE by
            simp [LZW_MAX_DICT_SIZE]; omega)]
        refine ih (k % 256) d_e2 w d_d (out ++ P) [k % 256]
          hrest' hi1' (by simp) (by omega) ?_ hw256 ?_ ?_ ?_ ?_ ?_ ?_ ?_ ?_
        · rw [hd_e2v]; omega
        · omega
        · exact Or.inl (hnewbyte _)
        · rw [hd_e2v]; right; omega
        · intro hlen2
          rw [hd_e2v] at hlen2
          omega
        · rw [hd_e2v]
          exact i8
        · rw [hd_e2v]; omega
        · omega
        · intro c hc
          exact hno c (by simp [hc])
    · -- found step
      have hcodes : lzwCompressGo w d_e (k :: rest) = lzwCompressGo j d_e rest := by
        rw [lzwCompressGo, hfind]
      rw [hcodes] at hno ⊢
      have hw65535 : w < 65535 := by omega
      obtain ⟨hj257, hjlt, hjent⟩ := find_in_dict_spec d_e w (k % 256) j hw65535 hfind
      -- the current state cannot be lagged with a found entry whose prefix is w
      by_cases hjd : j - 257 < d_d.length
      · -- the found entry is mirrored in the decoder dictionary
        obtain ⟨p, c, Q, he1, he2, he3, he4, he5⟩ := i8 (j - 257) hjd
        rw [hjent] at he1
        have hpair : (w, k % 256) = (p, c) := (Option.some.injEq _ _).mp he1
        rw [Prod.mk.injEq] at hpair
        obtain ⟨hpw1, hpw2⟩ := hpair
        have hi5n : lzwStrGet d_d w = some P := by
          rcases i5 with h | ⟨hlag, _, _, _⟩
          · exact h
          · have : p < 257 + d_d.length := by omega
            omega
        have hQP : Q = P := by
          rw [← hpw1, hi5n] at he4
          exact ((Option.some.injEq _ _).mp he4).symm
        refine ih j d_e old d_d out (P ++ [k % 256]) hrest' ?_ (by simp) (by omega)
          (by omega) hold256 holdlt ?_ i6 ?_ i8 hde hdd hno
        · rw [hkm, ← i1]
          simp
        · left
          rw [lzwStrGet, if_neg (show ¬ j < 256 by omega),
            if_neg (show ¬ j = 256 by omega), he5, hQP, ← hpw2]
        · intro hlen2
          rw [headD_append P _ i2]
          exact i7 hlen2
      · -- the found entry is the encoder's lagged entry: KwKwK setup
        have hlag : d_e.length = d_d.length + 1 := by
          rcases i6 with h | ⟨h1, h2⟩
          · exact h
          · omega
        have hjeq : j - 257 = d_d.length := by omega
        have hlagentry := i7 hlag
        rw [hjeq] at hjent
        rw [hjent] at hlagentry
        have hpair : (w, k % 256) = (old, P.headD 0) :=
          (Option.some.injEq _ _).mp hlagentry
        rw [Prod.mk.injEq] at hpair
        obtain ⟨how, hkP⟩ := hpair
        have hi5n : lzwStrGet d_d w = some P := by
          rcases i5 with h | ⟨hlg, _, _, _⟩
          · exact h
          · omega
        refine ih j d_e old d_d out (P ++ [k % 256]) hrest' ?_ (by simp) (by omega)
          (by omega) hold256 holdlt ?_ i6 ?_ i8 hde hdd hno
        · rw [hkm, ← i1]
          simp
        · right
          refine ⟨by omega, P, ?_, ?_⟩
          · rw [← how]
            exact hi5n
          · rw [hkP]
        · intro hlen2
          rw [headD_append P _ i2]
          exact i7 hlen2


theorem lzw_roundtrip (input : List Nat) (hbytes : ∀ x ∈ input, x < 256)
    (c : LzwCompressed) (hok : lzw_compress input = .ok c)
    (hno : ∀ cd ∈ c.codes, cd ≠ 4095) :
    lzw_decompress c = .ok input := by
  cases input with
  | nil => simp [lzw_compress] at hok
  | cons b rest =>
    have hb : b < 256 := hbytes b (by simp)
    have hbm : b % 256 = b := Nat.mod_eq_of_lt hb
    have hc : c = ⟨lzwCompressGo (b % 256) [] rest, (b :: rest).length⟩ := by
      have h : (Except.ok ⟨lzwCompressGo (b % 256) [] rest, (b :: rest).length⟩ :
          Except LzwErr LzwCompressed) = .ok c := hok
      exact ((Except.ok.injEq _ _).mp h).symm
    subst hc
    have hno2 : ∀ cd ∈ lzwCompressGo (b % 256) [] rest, cd ≠ 4095 := hno
    rw [hbm] at hno2 ⊢
    cases rest with
    | nil =>
      rw [show lzwCompressGo b [] [] = [b] from rfl]
      have hunfold : lzw_decompress ⟨[b], (b :: ([] : List Nat)).length⟩ =
          if b ≥ LZW_INIT_DICT_SIZE then .error .corrupt
          else if (b :: ([] : List Nat)).length = 0 then .error .oob
          else lzwDecodeGo (b :: ([] : List Nat)).length [] b [] [b] := rfl
      rw [hunfold,
        if_neg (show ¬ b ≥ LZW_INIT_DICT_SIZE by simp [LZW_INIT_DICT_SIZE]; omega),
        if_neg (by simp)]
      rfl
    | cons k rest2 =>
      have hk : k < 256 := hbytes k (by simp)
      have hkm : k % 256 = k := Nat.mod_eq_of_lt hk
      have hrest2 : ∀ x ∈ rest2, x < 256 := fun x hx => hbytes x (by simp [hx])
      have hcodes : lzwCompressGo b [] (k :: rest2) =
          b :: lzwCompressGo k [(b, k)] rest2 := by
        rw [lzwCompressGo, find_in_dict_nil b (k % 256) (by omega)]
        simp [LZW_MAX_DICT_SIZE, hkm]
      rw [hcodes] at hno2 ⊢
      have hunfold : lzw_decompress
          ⟨b :: lzwCompressGo k [(b, k)] rest2, (b :: k :: rest2).length⟩ =
          if b ≥ LZW_INIT_DICT_SIZE then .error .corrupt
          else if (b :: k :: rest2).length = 0 then .error .oob
          else lzwDecodeGo (b :: k :: rest2).length
            (lzwCompressGo k [(b, k)] rest2) b [] [b] := rfl
      rw [hunfold,
        if_neg (show ¬ b ≥ LZW_INIT_DICT_SIZE by simp [LZW_INIT_DICT_SIZE]; omega),
        if_neg (by simp)]
      refine lzwDecode_lockstep (b :: k :: rest2) rest2 k [(b, k)] b [] [b] [k]
        hrest2 (by simp) (by simp) (by omega)
        (show k < 257 + [(b, k)].length by simp; omega)
        (by omega)
        (show b < 257 + ([] : List (List Nat)).length by simp; omega)
        (Or.inl (by rw [lzwStrGet, if_pos hk]))
        (Or.inl (by simp))
        (fun _ => rfl)
        (by intro j hj; simp at hj)
        (by simp) (by simp)
        (fun cd hcd => hno2 cd (by simp [hcd]))

theorem lzwCompress_codes_lt : ∀ (rest : List Nat) (w : Nat) (d_e : List (Nat × Nat)),
    w < 257 + d_e.length → d_e.length ≤ 3839 →
    ∀ c ∈ lzwCompressGo w d_e rest, c < 4096
  | [], w, d_e, hw, hd, c, hc => by
    rw [lzwCompressGo] at hc
    simp at hc
    omega
  | k :: rest, w, d_e, hw, hd, c, hc => by
    rw [lzwCompressGo] at hc
    rcases hfind : find_in_dict d_e w (k % 256) with _ | j
    · rw [hfind] at hc
      have hc2 : c ∈ w :: lzwCompressGo (k % 256)
          (if 257 + d_e.length < LZW_MAX_DICT_SIZE then d_e ++ [(w, k % 256)] else d_e)
          rest := hc
      rcases List.mem_cons.mp hc2 with hcw | hcrest
      · omega
      · by_cases hroom : 257 + d_e.length < LZW_MAX_DICT_SIZE
        · rw [if_pos hroom] at hcrest
          refine lzwCompress_codes_lt rest (k % 256) _ (by simp; omega) ?_ c hcrest
          simp only [List.length_append, List.length_cons, List.length_nil]
          simp only [LZW_MAX_DICT_SIZE] at hroom
          omega
        · rw [if_neg hroom] at hcrest
          exact lzwCompress_codes_lt rest (k % 256) d_e (by omega) hd c hcrest
    · rw [hfind] at hc
      have hj : j ∈ List.range (257 + d_e.length) :=
        List.mem_of_find?_eq_some hfind
      rw [List.mem_range] at hj
      exact lzwCompress_codes_lt rest j d_e (by omega) hd c hc

theorem lzwCompress_codes_len : ∀ (rest : List Nat) (w : Nat) (d_e : List (Nat × Nat)),
    (lzwCompressGo w d_e rest).length ≤ rest.length + 1
  | [], _, _ => by rw [lzwCompressGo]; simp
  | k :: rest, w, d_e => by
    rw [lzwCompressGo]
    rcases find_in_dict d_e w (k % 256) with _ | j
    · have := lzwCompress_codes_len rest (k % 256)
        (if 257 + d_e.length < LZW_MAX_DICT_SIZE then d_e ++ [(w, k % 256)] else d_e)
      simp only [List.length_cons]
      omega
    · have := lzwCompress_codes_len rest j d_e
      simp only [List.length_cons]
      omega

theorem flatMapTwo_length : ∀ (codes : List Nat),
    (codes.flatMap (fun cd => [cd % 256, cd / 256 % 256])).length = 2 * codes.length
  | [] => rfl
  | cd :: cs => by
    rw [List.flatMap_cons]
    simp only [List.length_append, List.length_cons, List.length_nil]
    rw [flatMapTwo_length cs]
    omega

theorem lzwCodesRead_flatMap : ∀ (codes : List Nat),
    (∀ cd ∈ codes, cd < 65536) →
    lzwCodesRead codes.length (codes.flatMap (fun cd => [cd % 256, cd / 256 % 256])) = codes
  | [], _ => rfl
  | cd :: cs, h => by
    rw [List.flatMap_cons, List.length_cons, lzwCodesRead]
    have hcd : cd < 65536 := h cd (by simp)
    have h0 : nth ([cd % 256, cd / 256 % 256] ++ cs.flatMap (fun cd => [cd % 256, cd / 256 % 256])) 0 = cd % 256 := by
      simp [nth]
    have h1 : nth ([cd % 256, cd / 256 % 256] ++ cs.flatMap (fun cd => [cd % 256, cd / 256 % 256])) 1 = cd / 256 % 256 := by
      simp [nth]
    rw [h0, h1]
    have hdrop : ([cd % 256, cd / 256 % 256] ++
        cs.flatMap (fun cd => [cd % 256, cd / 256 % 256])).drop 2 =
        cs.flatMap (fun cd => [cd % 256, cd / 256 % 256]) := rfl
    rw [hdrop, lzwCodesRead_flatMap cs (fun x hx => h x (by simp [hx]))]
    have hval : cd % 256 + cd / 256 % 256 * 256 = cd := by omega
    rw [hval]

theorem lzw_serialize_deserialize (codes : List Nat) (orig : Nat)
    (horig : orig < 2 ^ 64) (hcd : ∀ cd ∈ codes, cd < 65536)
    (hsz : 16 + codes.length * 2 < 2 ^ 64) :
    lzw_deserialize (lzw_serialize ⟨codes, orig⟩) = .ok ⟨codes, orig⟩ := by
  have hassoc : lzw_serialize ⟨codes, orig⟩ =
      leBytes 8 orig ++ (leBytes 8 codes.length ++
        codes.flatMap (fun cd => [cd % 256, cd / 256 % 256])) := by
    simp [lzw_serialize]
  have hlen : (lzw_serialize ⟨codes, orig⟩).length = 16 + codes.length * 2 := by
    rw [hassoc]
    simp only [List.length_append, leBytes_length, flatMapTwo_length]
    omega
  have htk : (lzw_serialize ⟨codes, orig⟩).take 8 = leBytes 8 orig := by
    rw [hassoc]; exact serial_take8 _ _
  have hdp : (lzw_serialize ⟨codes, orig⟩).drop 8 =
      leBytes 8 codes.length ++ codes.flatMap (fun cd => [cd % 256, cd / 256 % 256]) := by
    rw [hassoc]; exact serial_drop8 _ _
  have hdp16 : (lzw_serialize ⟨codes, orig⟩).drop 16 =
      codes.flatMap (fun cd => [cd % 256, cd / 256 % 256]) := by
    rw [show (16 : Nat) = 8 + 8 from rfl, Nat.add_comm, ← List.drop_drop, hdp]
    exact serial_drop8 _ _
  rw [lzw_deserialize, if_neg (by omega)]
  simp only [htk, hdp, serial_take8, hdp16, leVal_leBytes]
  have h1 : orig % 256 ^ 8 = orig := Nat.mod_eq_of_lt (by norm_num; omega)
  have h2 : codes.length % 256 ^ 8 = codes.length := Nat.mod_eq_of_lt (by norm_num; omega)
  rw [h1, h2]
  rw [if_neg (show ¬ (lzw_serialize ⟨codes, orig⟩).length ≠ (16 + codes.length * 2) % 2 ^ 64 by
    rw [hlen, Nat.mod_eq_of_lt hsz]; omega)]
  rw [if_neg (show ¬ 2 ^ 64 ≤ 16 + codes.length * 2 by omega)]
  rw [lzwCodesRead_flatMap codes hcd]

theorem lzw_truncation (codes : List Nat) (orig : Nat) (hne : codes ≠ [])
    (hsz : 16 + codes.length * 2 < 2 ^ 64) :
    lzw_deserialize ((lzw_serialize ⟨codes, orig⟩).dropLast) = .error .corrupt := by
  have hfne : codes.flatMap (fun cd => [cd % 256, cd / 256 % 256]) ≠ [] := by
    intro h
    have := flatMapTwo_length codes
    rw [h] at this
    simp at this
    exact hne this
  have hcpos : 1 ≤ codes.length := List.length_pos.mpr hne
  have hassoc : (lzw_serialize ⟨codes, orig⟩).dropLast =
      leBytes 8 orig ++ (leBytes 8 codes.length ++
        (codes.flatMap (fun cd => [cd % 256, cd / 256 % 256])).dropLast) := by
    show (leBytes 8 orig ++ leBytes 8 codes.length ++ _).dropLast = _
    rw [List.append_assoc, List.dropLast_append_of_ne_nil _ (by
      intro h
      exact hfne (List.append_eq_nil.mp h).2)]
    rw [List.dropLast_append_of_ne_nil _ hfne]
  have hlen : (lzw_serialize ⟨codes, orig⟩).dropLast.length = 15 + codes.length * 2 := by
    rw [hassoc]
    simp only [List.length_append, leBytes_length, List.length_dropLast, flatMapTwo_length]
    omega
  rw [lzw_deserialize, if_neg (by omega)]
  rw [hassoc]
  simp only [serial_take8, serial_drop8, leVal_leBytes]
  have h2 : codes.length % 256 ^ 8 = codes.length := Nat.mod_eq_of_lt (by norm_num; omega)
  rw [h2, if_pos]
  rw [← hassoc, hlen, Nat.mod_eq_of_lt hsz]
  omega

theorem lzw_deserialize_exact (input : List Nat) (hbytes : ∀ x ∈ input, x < 256)
    (hlen : input.length < 2 ^ 64) :
    ((lzw_deserialize input).isOk = true) ↔
      input.length = 16 + leVal ((input.drop 8).take 8) * 2 := by
  constructor
  · intro hok
    rw [lzw_deserialize] at hok
    by_cases h16 : input.length < 16
    · rw [if_pos h16] at hok; simp [Except.isOk, Except.toBool] at hok
    · rw [if_neg h16] at hok
      set cc := leVal ((input.drop 8).take 8) with hcc
      by_cases hchk : input.length = (16 + cc * 2) % 2 ^ 64
      · rw [if_neg (by omega)] at hok
        by_cases hwrap : 2 ^ 64 ≤ 16 + cc * 2
        · rw [if_pos hwrap] at hok; simp [Except.isOk, Except.toBool] at hok
        · rw [if_neg hwrap] at hok
          rw [hchk, Nat.mod_eq_of_lt (by omega)]
      · rw [if_pos hchk] at hok; simp [Except.isOk, Except.toBool] at hok
  · intro heq
    rw [lzw_deserialize, if_neg (by omega)]
    set cc := leVal ((input.drop 8).take 8) with hcc
    rw [if_neg (show ¬ input.length ≠ (16 + cc * 2) % 2 ^ 64 by
      rw [Nat.mod_eq_of_lt (by omega)]; omega)]
    rw [if_neg (show ¬ 2 ^ 64 ≤ 16 + cc * 2 by omega)]
    rfl

/-! ## Claim C2 and C6 theorems -/

/-- C2: for every non-empty byte sequence b, non-empty key k, and size_t
representable length, decrypting the container produced by encrypting b
under k returns exactly b for each of the three stream ciphers; for
ChaCha20 the encryption succeeds (and hence the round trip holds) for
every length up to the 32-bit counter ceiling of 64 * (2^32 - 2) bytes. -/
theorem cipher_roundtrip (b k : List Nat) (hb : b ≠ []) (hbytes : ∀ x ∈ b, x < 256)
    (hk : k ≠ []) (hlen : b.length < 2 ^ 64) :
    (b.length ≤ 64 * (U32 - 2) →
      (chacha20_encrypt b k).bind (fun c => chacha20_decrypt c k) = .ok b) ∧
    (salsa20_encrypt b k).bind (fun c => salsa20_decrypt c k) = .ok b ∧
    (rc4_encrypt b k).bind (fun c => rc4_decrypt c k) = .ok b := by
  have hkl : ¬ k.length = 0 := by simpa [List.length_eq_zero] using hk
  exact ⟨fun hcap => chacha20_roundtrip b k hbytes hkl hcap,
    salsa20_roundtrip b k hb hbytes hkl hlen,
    rc4_roundtrip b k hb hbytes hkl hlen⟩

/-- Witness for cipher_roundtrip at a concrete byte sequence and key. -/
theorem cipher_roundtrip_witness :
    ((List.replicate 3 (1:Nat)).length ≤ 64 * (U32 - 2) →
      (chacha20_encrypt (List.replicate 3 1) [7, 8]).bind
        (fun c => chacha20_decrypt c [7, 8]) = .ok (List.replicate 3 1)) ∧
    (salsa20_encrypt (List.replicate 3 1) [7, 8]).bind
        (fun c => salsa20_decrypt c [7, 8]) = .ok (List.replicate 3 1) ∧
    (rc4_encrypt (List.replicate 3 1) [7, 8]).bind
        (fun c => rc4_decrypt c [7, 8]) = .ok (List.replicate 3 1) :=
  cipher_roundtrip (List.replicate 3 1) [7, 8] (by decide) (by decide) (by decide)
    (by norm_num)

/-- C6: ChaCha20 encryption fails with GSEA_ERROR_ENCRYPTION exactly when
the payload needs more keystream blocks than the 32-bit counter can
provide before wrapping to 0 (64 bytes for each counter value 1 ..
2^32 - 2); the counters whose keystream blocks are actually consumed are
pairwise distinct, so no counter value is ever used twice within one
(key, nonce) stream, and the final counter has advanced by exactly the
number of consumed blocks. -/
theorem chacha20_counter_ceiling (b k : List Nat) (hk : k ≠ []) :
    ((chacha20_encrypt b k).isOk = true ↔ b.length ≤ 64 * (U32 - 2)) ∧
    (chachaTrace (chacha20_init (simple_hash k) ((simple_hash k).take 12) 1) b).Pairwise
      (· ≠ ·) ∧
    (∀ ct cf, chacha20_crypt (chacha20_init (simple_hash k) ((simple_hash k).take 12) 1) b
        = .ok (ct, cf) →
      nth cf.state 12 = 1 +
        (chachaTrace (chacha20_init (simple_hash k) ((simple_hash k).take 12) 1) b).length) := by
  have hkl : ¬ k.length = 0 := by simpa [List.length_eq_zero] using hk
  have h12 : 12 < (chacha20_init (simple_hash k) ((simple_hash k).take 12) 1).state.length := by
    rw [chacha20_init_state_length]
    omega
  have hc : nth (chacha20_init (simple_hash k) ((simple_hash k).take 12) 1).state 12 < U32 := by
    rw [chacha20_init_counter]
    simp [U32]
  refine ⟨?_, chachaTrace_pairwise b _ h12 hc, ?_⟩
  · have hiff := chacha20_crypt_isOk_iff b (chacha20_init (simple_hash k)
      ((simple_hash k).take 12) 1) h12 hc
    rw [chachaCap_init] at hiff
    simp only [chacha20_encrypt, if_neg hkl]
    cases hcr : chacha20_crypt (chacha20_init (simple_hash k) ((simple_hash k).take 12) 1) b with
    | error e =>
      rw [hcr] at hiff
      simp only [Except.isOk, Except.toBool] at hiff ⊢
      simpa using hiff
    | ok p =>
      rw [hcr] at hiff
      simp only [Except.isOk, Except.toBool] at hiff ⊢
      simpa using hiff
  · intro ct cf hcr
    have h2 := chacha20_crypt_counter_link b (chacha20_init (simple_hash k)
      ((simple_hash k).take 12) 1) ct cf h12 hc hcr
    rw [chacha20_init_counter] at h2
    simpa [U32] using h2

/-- Witness for chacha20_counter_ceiling at a concrete key. -/
theorem chacha20_counter_ceiling_witness :
    ((chacha20_encrypt [5] [9]).isOk = true ↔ ([5] : List Nat).length ≤ 64 * (U32 - 2)) ∧
    (chachaTrace (chacha20_init (simple_hash [9]) ((simple_hash [9]).take 12) 1) [5]).Pairwise
      (· ≠ ·) ∧
    (∀ ct cf, chacha20_crypt (chacha20_init (simple_hash [9]) ((simple_hash [9]).take 12) 1) [5]
        = .ok (ct, cf) →
      nth cf.state 12 = 1 +
        (chachaTrace (chacha20_init (simple_hash [9]) ((simple_hash [9]).take 12) 1) [5]).length) :=
  chacha20_counter_ceiling [5] [9] (by decide)

/-! ## Claim C4 and C9 theorems -/

/-- C4: the LZ77 hash index in the source is a single process-wide static
array (static uint16_t hash_table[65536] in lz77.c), not a buffer
allocated inside each compress invocation; consequently the probe result
of find_longest_match depends on the table state it is handed, as these
two table states show at the same data and position. -/
theorem lz77_find_match_reads_shared_table :
    (find_longest_match (fun _ => 0) [7, 7, 7, 7, 7, 7, 7, 7] 4).1 ≠
      (find_longest_match (fun _ => 3) [7, 7, 7, 7, 7, 7, 7, 7] 4).1 := by
  decide

/-- C9: lz77_compress clears the static hash index with memset before the
first probe, so its output does not depend on the table state left behind
by earlier invocations: two sequential invocations on the same input
produce byte-identical output. -/
theorem lz77_compress_deterministic (tbl1 tbl2 : Nat → Nat) (input : List Nat) :
    lz77_compress tbl1 input = lz77_compress tbl2 input := rfl

/-! ## Claim C5 theorems -/

/-- C5 counterexample: the operation set requesting COMPRESS and DECRYPT
together passes the argument validator, yet the orchestrator runs
COMPRESS as the only stage, so DECRYPT is not stage 1 as the claim
requires. -/
theorem pipeline_c5_counterexample :
    configValid ⟨true, false, false, true⟩ = true ∧
      pipelineStages ⟨true, false, false, true⟩ = [Stage.compress] ∧
      ¬ c5ClaimedOrder ⟨true, false, false, true⟩ := by
  refine ⟨by decide, by decide, ?_⟩
  intro h
  have h2 := (h.2 rfl).1
  simp [pipelineStages] at h2

/-- C5 amended: for every operation set accepted by the argument
validator, COMPRESS (when requested) is stage 1 with ENCRYPT (when also
requested) as stage 2, and DECRYPT is stage 1 with DECOMPRESS (when also
requested) as stage 2 provided COMPRESS is not also requested. -/
theorem pipeline_stage_order (ops : Ops) (hv : configValid ops = true) :
    c5AmendedOrder ops := by
  obtain ⟨a, b, c, d⟩ := ops
  revert hv
  cases a <;> cases b <;> cases c <;> cases d <;> decide

/-- Witness for pipeline_stage_order at the compress-then-encrypt set. -/
theorem pipeline_stage_order_witness :
    c5AmendedOrder ⟨true, false, true, false⟩ :=
  pipeline_stage_order ⟨true, false, true, false⟩ (by decide)

/-! ## Truncation lemmas for the ciphers -/

theorem chacha20_truncation (b k out : List Nat) (hk : ¬ k.length = 0)
    (hlen : b.length < 2 ^ 64) (hok : chacha20_encrypt b k = .ok out) :
    chacha20_decrypt out.dropLast k = .error .encryption := by
  simp only [chacha20_encrypt, if_neg hk] at hok
  rcases hcr : chacha20_crypt (chacha20_init (simple_hash k) ((simple_hash k).take 12) 1) b
    with e | ⟨ct, cf⟩
  · rw [hcr] at hok
    simp at hok
  · rw [hcr] at hok
    have hout : out = (simple_hash k).take 12 ++ leBytes 8 b.length ++ ct :=
      ((Except.ok.injEq _ _).mp hok).symm
    have hctlen : ct.length = b.length := chacha20_crypt_length b _ ct cf hcr
    have hnlen : ((simple_hash k).take 12).length = 12 := by
      simp [List.length_take, simple_hash_length]
    subst hout
    by_cases hb : b.length = 0
    · have hol : (((simple_hash k).take 12 ++ leBytes 8 b.length ++ ct)).length = 20 := by
        simp only [List.length_append, hnlen, leBytes_length, hctlen, hb]
      rw [chacha20_decrypt, if_neg hk,
        if_pos (by rw [List.length_dropLast, hol]; norm_num)]
    · have hctne : ct ≠ [] := by
        intro h
        rw [h] at hctlen
        simp at hctlen
        omega
      have hdl : (((simple_hash k).take 12 ++ leBytes 8 b.length ++ ct)).dropLast =
          (simple_hash k).take 12 ++ (leBytes 8 b.length ++ ct.dropLast) := by
        rw [List.append_assoc, List.dropLast_append_of_ne_nil _ (by
          intro h
          exact hctne (List.append_eq_nil.mp h).2),
          List.dropLast_append_of_ne_nil _ hctne]
      rw [hdl]
      have h1 : ((simple_hash k).take 12 ++ (leBytes 8 b.length ++ ct.dropLast)).length =
          19 + b.length := by
        simp only [List.length_append, hnlen, leBytes_length, List.length_dropLast, hctlen]
        omega
      have hdrop : ((simple_hash k).take 12 ++ (leBytes 8 b.length ++ ct.dropLast)).drop 12 =
          leBytes 8 b.length ++ ct.dropLast := List.drop_left' hnlen
      have htake8 : (leBytes 8 b.length ++ ct.dropLast).take 8 = leBytes 8 b.length :=
        List.take_left' (leBytes_length 8 _)
      have hval : leVal (leBytes 8 b.length) = b.length := by
        rw [leVal_leBytes]
        have h2 : (256 : Nat) ^ 8 = 2 ^ 64 := by norm_num
        rw [h2]
        exact Nat.mod_eq_of_lt hlen
      simp only [chacha20_decrypt, if_neg hk, h1, hdrop, htake8, hval]
      rw [if_neg (by omega), if_pos (by omega)]

theorem salsa20_truncation (b k out : List Nat) (hk : ¬ k.length = 0)
    (hlen : b.length < 2 ^ 64) (hok : salsa20_encrypt b k = .ok out) :
    salsa20_decrypt out.dropLast k = .error .encryption := by
  simp only [salsa20_encrypt, if_neg hk] at hok
  by_cases hb0 : b.length = 0
  · rw [if_pos hb0] at hok
    simp at hok
  · rw [if_neg hb0] at hok
    have hout : out = (simple_hash k).take 8 ++ leBytes 8 b.length ++
        (salsa20_crypt (salsa20_init (simple_hash k) ((simple_hash k).take 8) 0) b).1 :=
      ((Except.ok.injEq _ _).mp hok).symm
    set ct := (salsa20_crypt (salsa20_init (simple_hash k) ((simple_hash k).take 8) 0) b).1
      with hct
    have hctlen : ct.length = b.length := salsa20_crypt_length b _
    have hnlen : ((simple_hash k).take 8).length = 8 := by
      simp [List.length_take, simple_hash_length]
    subst hout
    have hctne : ct ≠ [] := by
      intro h
      rw [h] at hctlen
      simp at hctlen
      omega
    have hdl : (((simple_hash k).take 8 ++ leBytes 8 b.length ++ ct)).dropLast =
        (simple_hash k).take 8 ++ (leBytes 8 b.length ++ ct.dropLast) := by
      rw [List.append_assoc, List.dropLast_append_of_ne_nil _ (by
        intro h
        exact hctne (List.append_eq_nil.mp h).2),
        List.dropLast_append_of_ne_nil _ hctne]
    rw [hdl]
    have h1 : ((simple_hash k).take 8 ++ (leBytes 8 b.length ++ ct.dropLast)).length =
        15 + b.length := by
      simp only [List.length_append, hnlen, leBytes_length, List.length_dropLast, hctlen]
      omega
    have hdrop : ((simple_hash k).take 8 ++ (leBytes 8 b.length ++ ct.dropLast)).drop 8 =
        leBytes 8 b.length ++ ct.dropLast := List.drop_left' hnlen
    have htake8 : (leBytes 8 b.length ++ ct.dropLast).take 8 = leBytes 8 b.length :=
      List.take_left' (leBytes_length 8 _)
    have hval : leVal (leBytes 8 b.length) = b.length := by
      rw [leVal_leBytes]
      have h2 : (256 : Nat) ^ 8 = 2 ^ 64 := by norm_num
      rw [h2]
      exact Nat.mod_eq_of_lt hlen
    simp only [salsa20_decrypt, if_neg hk, h1, hdrop, htake8, hval]
    rw [if_neg (by omega), if_pos (by omega)]

theorem rc4_truncation (b k out : List Nat) (hk : ¬ k.length = 0)
    (hlen : b.length < 2 ^ 64) (hok : rc4_encrypt b k = .ok out) :
    rc4_decrypt out.dropLast k = .error .encryption := by
  simp only [rc4_encrypt, if_neg hk] at hok
  by_cases hb0 : b.length = 0
  · rw [if_pos hb0] at hok
    simp at hok
  · rw [if_neg hb0] at hok
    have hout : out = leBytes 8 b.length ++
        (rc4_crypt (rc4_init ((simple_hash k).take 16)) b).1 :=
      ((Except.ok.injEq _ _).mp hok).symm
    set ct := (rc4_crypt (rc4_init ((simple_hash k).take 16)) b).1 with hct
    have hctlen : ct.length = b.length := rc4_crypt_length b _
    subst hout
    have hctne : ct ≠ [] := by
      intro h
      rw [h] at hctlen
      simp at hctlen
      omega
    have hdl : ((leBytes 8 b.length ++ ct)).dropLast =
        leBytes 8 b.length ++ ct.dropLast :=
      List.dropLast_append_of_ne_nil _ hctne
    rw [hdl]
    have h1 : (leBytes 8 b.length ++ ct.dropLast).length = 7 + b.length := by
      simp only [List.length_append, leBytes_length, List.length_dropLast, hctlen]
      omega
    have htake8 : (leBytes 8 b.length ++ ct.dropLast).take 8 = leBytes 8 b.length :=
      List.take_left' (leBytes_length 8 _)
    have hval : leVal (leBytes 8 b.length) = b.length := by
      rw [leVal_leBytes]
      have h2 : (256 : Nat) ^ 8 = 2 ^ 64 := by norm_num
      rw [h2]
      exact Nat.mod_eq_of_lt hlen
    simp only [rc4_decrypt, if_neg hk, h1, htake8, hval]
    rw [if_neg (by omega), if_pos (by omega)]

theorem lzwCompressGo_ne_nil : ∀ (rest : List Nat) (w : Nat) (d_e : List (Nat × Nat)),
    lzwCompressGo w d_e rest ≠ []
  | [], _, _ => by rw [lzwCompressGo]; simp
  | k :: rest, w, d_e => by
    rw [lzwCompressGo]
    rcases find_in_dict d_e w (k % 256) with _ | j
    · simp
    · exact lzwCompressGo_ne_nil rest j d_e

/-- C1 (corrected): for every non-empty byte sequence b whose length fits
well below the 32-bit frequency counters, each of the four engines round
trips: LZ77 compress-then-decompress returns b for every hash-table
state; Huffman and RLE compress, survive serialization and
deserialization unchanged, and decompress back to b; LZW compresses and,
whenever the emitted code stream avoids the full-dictionary code 4095
whose handling frees a live table entry, deserializes and decompresses
back to b.  The universal claim is refuted by the frequency-counter
wrap counterexample. -/
theorem compression_roundtrip (tbl : Nat → Nat) (b : List Nat) (hne : b ≠ [])
    (hbytes : ∀ x ∈ b, x < 256) (hlen : b.length < 2 ^ 32) :
    (lz77_compress tbl b).bind lz77_decompress = .ok b ∧
    (∃ hc, huffman_compress b = .ok hc ∧
      huffman_deserialize (huffman_serialize hc) = .ok hc ∧
      huffman_decompress hc = .ok b) ∧
    (∃ rc, rle_compress b = .ok rc ∧
      rle_deserialize (rle_serialize rc) = .ok rc ∧
      rle_decompress rc = .ok b) ∧
    (∃ lc, lzw_compress b = .ok lc ∧
      ((∀ cd ∈ lc.codes, cd ≠ 4095) →
        lzw_deserialize (lzw_serialize lc) = .ok lc ∧
        lzw_decompress lc = .ok b)) := by
  have hlen0 : b.length ≠ 0 := by simpa using hne
  refine ⟨lz77_roundtrip tbl b hne hbytes (by omega), ?_, ?_, ?_⟩
  · obtain ⟨c, hok, hdec, hfreq, horig, hdne, hdlen⟩ :=
      huffman_engine_roundtrip b hne hbytes hlen
    refine ⟨c, hok, ?_, hdec⟩
    refine huffman_serialize_deserialize c ?_ ?_ ?_ ?_
    · rw [hfreq]; exact computeFreq_length b
    · rw [hfreq]
      intro x hx
      have := computeFreq_bound b x hx
      simp only [U32] at this
      omega
    · rw [horig]; omega
    · omega
  · have hcomp : rle_compress b = .ok ⟨rleCompressGo b b.length 0, b.length⟩ := by
      rw [rle_compress, if_neg hlen0]
    have hrt := rle_roundtrip b hne hbytes
    rw [hcomp] at hrt
    simp only [Except.bind] at hrt
    refine ⟨⟨rleCompressGo b b.length 0, b.length⟩, hcomp, ?_, hrt⟩
    refine rle_serialize_deserialize _ _ (by omega) ?_
    have := rleCompressGo_length_le b b.length 0
    omega
  · cases b with
    | nil => exact absurd rfl hne
    | cons b0 rest =>
      refine ⟨⟨lzwCompressGo (b0 % 256) [] rest, (b0 :: rest).length⟩, rfl, ?_⟩
      intro hno
      have hb0 : b0 < 256 := hbytes b0 (by simp)
      have hcdlt : ∀ cd ∈ lzwCompressGo (b0 % 256) [] rest, cd < 4096 :=
        lzwCompress_codes_lt rest (b0 % 256) [] (by simp; omega) (by simp)
      have hclen := lzwCompress_codes_len rest (b0 % 256) []
      constructor
      · refine lzw_serialize_deserialize _ _
          (by simp only [List.length_cons] at hlen ⊢; omega) ?_ ?_
        · intro cd hcd
          have := hcdlt cd hcd
          omega
        · simp only [List.length_cons] at hlen ⊢
          omega
      · exact lzw_roundtrip (b0 :: rest) hbytes _ rfl hno

/-- Witness for compression_roundtrip at a concrete three-byte input. -/
theorem compression_roundtrip_witness :
    (lz77_compress (fun _ => 0) [1, 2, 2]).bind lz77_decompress = .ok [1, 2, 2] ∧
    (∃ hc, huffman_compress [1, 2, 2] = .ok hc ∧
      huffman_deserialize (huffman_serialize hc) = .ok hc ∧
      huffman_decompress hc = .ok [1, 2, 2]) ∧
    (∃ rc, rle_compress [1, 2, 2] = .ok rc ∧
      rle_deserialize (rle_serialize rc) = .ok rc ∧
      rle_decompress rc = .ok [1, 2, 2]) ∧
    (∃ lc, lzw_compress [1, 2, 2] = .ok lc ∧
      ((∀ cd ∈ lc.codes, cd ≠ 4095) →
        lzw_deserialize (lzw_serialize lc) = .ok lc ∧
        lzw_decompress lc = .ok [1, 2, 2])) :=
  compression_roundtrip (fun _ => 0) [1, 2, 2] (by decide) (by decide) (by decide)


theorem compression_roundtrip_cex :
    List.replicate (2 ^ 32) 65 ≠ ([] : List Nat) ∧
    huffman_compress (List.replicate (2 ^ 32) 65) = .error .memory := by
  constructor
  · intro h
    have h2 := congrArg List.length h
    rw [List.length_replicate, List.length_nil] at h2
    norm_num at h2
  · exact huffman_compress_replicate_wrap (2 ^ 32) 65 (by norm_num) (by norm_num)
      (by norm_num [U32])

/-- C3 (corrected): compress_data and decompress_data route the LZ77,
Huffman and RLE selectors to their engines — LZ77 passed through
directly, Huffman and RLE composed with their wire formats and any
engine failure normalized to GSEA_ERROR_COMPRESSION — but the COMP_LZW
selector has no case in either switch and falls through to the default
GSEA_ERROR_ARGS branch even though the LZW engine itself exists and
works, so only three of the four selectors are actually routed. -/
theorem dispatcher_routing (tbl : Nat → Nat) (b : List Nat) :
    compress_data tbl b .lz77 = lz77_compress tbl b ∧
    decompress_data b .lz77 = lz77_decompress b ∧
    (∀ c, huffman_compress b = .ok c →
      compress_data tbl b .huffman = .ok (huffman_serialize c)) ∧
    (∀ e, huffman_compress b = .error e →
      compress_data tbl b .huffman = .error .compression) ∧
    (∀ c, rle_compress b = .ok c →
      compress_data tbl b .rle = .ok (rle_serialize c)) ∧
    (∀ e, rle_compress b = .error e →
      compress_data tbl b .rle = .error .compression) ∧
    (∀ c out, huffman_deserialize b = .ok c → huffman_decompress c = .ok out →
      decompress_data b .huffman = .ok out) ∧
    (∀ c out, rle_deserialize b = .ok c → rle_decompress c = .ok out →
      decompress_data b .rle = .ok out) ∧
    compress_data tbl b .lzw = .error .args ∧
    decompress_data b .lzw = .error .args := by
  refine ⟨rfl, rfl, ?_, ?_, ?_, ?_, ?_, ?_, rfl, rfl⟩
  · intro c h
    simp only [compress_data, h]
  · intro e h
    simp only [compress_data, h]
  · intro c h
    simp only [compress_data, h]
  · intro e h
    simp only [compress_data, h]
  · intro c out h1 h2
    simp only [decompress_data, h1, h2]
  · intro c out h1 h2
    simp only [decompress_data, h1, h2]

/-- Witness for dispatcher_routing at a concrete table and input. -/
theorem dispatcher_routing_witness :
    compress_data (fun _ => 0) [65] .lz77 = lz77_compress (fun _ => 0) [65] ∧
    decompress_data [65] .lz77 = lz77_decompress [65] ∧
    (∀ c, huffman_compress [65] = .ok c →
      compress_data (fun _ => 0) [65] .huffman = .ok (huffman_serialize c)) ∧
    (∀ e, huffman_compress [65] = .error e →
      compress_data (fun _ => 0) [65] .huffman = .error .compression) ∧
    (∀ c, rle_compress [65] = .ok c →
      compress_data (fun _ => 0) [65] .rle = .ok (rle_serialize c)) ∧
    (∀ e, rle_compress [65] = .error e →
      compress_data (fun _ => 0) [65] .rle = .error .compression) ∧
    (∀ c out, huffman_deserialize [65] = .ok c → huffman_decompress c = .ok out →
      decompress_data [65] .huffman = .ok out) ∧
    (∀ c out, rle_deserialize [65] = .ok c → rle_decompress c = .ok out →
      decompress_data [65] .rle = .ok out) ∧
    compress_data (fun _ => 0) [65] .lzw = .error .args ∧
    decompress_data [65] .lzw = .error .args :=
  dispatcher_routing (fun _ => 0) [65]

/-- Counterexample to the universal C3 routing claim: the LZW engine
compresses a one-byte input successfully, yet the dispatcher returns the
arguments error for the COMP_LZW selector instead of routing to it. -/
theorem dispatcher_routing_cex :
    lzw_compress [65] = .ok ⟨[65], 1⟩ ∧
    compress_data (fun _ => 0) [65] .lzw = .error .args :=
  ⟨rfl, rfl⟩

/-- C7 (corrected): an input of n identical bytes v takes the Huffman
single-symbol special case — the payload is the single byte v and the
frequency table has v as its only nonzero entry — and decompression
returns the n copies exactly, provided n is not a multiple of 2^32; at
multiples of 2^32 the 32-bit frequency counter wraps to zero and
compression fails with a memory error instead. -/
theorem huffman_single_symbol (n v : Nat) (hn : 1 ≤ n) (hv : v < 256)
    (hmod : n % U32 ≠ 0) :
    ∃ c, huffman_compress (List.replicate n v) = .ok c ∧ c.data = [v] ∧
      (List.range 256).filter (fun i => decide (0 < nth c.freq_table i)) = [v] ∧
      huffman_decompress c = .ok (List.replicate n v) := by
  obtain ⟨h1, h2, h3⟩ := huffman_replicate_spec n v hn hv hmod
  exact ⟨⟨[v], n, (List.replicate 256 0).set v (n % U32)⟩, h1, rfl, h3, h2⟩

/-- Witness for huffman_single_symbol at three copies of byte 65. -/
theorem huffman_single_symbol_witness :
    ∃ c, huffman_compress (List.replicate 3 65) = .ok c ∧ c.data = [65] ∧
      (List.range 256).filter (fun i => decide (0 < nth c.freq_table i)) = [65] ∧
      huffman_decompress c = .ok (List.replicate 3 65) :=
  huffman_single_symbol 3 65 (by norm_num) (by norm_num) (by norm_num [U32])

/-- Counterexample to the universal C7 claim: at n = 2^33 copies the
frequency counter wraps to zero and Huffman compression fails outright
rather than taking the single-symbol path. -/
theorem huffman_single_symbol_cex :
    huffman_compress (List.replicate (2 ^ 33) 66) = .error .memory :=
  huffman_compress_replicate_wrap (2 ^ 33) 66 (by norm_num) (by norm_num)
    (by norm_num [U32])

/-- C8 (corrected): dropping the last byte of a container produced by any
engine or cipher never succeeds, and the failure is a corruption-class
error for the Huffman, RLE and LZW wire formats (LZW_ERROR_CORRUPT /
HUFFMAN_ERROR_CORRUPT / RLE_ERROR_CORRUPT) and GSEA_ERROR_ENCRYPTION for
the three ciphers; for LZ77, however, a truncated single-token container
shrinks below the 12-byte minimum and is rejected with the
arguments-class GSEA_ERROR_ARGS, and longer containers fail with
GSEA_ERROR_COMPRESSION, so the failure is not uniformly
corruption-class. -/
theorem truncation_behavior (tbl : Nat → Nat) (b k : List Nat) (hne : b ≠ [])
    (hbytes : ∀ x ∈ b, x < 256) (hlen : b.length < 2 ^ 32) (hk : k ≠ []) :
    (∀ out, lz77_compress tbl b = .ok out →
      (out.length = 12 → lz77_decompress out.dropLast = .error .args) ∧
      (13 ≤ out.length → lz77_decompress out.dropLast = .error .compression)) ∧
    (∀ c, huffman_compress b = .ok c →
      huffman_deserialize ((huffman_serialize c).dropLast) = .error .corrupt) ∧
    (∀ c, rle_compress b = .ok c →
      rle_deserialize ((rle_serialize c).dropLast) = .error .corrupt) ∧
    (∀ c, lzw_compress b = .ok c →
      lzw_deserialize ((lzw_serialize c).dropLast) = .error .corrupt) ∧
    (∀ out, chacha20_encrypt b k = .ok out →
      chacha20_decrypt out.dropLast k = .error .encryption) ∧
    (∀ out, salsa20_encrypt b k = .ok out →
      salsa20_decrypt out.dropLast k = .error .encryption) ∧
    (∀ out, rc4_encrypt b k = .ok out →
      rc4_decrypt out.dropLast k = .error .encryption) := by
  have hlen0 : b.length ≠ 0 := by simpa using hne
  have hkl : ¬ k.length = 0 := by simpa [List.length_eq_zero] using hk
  have hlen64 : b.length < 2 ^ 64 := by omega
  refine ⟨?_, ?_, ?_, ?_, ?_, ?_, ?_⟩
  · intro out hok
    exact lz77_container_truncation tbl b hne hbytes hlen64 out hok
  · intro c hok
    obtain ⟨c2, hok2, -, hfreq, -, hdne, -⟩ := huffman_engine_roundtrip b hne hbytes hlen
    rw [hok] at hok2
    have hcc : c = c2 := (Except.ok.injEq _ _).mp hok2
    subst hcc
    exact huffman_truncation c hdne (by rw [hfreq]; exact computeFreq_length b)
  · intro c hok
    have hcomp : rle_compress b = .ok ⟨rleCompressGo b b.length 0, b.length⟩ := by
      rw [rle_compress, if_neg hlen0]
    rw [hok] at hcomp
    have hcc : c = ⟨rleCompressGo b b.length 0, b.length⟩ :=
      (Except.ok.injEq _ _).mp hcomp
    subst hcc
    exact rle_truncation _ _ (rleCompressGo_ne_nil b b.length 0 (by omega) (by omega))
  · intro c hok
    cases b with
    | nil => exact absurd rfl hne
    | cons b0 rest =>
      have hcomp : lzw_compress (b0 :: rest) =
          .ok ⟨lzwCompressGo (b0 % 256) [] rest, (b0 :: rest).length⟩ := rfl
      rw [hok] at hcomp
      have hcc : c = ⟨lzwCompressGo (b0 % 256) [] rest, (b0 :: rest).length⟩ :=
        (Except.ok.injEq _ _).mp hcomp
      subst hcc
      refine lzw_truncation _ _ (lzwCompressGo_ne_nil rest (b0 % 256) []) ?_
      have hclen := lzwCompress_codes_len rest (b0 % 256) []
      simp only [List.length_cons] at hlen
      omega
  · intro out hok
    exact chacha20_truncation b k out hkl hlen64 hok
  · intro out hok
    exact salsa20_truncation b k out hkl hlen64 hok
  · intro out hok
    exact rc4_truncation b k out hkl hlen64 hok

/-- Witness for truncation_behavior at a concrete input and key. -/
theorem truncation_behavior_witness :
    (∀ out, lz77_compress (fun _ => 0) [65] = .ok out →
      (out.length = 12 → lz77_decompress out.dropLast = .error .args) ∧
      (13 ≤ out.length → lz77_decompress out.dropLast = .error .compression)) ∧
    (∀ c, huffman_compress [65] = .ok c →
      huffman_deserialize ((huffman_serialize c).dropLast) = .error .corrupt) ∧
    (∀ c, rle_compress [65] = .ok c →
      rle_deserialize ((rle_serialize c).dropLast) = .error .corrupt) ∧
    (∀ c, lzw_compress [65] = .ok c →
      lzw_deserialize ((lzw_serialize c).dropLast) = .error .corrupt) ∧
    (∀ out, chacha20_encrypt [65] [7] = .ok out →
      chacha20_decrypt out.dropLast [7] = .error .encryption) ∧
    (∀ out, salsa20_encrypt [65] [7] = .ok out →
      salsa20_decrypt out.dropLast [7] = .error .encryption) ∧
    (∀ out, rc4_encrypt [65] [7] = .ok out →
      rc4_decrypt out.dropLast [7] = .error .encryption) :=
  truncation_behavior (fun _ => 0) [65] [7] (by decide) (by decide) (by decide)
    (by decide)

/-- Counterexample to the universal C8 corruption-class claim: the LZ77
container for a one-byte input is exactly the 8-byte header plus one
4-byte token; dropping its last byte falls below the 12-byte minimum and
decompression rejects it with GSEA_ERROR_ARGS, an arguments-class error
rather than a corruption-class one. -/
theorem truncation_behavior_cex :
    lz77_compress (fun _ => 0) [65] = .ok [0, 0, 0, 0, 0, 0, 0, 1, 0, 0, 0, 65] ∧
    lz77_decompress (List.dropLast [0, 0, 0, 0, 0, 0, 0, 1, 0, 0, 0, 65]) =
      .error .args :=
  ⟨rfl, rfl⟩

/-- C10 (corrected): each of the three deserializers accepts a container
exactly when its total length equals the fixed header size plus the
declared payload size (16 + size for RLE, 1040 + size for Huffman, and
16 + 2 * count for LZW), so trailing bytes are rejected; but for LZW the
size check wraps modulo 2^64, and the rejection is not always
corruption-class: a 16-byte container declaring 2^63 codes passes the
wrapped check and the code-reading loop runs far out of bounds
(undefined behavior, modeled as an out-of-bounds error). -/
theorem deserialize_exact (input : List Nat) (hbytes : ∀ x ∈ input, x < 256)
    (hlen : input.length < 2 ^ 64) :
    ((rle_deserialize input).isOk = true ↔
      input.length = 16 + leVal ((input.drop 8).take 8)) ∧
    ((huffman_deserialize input).isOk = true ↔
      input.length = 1040 + leVal ((input.drop 8).take 8)) ∧
    ((lzw_deserialize input).isOk = true ↔
      input.length = 16 + leVal ((input.drop 8).take 8) * 2) :=
  ⟨rle_deserialize_exact input hbytes hlen,
   huffman_deserialize_exact input hbytes hlen,
   lzw_deserialize_exact input hbytes hlen⟩

/-- Witness for deserialize_exact at a concrete 18-byte container. -/
theorem deserialize_exact_witness :
    ((rle_deserialize (List.replicate 18 0)).isOk = true ↔
      (List.replicate 18 0).length = 16 + leVal (((List.replicate 18 0).drop 8).take 8)) ∧
    ((huffman_deserialize (List.replicate 18 0)).isOk = true ↔
      (List.replicate 18 0).length = 1040 + leVal (((List.replicate 18 0).drop 8).take 8)) ∧
    ((lzw_deserialize (List.replicate 18 0)).isOk = true ↔
      (List.replicate 18 0).length = 16 + leVal (((List.replicate 18 0).drop 8).take 8) * 2) :=
  deserialize_exact (List.replicate 18 0) (by decide) (by decide)

/-- Counterexample to the universal C10 corruption-class claim: a 16-byte
LZW container whose declared code count is 2^63 makes the size check wrap
to 16 and pass, after which the reading loop dereferences far beyond the
input (undefined behavior, out-of-bounds), instead of the container being
rejected with a corruption error. -/
theorem deserialize_exact_cex :
    lzw_deserialize (List.replicate 8 0 ++ [0, 0, 0, 0, 0, 0, 0, 128]) =
      .error .oob := rfl
